import Mathlib

/-!
# Chaco `flatten.c`: supernode detection (`flatten`, `find_flat`, `SameStructure`)

A shallow embedding of `packages/seacas/libraries/chaco/klvspiff/flatten.c`.

* C arrays indexed by vertex number (`hash`, `scatter`, `v2cv`, `graph`) are total maps
  from `Nat`; a write is `store`.  Memory returned by `smalloc` is not initialised, so its
  contents on entry are parameters of the functions that allocate it.
* Vertex numbers, edge counts and coarse vertex numbers are the non-negative C `int`s of a
  graph; they are `Nat`.  The hash accumulator is an `int` that may overflow; it is an
  `Int` reduced to the two's-complement 32-bit range after every addition (`wrap32`).
* The comparison `cnvtxs <= Thresh * nvtxs` is carried out in IEEE-754 binary64; doubles
  are the rationals they denote and `fl64` is rounding to nearest, ties to even.
-/

namespace Chaco

/-! ## Data model -/

/-- Modelled from the spec: `struct vtx_data` is declared in Chaco's `structs.h`, not in
`flatten.c`.  A record exposes its ordered neighbor sequence `edges` (by
convention `edges[0]` is the vertex itself) and the count `nedges` of its entries; the
pair (pointer, count) is a list.  Vertex and edge weights are not read by this file. -/
structure vtx_data where
  edges : List Nat
deriving DecidableEq

/-- The field `nedges`: number of entries of `edges`, the self entry included. -/
def vtx_data.nedges (v : vtx_data) : Nat := v.edges.length

/-- The array `struct vtx_data **graph`; `graph i` is `*graph[i]`. -/
abbrev Graph := Nat → vtx_data

/-- The entries `edges[1], ..., edges[nedges-1]` visited by every
`for (j = 1; j < graph[i]->nedges; j++)` loop, in loop order. -/
def nbrs (graph : Graph) (i : Nat) : List Nat := (graph i).edges.tail

/-- Array write `a[i] = v`. -/
def store {α : Type} (a : Nat → α) (i : Nat) (v : α) : Nat → α :=
  fun k => if k = i then v else a k

/-- Reduction of an integer to the range of a 32-bit two's-complement `int`. -/
def wrap32 (x : Int) : Int := (x + 2147483648) % 4294967296 - 2147483648

/-! ## `SameStructure` -/

/-- First loop of `SameStructure`: `scatter[graph[node1]->edges[i]] = node1`. -/
def mark_loop (node1 : Nat) : List Nat → (Nat → Nat) → (Nat → Nat)
  | [], scatter => scatter
  | e :: es, scatter => mark_loop node1 es (store scatter e node1)

/-- Second loop of `SameStructure`: returns the value of the counter `i` on exit; the
`break` leaves the loop with the current `i`. -/
def scan_loop (node1 : Nat) (scatter : Nat → Nat) : List Nat → Nat → Nat
  | [], i => i
  | e :: es, i => if scatter e ≠ node1 then i else scan_loop node1 scatter es (i + 1)

/-- The function `SameStructure(node1, node2, graph, scatter)`: the returned flag together
with the contents of `scatter` on exit. -/
def SameStructure (node1 node2 : Nat) (graph : Graph) (scatter : Nat → Nat) :
    Bool × (Nat → Nat) :=
  let scatter1 := store scatter node1 node1
  let scatter2 := mark_loop node1 (nbrs graph node1) scatter1
  let i := scan_loop node1 scatter2 (nbrs graph node2) 1
  (decide (i = (graph node2).nedges) && decide (scatter2 node2 = node1), scatter2)

/-! ## `find_flat` -/

/-- The value of `this_hash` stored into `hash[i]`: starts at `i`, adds each of
`edges[1..nedges-1]` with `int` arithmetic. -/
def hash_vertex (graph : Graph) (i : Nat) : Int :=
  (nbrs graph i).foldl (fun (this_hash : Int) (e : Nat) => wrap32 (this_hash + (e : Int)))
    (i : Int)

/-- The loop `for (i = 1; i <= nvtxs; i++) hash[i] = this_hash`. -/
def hash_loop (graph : Graph) (nvtxs : Nat) (hash : Nat → Int) : Nat → Int :=
  (List.range' 1 nvtxs).foldl (fun (h : Nat → Int) (i : Nat) => store h i (hash_vertex graph i))
    hash

/-- The variables of `find_flat` that the supernode loop updates. -/
structure FlatState where
  v2cv : Nat → Nat
  scatter : Nat → Nat
  cnvtxs : Nat

/-- The loop `for (i = 1; i <= nvtxs; i++) { v2cv[i] = 0; scatter[i] = 0; }`
followed by `cnvtxs = 0`. -/
def zero_loop (nvtxs : Nat) (v2cv scatter : Nat → Nat) : FlatState :=
  (List.range' 1 nvtxs).foldl
    (fun st i => { st with v2cv := store st.v2cv i 0, scatter := store st.scatter i 0 })
    { v2cv := v2cv, scatter := scatter, cnvtxs := 0 }

/-- One iteration of the inner loop of `find_flat` for representative `i` and
`neighbor = graph[i]->edges[j]`.  The `&&` chain is evaluated left to right, so
`SameStructure` runs (and writes `scatter`) only when the four cheaper tests pass. -/
def absorb_step (graph : Graph) (hash : Nat → Int) (i : Nat) (st : FlatState)
    (neighbor : Nat) : FlatState :=
  if neighbor > i ∧ hash neighbor = hash i ∧
      (graph i).nedges = (graph neighbor).nedges ∧ st.v2cv neighbor = 0 then
    let r := SameStructure i neighbor graph st.scatter
    if r.1 then
      { st with v2cv := store st.v2cv neighbor st.cnvtxs, scatter := r.2 }
    else
      { st with scatter := r.2 }
  else st

/-- One iteration of the outer supernode loop of `find_flat`. -/
def group_step (graph : Graph) (hash : Nat → Int) (st : FlatState) (i : Nat) : FlatState :=
  if st.v2cv i = 0 then
    let cnvtxs := st.cnvtxs + 1
    let st1 : FlatState := { st with cnvtxs := cnvtxs, v2cv := store st.v2cv i cnvtxs }
    (nbrs graph i).foldl (absorb_step graph hash i) st1
  else st

/-- Uninitialised contents of the two arrays `find_flat` obtains from `smalloc`. -/
structure Scratch where
  hash : Nat → Int
  scatter : Nat → Nat

/-- The function `find_flat(graph, nvtxs, &cnvtxs, v2cv)`; `v2cv` is the caller's array
as it is on entry.  Returns `(*pcnvtxs, v2cv)` on exit. -/
def find_flat (graph : Graph) (nvtxs : Nat) (v2cv : Nat → Nat) (m : Scratch) :
    Nat × (Nat → Nat) :=
  let hash := hash_loop graph nvtxs m.hash
  let st0 := zero_loop nvtxs v2cv m.scatter
  let st := (List.range' 1 nvtxs).foldl (group_step graph hash) st0
  (st.cnvtxs, st.v2cv)

/-- A graph given by the list of its `edges` arrays, entry `i` being vertex `i`
(entry 0 is the unused slot). -/
def graphOf (l : List (List Nat)) : Graph := fun i => ⟨l.getD i []⟩

/-- All-zero scratch memory. -/
def zeroScratch : Scratch := ⟨fun _ => 0, fun _ => 0⟩

/-! ## `flatten` -/

/-- Round a rational to the nearest integer, ties to the even one. -/
def roundHalfEven (q : ℚ) : ℤ :=
  let f := ⌊q⌋
  let r := q - f
  if r < 1 / 2 then f
  else if 1 / 2 < r then f + 1
  else if f % 2 = 0 then f else f + 1

/-- IEEE-754 binary64 rounding to nearest, ties to even, of a real number in the normal
range: the result has a 53-bit significand. -/
def fl64 (x : ℚ) : ℚ :=
  if x = 0 then 0
  else
    let e := Int.log 2 |x|
    let ulp : ℚ := 2 ^ (e - 52)
    roundHalfEven (x / ulp) * ulp

/-- The constant `Thresh = .9`: the `double` nearest to nine tenths. -/
def Thresh : ℚ := fl64 (9 / 10)

/-- The test `cnvtxs <= Thresh * nvtxs`: both `int`s are converted to `double`, the product
is rounded, the comparison is exact. -/
def sufficient_shrinkage (cnvtxs nvtxs : Nat) : Bool :=
  decide (fl64 (cnvtxs : ℚ) ≤ fl64 (Thresh * fl64 (nvtxs : ℚ)))

/-- The memory of the caller that `flatten` can reach through its pointer arguments: the
input graph and the five output locations.  `Coords` is the type of a coordinate array. -/
structure World (Coords : Type) where
  graph : Graph
  pcgraph : Graph
  pcnvtxs : Nat
  pcnedges : Int
  pv2cv : Nat → Nat
  ccoords : Coords

/-- The arguments of one call of `makefgraph`, pointer arguments apart. -/
structure MakefCall (Coords : Type) where
  nvtxs : Nat
  nedges : Int
  cnvtxs : Nat
  v2cv : Nat → Nat
  using_ewgts : Int
  igeom : Int
  coords : Coords

/-- What a call of `flatten` leaves behind: the returned flag, the caller's memory, and
the calls of `makefgraph` it made, in order. -/
structure FlattenResult (Coords : Type) where
  ret : Bool
  world : World Coords
  makefgraph_calls : List (MakefCall Coords)

/-- The function `flatten`.  `makefgraph` (defined elsewhere in Chaco, not in this file) is
a parameter: an arbitrary transformation of the caller's memory.  `v2cv` and `m` are the
contents of the freshly allocated arrays. -/
def flatten {Coords : Type} (makefgraph : MakefCall Coords → World Coords → World Coords)
    (w : World Coords) (nvtxs : Nat) (nedges : Int) (using_ewgts igeom : Int)
    (coords : Coords) (v2cv : Nat → Nat) (m : Scratch) : FlattenResult Coords :=
  let r := find_flat w.graph nvtxs v2cv m
  let cnvtxs := r.1
  if sufficient_shrinkage cnvtxs nvtxs then
    let call : MakefCall Coords := ⟨nvtxs, nedges, cnvtxs, r.2, using_ewgts, igeom, coords⟩
    let w1 := makefgraph call w
    ⟨true, { w1 with pcnvtxs := cnvtxs, pv2cv := r.2 }, [call]⟩
  else
    ⟨false, w, []⟩

/-! ## Specification vocabulary -/

/-- The vertex numbers `1, ..., n`. -/
def vertices (n : Nat) : List Nat := List.range' 1 n

/-- What the flag of `SameStructure` decides when no stale mark `A` is read: vertex `B` has
a record with at least its self entry, every entry `edges[1..]` of `B` is `A` or one of
`A`s entries, and `A` lists `B` (or `B` is `A`). -/
def Covered (graph : Graph) (A B : Nat) : Prop :=
  (graph B).edges ≠ [] ∧ (∀ e ∈ nbrs graph B, e = A ∨ e ∈ nbrs graph A) ∧
    (B = A ∨ B ∈ nbrs graph A)

instance decidableCovered (graph : Graph) (A B : Nat) : Decidable (Covered graph A B) := by
  unfold Covered; infer_instance

/-- Invariant of the supernode loop when the counter is `i` (vertices `1..i-1` are done). -/
structure BasicInv (n i : Nat) (st : FlatState) : Prop where
  assigned : ∀ k, 1 ≤ k → k < i → st.v2cv k ≠ 0
  bound : ∀ k, 1 ≤ k → k ≤ n → st.v2cv k ≤ st.cnvtxs
  used : ∀ c, 1 ≤ c → c ≤ st.cnvtxs → ∃ k, 1 ≤ k ∧ k < i ∧ st.v2cv k = c
  ordered : ∀ k, 1 ≤ k → k ≤ n → ∀ c, 1 ≤ c → c < st.v2cv k →
    ∃ r, 1 ≤ r ∧ r < k ∧ st.v2cv r = c
  count : st.cnvtxs < i
  below : ∀ k, 1 ≤ k → k ≤ n → st.v2cv k ≤ k

/-- The state of `find_flat` when the supernode loop ends. -/
def final_state (graph : Graph) (n : Nat) (v2cv : Nat → Nat) (m : Scratch) : FlatState :=
  (List.range' 1 n).foldl (group_step graph (hash_loop graph n m.hash))
    (zero_loop n v2cv m.scatter)

/-- Every entry `edges[1..nedges-1]` of every vertex `1..n` is a vertex number in `1..n`. -/
def WellFormed (graph : Graph) (n : Nat) : Prop :=
  ∀ i ∈ vertices n, ∀ e ∈ nbrs graph i, e ∈ vertices n

instance decidableWellFormed (graph : Graph) (n : Nat) : Decidable (WellFormed graph n) := by
  unfold WellFormed; infer_instance

/-- The list `edges[1..nedges-1]` of every vertex `1..n` has no repeated entry and does not
contain the vertex itself. -/
def SimpleLists (graph : Graph) (n : Nat) : Prop :=
  ∀ i ∈ vertices n, (nbrs graph i).Nodup ∧ i ∉ nbrs graph i

instance decidableSimpleLists (graph : Graph) (n : Nat) : Decidable (SimpleLists graph n) := by
  unfold SimpleLists; infer_instance

/-- Vertices `x` and `y` have the same closed neighborhood, counted with multiplicity:
`x` followed by its entries is a rearrangement of `y` followed by its entries. -/
def Twin (graph : Graph) (x y : Nat) : Prop :=
  (x :: nbrs graph x).Perm (y :: nbrs graph y)

/-- The four tests of the inner loop of `find_flat` that do not depend on the state,
with the flag of `SameStructure` replaced by what it decides. -/
def Absorbs (graph : Graph) (hash : Nat → Int) (i k : Nat) : Prop :=
  k > i ∧ hash k = hash i ∧ (graph i).nedges = (graph k).nedges ∧ Covered graph i k

instance decidableAbsorbs (graph : Graph) (hash : Nat → Int) (i k : Nat) :
    Decidable (Absorbs graph hash i k) := by
  unfold Absorbs; infer_instance

/-- Sum of the entries `edges[1..nedges-1]` of vertex `i`, as an integer. -/
def nbr_sum (graph : Graph) (i : Nat) : Int :=
  ((nbrs graph i).map (fun e : Nat => (e : Int))).sum

/-- State of `scatter` while vertex `i` is the representative: every mark is the number of
a representative met so far, and a mark `i` sits on `i` or on one of its entries. -/
def ScatterOK (graph : Graph) (n i : Nat) (s : Nat → Nat) : Prop :=
  ∀ x ∈ vertices n, s x ≤ i ∧ (s x = i → x = i ∨ x ∈ nbrs graph i)

/-- Invariant of the supernode loop on a well-formed graph with duplicate-free, self-free
lists, when the counter is `i`. -/
structure StructInv (graph : Graph) (n i : Nat) (st : FlatState) : Prop where
  basic : BasicInv n i st
  marks : ∀ x ∈ vertices n, st.scatter x < i
  sound : ∀ j ∈ vertices n, ∀ k ∈ vertices n, st.v2cv j ≠ 0 → st.v2cv j = st.v2cv k →
    Twin graph j k
  complete : ∀ x ∈ vertices n, x < i → ∀ y ∈ vertices n, Twin graph x y →
    st.v2cv y = st.v2cv x

/-- Vertex `k` is the smallest vertex of `1..n` that `v2cv` maps to the coarse vertex `c`. -/
def FirstWith (v2cv : Nat → Nat) (n c k : Nat) : Prop :=
  1 ≤ k ∧ k ≤ n ∧ v2cv k = c ∧ ∀ j, 1 ≤ j → j ≤ n → v2cv j = c → k ≤ j

/-- A multigraph on five vertices: vertex 2 lists vertex 4 three times. -/
def dupGraph : Graph :=
  graphOf [[], [1, 2, 3, 4, 5], [2, 1, 4, 4, 4], [3, 1], [4, 1, 2, 2, 2], [5, 1]]

/-- Vertices 2, 3, 4 are pairwise adjacent and each is adjacent to 5 and 6. -/
def cliqueGraph : Graph :=
  graphOf [[], [1, 5], [2, 3, 4, 5, 6], [3, 2, 4, 5, 6], [4, 2, 3, 5, 6], [5, 1, 2, 3, 4],
    [6, 2, 3, 4]]

/-- A triangle. -/
def triangleGraph : Graph := graphOf [[], [1, 2, 3], [2, 1, 3], [3, 1, 2]]

/-- A path with vertex 1 in the middle. -/
def starGraph : Graph := graphOf [[], [1, 2, 3], [2, 1], [3, 1]]

/-- A single vertex without neighbors. -/
def pointGraph : Graph := graphOf [[], [1]]

/-- Memory of a caller that holds `graph` and zeroed output locations. -/
def worldOf (graph : Graph) : World Unit := ⟨graph, fun _ => ⟨[]⟩, 0, 0, fun _ => 0, ()⟩

/-- The star with `n` vertices and center 1: a simple graph. -/
def starOf (n : Nat) : Graph :=
  fun i => if i = 1 then ⟨1 :: List.range' 2 (n - 1)⟩ else ⟨[i, 1]⟩

/-- A path 1 - 2 - 3. -/
def pathGraph : Graph := graphOf [[], [1, 2], [2, 1, 3], [3, 2]]

/-- A loop-free symmetric multigraph on five vertices in which vertex 3 passes every test
against vertex 1 and against vertex 2, while vertex 2 does not pass against vertex 1
(vertex 2 lists vertex 5, vertex 1 does not). -/
def stealGraph : Graph :=
  graphOf [[], [1, 2, 2, 3, 4, 4, 4, 4], [2, 1, 1, 3, 3, 4, 5, 5], [3, 1, 2, 2, 4, 4, 4, 4],
    [4, 1, 1, 1, 1, 2, 3, 3, 3, 3], [5, 2, 2]]

/-- What a loop leaves in a log: iteration `b` in state `s` appends `g s b`, and the state
moves on by the loop body `f`. -/
def trace_loop {σ β α : Type} (f : σ → β → σ) (g : σ → β → List α) : List β → σ → List α
  | [], _ => []
  | b :: bs, s => g s b ++ trace_loop f g bs (f s b)

/-- The representatives of a run of `find_flat`, in scan order: the vertices `i` for which
the test `v2cv[i] == 0` of the supernode loop succeeds, so that `v2cv[i] = ++cnvtxs` is
executed. -/
def representatives (graph : Graph) (n : Nat) (v2cv : Nat → Nat) (m : Scratch) : List Nat :=
  trace_loop (group_step graph (hash_loop graph n m.hash))
    (fun st i => if st.v2cv i = 0 then [i] else [])
    (List.range' 1 n) (zero_loop n v2cv m.scatter)

/-! ### Events -/

/-- What an execution of `find_flat` does to memory, one event per array subscript, in
program order; `visit_*` marks the start of an iteration of one of the three outer loops
and `call` the entry of `SameStructure` with the contents of `scatter` at that moment. -/
inductive Event where
  /-- The load `graph[k]` in `graph[k]->nedges` or `graph[k]->edges`. -/
  | graph_read (k : Nat)
  /-- The load `graph[k]->edges[j]`. -/
  | edges_read (k j : Nat)
  | hash_read (k : Nat)
  | hash_write (k : Nat)
  | scatter_read (k : Nat)
  | scatter_write (k : Nat)
  | v2cv_read (k : Nat)
  | v2cv_write (k v : Nat)
  | call (node1 node2 : Nat) (scatter : Nat → Nat)
  | visit_hash (i : Nat)
  | visit_zero (i : Nat)
  | visit_group (i : Nat)

/-- An event stays inside the arrays of a graph with `n` vertices: `hash`, `scatter`, `v2cv`
and `graph` are used at an index in `1..n` (never at 0), `edges` of vertex `k` below
`graph[k]->nedges`. -/
def InBounds (graph : Graph) (n : Nat) : Event → Prop
  | Event.graph_read k => 1 ≤ k ∧ k ≤ n
  | Event.edges_read k j => 1 ≤ k ∧ k ≤ n ∧ j < (graph k).nedges
  | Event.hash_read k => 1 ≤ k ∧ k ≤ n
  | Event.hash_write k => 1 ≤ k ∧ k ≤ n
  | Event.scatter_read k => 1 ≤ k ∧ k ≤ n
  | Event.scatter_write k => 1 ≤ k ∧ k ≤ n
  | Event.v2cv_read k => 1 ≤ k ∧ k ≤ n
  | Event.v2cv_write k _ => 1 ≤ k ∧ k ≤ n
  | Event.call _ _ _ => True
  | Event.visit_hash _ => True
  | Event.visit_zero _ => True
  | Event.visit_group _ => True

/-- Events of the first loop of `SameStructure` from counter value `i` on, the remaining
entries of `node1` being the list: per iteration the loop test, the load of the entry and
the write of the mark; at the end the failing loop test. -/
def mark_events (node1 : Nat) : List Nat → Nat → List Event
  | [], _ => [Event.graph_read node1]
  | e :: es, i =>
    [Event.graph_read node1, Event.graph_read node1, Event.edges_read node1 i,
      Event.scatter_write e] ++ mark_events node1 es (i + 1)

/-- Events of the second loop of `SameStructure` from counter value `i` on; the `break`
ends the loop without a further loop test. -/
def scan_events (node1 node2 : Nat) (scatter : Nat → Nat) : List Nat → Nat → List Event
  | [], _ => [Event.graph_read node2]
  | e :: es, i =>
    [Event.graph_read node2, Event.graph_read node2, Event.edges_read node2 i,
      Event.scatter_read e] ++
    (if scatter e ≠ node1 then [] else scan_events node1 node2 scatter es (i + 1))

/-- Events of `SameStructure(node1, node2, graph, scatter)`; in the last statement
`scatter[node2]` is read only when `i == graph[node2]->nedges` holds. -/
def SameStructure_events (node1 node2 : Nat) (graph : Graph) (scatter : Nat → Nat) :
    List Event :=
  let scatter1 := store scatter node1 node1
  let scatter2 := mark_loop node1 (nbrs graph node1) scatter1
  let i := scan_loop node1 scatter2 (nbrs graph node2) 1
  [Event.scatter_write node1] ++ mark_events node1 (nbrs graph node1) 1 ++
    scan_events node1 node2 scatter2 (nbrs graph node2) 1 ++ [Event.graph_read node2] ++
    (if i = (graph node2).nedges then [Event.scatter_read node2] else [])

/-- Events of one iteration of the inner loop of `find_flat` with counter `j` and
`neighbor = graph[i]->edges[j]`: the loop test, the load of `neighbor`, then the tests of
the `&&` chain as far as they are evaluated, and the write of `v2cv[neighbor]`. -/
def absorb_step_events (graph : Graph) (hash : Nat → Int) (i : Nat) (st : FlatState)
    (j neighbor : Nat) : List Event :=
  [Event.graph_read i, Event.graph_read i, Event.edges_read i j] ++
  (if neighbor > i then
    [Event.hash_read neighbor, Event.hash_read i] ++
    (if hash neighbor = hash i then
      [Event.graph_read i, Event.graph_read neighbor] ++
      (if (graph i).nedges = (graph neighbor).nedges then
        [Event.v2cv_read neighbor] ++
        (if st.v2cv neighbor = 0 then
          [Event.call i neighbor st.scatter] ++
          SameStructure_events i neighbor graph st.scatter ++
          (if (SameStructure i neighbor graph st.scatter).1 then
            [Event.v2cv_write neighbor st.cnvtxs] else [])
        else [])
      else [])
    else [])
  else [])

/-- Events of the inner loop of `find_flat` for representative `i` from counter value `j`
on; at the end the failing loop test. -/
def absorb_loop_events (graph : Graph) (hash : Nat → Int) (i : Nat) :
    List Nat → Nat → FlatState → List Event
  | [], _, _ => [Event.graph_read i]
  | neighbor :: rest, j, st =>
    absorb_step_events graph hash i st j neighbor ++
      absorb_loop_events graph hash i rest (j + 1) (absorb_step graph hash i st neighbor)

/-- Events of one iteration of the supernode loop of `find_flat`. -/
def group_step_events (graph : Graph) (hash : Nat → Int) (st : FlatState) (i : Nat) :
    List Event :=
  [Event.visit_group i, Event.v2cv_read i] ++
  (if st.v2cv i = 0 then
    [Event.v2cv_write i (st.cnvtxs + 1)] ++
    absorb_loop_events graph hash i (nbrs graph i) 1
      { st with cnvtxs := st.cnvtxs + 1, v2cv := store st.v2cv i (st.cnvtxs + 1) }
  else [])

/-- Events of the supernode loop of `find_flat` (the grouping pass). -/
def group_events (graph : Graph) (n : Nat) (v2cv : Nat → Nat) (m : Scratch) : List Event :=
  trace_loop (group_step graph (hash_loop graph n m.hash))
    (group_step_events graph (hash_loop graph n m.hash))
    (List.range' 1 n) (zero_loop n v2cv m.scatter)

/-- Events of the inner loop that adds up the hash value of vertex `i`. -/
def hash_sum_events (i : Nat) : List Nat → Nat → List Event
  | [], _ => [Event.graph_read i]
  | _ :: es, j =>
    [Event.graph_read i, Event.graph_read i, Event.edges_read i j] ++
      hash_sum_events i es (j + 1)

/-- Events of the hash loop of `find_flat`. -/
def hash_events (graph : Graph) (n : Nat) : List Event :=
  trace_loop (fun (u : Unit) (_ : Nat) => u)
    (fun _ i => [Event.visit_hash i] ++ hash_sum_events i (nbrs graph i) 1 ++
      [Event.hash_write i])
    (List.range' 1 n) ()

/-- Events of the loop of `find_flat` that zeroes `v2cv` and `scatter`. -/
def zero_events (n : Nat) : List Event :=
  trace_loop (fun (u : Unit) (_ : Nat) => u)
    (fun _ i => [Event.visit_zero i, Event.v2cv_write i 0, Event.scatter_write i])
    (List.range' 1 n) ()

/-- Events of `find_flat(graph, nvtxs, &cnvtxs, v2cv)`. -/
def find_flat_events (graph : Graph) (n : Nat) (v2cv : Nat → Nat) (m : Scratch) :
    List Event :=
  hash_events graph n ++ zero_events n ++ group_events graph n v2cv m

/-- The writes `v2cv[k] = v` of a log, as pairs `(k, v)` in program order. -/
def v2cv_writes (log : List Event) : List (Nat × Nat) :=
  log.filterMap (fun e => match e with
    | Event.v2cv_write k v => some (k, v)
    | _ => none)

/-- The iterations of the three outer loops of `find_flat` in a log, in program order:
`(1, i)` for the hash loop, `(2, i)` for the zeroing loop and `(3, i)` for the supernode
loop, `i` being the value of the loop counter. -/
def loop_visits (log : List Event) : List (Nat × Nat) :=
  log.filterMap (fun e => match e with
    | Event.visit_hash i => some (1, i)
    | Event.visit_zero i => some (2, i)
    | Event.visit_group i => some (3, i)
    | _ => none)

/-! ### The variant with a fresh `scatter` for every call -/

/-- The inner loop body of `find_flat` in the variant that hands `SameStructure` a zeroed
`scatter` array at every call. -/
def absorb_step_fresh (graph : Graph) (hash : Nat → Int) (i : Nat) (st : FlatState)
    (neighbor : Nat) : FlatState :=
  if neighbor > i ∧ hash neighbor = hash i ∧
      (graph i).nedges = (graph neighbor).nedges ∧ st.v2cv neighbor = 0 then
    let r := SameStructure i neighbor graph (fun _ => 0)
    if r.1 then
      { st with v2cv := store st.v2cv neighbor st.cnvtxs, scatter := r.2 }
    else
      { st with scatter := r.2 }
  else st

/-- The supernode loop body in the variant with a fresh `scatter` for every call. -/
def group_step_fresh (graph : Graph) (hash : Nat → Int) (st : FlatState) (i : Nat) :
    FlatState :=
  if st.v2cv i = 0 then
    let cnvtxs := st.cnvtxs + 1
    let st1 : FlatState := { st with cnvtxs := cnvtxs, v2cv := store st.v2cv i cnvtxs }
    (nbrs graph i).foldl (absorb_step_fresh graph hash i) st1
  else st

/-- The function `find_flat` in the variant with a fresh `scatter` for every call. -/
def find_flat_fresh (graph : Graph) (nvtxs : Nat) (v2cv : Nat → Nat) (m : Scratch) :
    Nat × (Nat → Nat) :=
  let hash := hash_loop graph nvtxs m.hash
  let st0 := zero_loop nvtxs v2cv m.scatter
  let st := (List.range' 1 nvtxs).foldl (group_step_fresh graph hash) st0
  (st.cnvtxs, st.v2cv)

/-- Graph `g2` arises from `g1` by rearranging, for each vertex of `1..n`, the entries
`edges[1..nedges-1]`; the entry `edges[0]` and the count `nedges` stay. -/
def PermutedLists (g1 g2 : Graph) (n : Nat) : Prop :=
  ∀ i ∈ vertices n, (g2 i).edges.head? = (g1 i).edges.head? ∧
    (nbrs g2 i).Perm (nbrs g1 i)

/-- The state of the supernode loop when its counter is `i`. -/
def state_at (graph : Graph) (n : Nat) (v2cv : Nat → Nat) (m : Scratch) (i : Nat) :
    FlatState :=
  (List.range' 1 (i - 1)).foldl (group_step graph (hash_loop graph n m.hash))
    (zero_loop n v2cv m.scatter)

/-- Every member of a supernode other than its first vertex passed the cheap tests of the
inner loop against that first vertex. -/
def RepRel (graph : Graph) (hash : Nat → Int) (n : Nat) (st : FlatState) : Prop :=
  ∀ j, 1 ≤ j → j ≤ n → st.v2cv j ≠ 0 →
    ∃ r, 1 ≤ r ∧ r ≤ j ∧ st.v2cv r = st.v2cv j ∧
      (∀ k, 1 ≤ k → k < r → st.v2cv k ≠ st.v2cv j) ∧
      (r = j ∨ (r < j ∧ j ∈ nbrs graph r ∧ hash j = hash r ∧
        (graph r).nedges = (graph j).nedges))

/-- The writes `W` lead from the contents `v` of `v2cv` to the contents `v'`: each write
hits an entry that was zero, stores a non-zero value that is still there at the end, no
entry is written twice, and only written entries change. -/
def Frame (v v' : Nat → Nat) (W : List (Nat × Nat)) : Prop :=
  (∀ p ∈ W, v p.1 = 0 ∧ p.2 ≠ 0 ∧ v' p.1 = p.2) ∧ (W.map Prod.fst).Nodup ∧
    (∀ k, v' k ≠ v k → k ∈ W.map Prod.fst) ∧ (∀ k, v k ≠ 0 → v' k = v k)

/-- Every non-zero mark on a vertex of `1..n` is the number of a representative below `i`
and sits on that representative or on one of its entries. -/
def MarksOK (graph : Graph) (reps : List Nat) (n i : Nat) (s : Nat → Nat) : Prop :=
  ∀ x, 1 ≤ x → x ≤ n → s x = 0 ∨
    (s x ∈ reps ∧ s x < i ∧ (x = s x ∨ x ∈ nbrs graph (s x)))

instance decidablePermutedLists (g1 g2 : Graph) (n : Nat) :
    Decidable (PermutedLists g1 g2 n) := by
  unfold PermutedLists; infer_instance

/-- The graph `cliqueGraph` with every list `edges[1..nedges-1]` reversed. -/
def cliqueGraphRev : Graph :=
  graphOf [[], [1, 5], [2, 6, 5, 4, 3], [3, 6, 5, 4, 2], [4, 6, 5, 3, 2], [5, 4, 3, 2, 1],
    [6, 4, 3, 2]]

/-- Every member of a supernode other than its first vertex is an entry of that first
vertex and passed the four tests of the inner loop against it. -/
def AbsRel (graph : Graph) (hash : Nat → Int) (n : Nat) (st : FlatState) : Prop :=
  ∀ j, 1 ≤ j → j ≤ n → st.v2cv j ≠ 0 →
    ∃ r, 1 ≤ r ∧ r ≤ j ∧ st.v2cv r = st.v2cv j ∧
      (∀ k, 1 ≤ k → k < r → st.v2cv k ≠ st.v2cv j) ∧
      (r = j ∨ (j ∈ nbrs graph r ∧ Absorbs graph hash r j))

/-- A triangle in which vertex 1 lists vertex 2 twice and vertex 2 lists itself. -/
def loopGraph : Graph := graphOf [[], [1, 2, 2, 3], [2, 1, 2, 3], [3, 1, 2]]

/-! ## Proofs -/

theorem mem_vertices {n k : Nat} : k ∈ vertices n ↔ 1 ≤ k ∧ k ≤ n := by
  unfold vertices
  rw [List.mem_range'_1]
  omega

@[simp] theorem store_same {α : Type} (a : Nat → α) (i : Nat) (v : α) : store a i v i = v := by
  simp [store]

theorem store_other {α : Type} (a : Nat → α) {i k : Nat} (v : α) (h : k ≠ i) :
    store a i v k = a k := by
  simp [store, h]

theorem store_apply {α : Type} (a : Nat → α) (i k : Nat) (v : α) :
    store a i v k = if k = i then v else a k := rfl

/-- Loop rule for a counted `for` loop: an invariant indexed by the loop counter. -/
theorem foldl_range_inv {σ : Type} (f : σ → Nat → σ) (P : Nat → σ → Prop) :
    ∀ (len start : Nat) (s : σ), P start s →
      (∀ i s, start ≤ i → i < start + len → P i s → P (i + 1) (f s i)) →
      P (start + len) ((List.range' start len).foldl f s) := by
  intro len
  induction len with
  | zero => intro start s h _; simpa using h
  | succ len ih =>
    intro start s h step
    rw [List.range'_succ, List.foldl_cons]
    have h1 := step start s (le_refl _) (by omega) h
    have := ih (start + 1) (f s start) h1 (fun i s hi hlt hp => step i s (by omega) (by omega) hp)
    rw [show start + (len + 1) = start + 1 + len by omega]
    exact this

theorem hash_loop_apply (graph : Graph) (n : Nat) (hash : Nat → Int) (k : Nat)
    (h1 : 1 ≤ k) (h2 : k ≤ n) : hash_loop graph n hash k = hash_vertex graph k := by
  unfold hash_loop
  have := foldl_range_inv (fun h i => store h i (hash_vertex graph i))
    (fun i h => ∀ k, 1 ≤ k → k < i → h k = hash_vertex graph k) n 1 hash
    (fun k h1 h2 => by omega)
    (fun i s _ _ hp k hk1 hk2 => by
      by_cases hki : k = i
      · subst hki; simp
      · show store s i (hash_vertex graph i) k = _
        rw [store_other _ _ hki]; exact hp k hk1 (by omega))
  exact this k h1 (by omega)

theorem zero_loop_spec (n : Nat) (v2cv scatter : Nat → Nat) :
    (zero_loop n v2cv scatter).cnvtxs = 0 ∧
    ∀ k, 1 ≤ k → k ≤ n →
      (zero_loop n v2cv scatter).v2cv k = 0 ∧ (zero_loop n v2cv scatter).scatter k = 0 := by
  unfold zero_loop
  have := foldl_range_inv
    (fun (st : FlatState) i =>
      { st with v2cv := store st.v2cv i 0, scatter := store st.scatter i 0 })
    (fun i st => st.cnvtxs = 0 ∧ ∀ k, 1 ≤ k → k < i → st.v2cv k = 0 ∧ st.scatter k = 0) n 1
    { v2cv := v2cv, scatter := scatter, cnvtxs := 0 }
    ⟨rfl, fun k h1 h2 => by omega⟩
    (fun i s _ _ hp => ⟨hp.1, fun k hk1 hk2 => by
      by_cases hki : k = i
      · subst hki; simp
      · simp only [store_other _ _ hki]; exact hp.2 k hk1 (by omega)⟩)
  exact ⟨this.1, fun k h1 h2 => this.2 k h1 (by omega)⟩

/-! ### `SameStructure` -/

theorem mark_loop_apply (A : Nat) (L : List Nat) (s : Nat → Nat) (x : Nat) :
    mark_loop A L s x = if x ∈ L then A else s x := by
  induction L generalizing s with
  | nil => simp [mark_loop]
  | cons e es ih =>
    rw [mark_loop, ih]
    by_cases h1 : x ∈ es
    · simp [h1]
    · by_cases h2 : x = e
      · subst h2; simp [h1]
      · simp [h1, h2, store_other]

theorem scan_loop_le (A : Nat) (s : Nat → Nat) (L : List Nat) (i : Nat) :
    scan_loop A s L i ≤ i + L.length := by
  induction L generalizing i with
  | nil => simp [scan_loop]
  | cons e es ih =>
    rw [scan_loop]
    split_ifs
    · simp
    · have := ih (i + 1); simp only [List.length_cons]; omega

theorem scan_loop_eq_iff (A : Nat) (s : Nat → Nat) (L : List Nat) (i : Nat) :
    scan_loop A s L i = i + L.length ↔ ∀ e ∈ L, s e = A := by
  induction L generalizing i with
  | nil => simp [scan_loop]
  | cons e es ih =>
    rw [scan_loop]
    by_cases h : s e = A
    · simp only [h, ne_eq, not_true_eq_false, if_false, List.length_cons, List.mem_cons,
        forall_eq_or_imp, true_and]
      rw [← ih (i + 1)]
      omega
    · simp only [ne_eq, h, not_false_eq_true, if_true, List.length_cons, List.mem_cons,
        forall_eq_or_imp, false_and, iff_false]
      omega

theorem SameStructure_scatter (A B : Nat) (graph : Graph) (s : Nat → Nat) (x : Nat) :
    (SameStructure A B graph s).2 x = if x = A ∨ x ∈ nbrs graph A then A else s x := by
  simp only [SameStructure, mark_loop_apply, store_apply]
  by_cases h1 : x ∈ nbrs graph A
  · simp [h1]
  · by_cases h2 : x = A <;> simp [h1, h2]

theorem SameStructure_flag (A B : Nat) (graph : Graph) (s : Nat → Nat)
    (hs : ∀ x, (x = B ∨ x ∈ nbrs graph B) → s x = A → x = A ∨ x ∈ nbrs graph A) :
    (SameStructure A B graph s).1 = true ↔ Covered graph A B := by
  have hm : ∀ x, (x = B ∨ x ∈ nbrs graph B) →
      (mark_loop A (nbrs graph A) (store s A A) x = A ↔ (x = A ∨ x ∈ nbrs graph A)) := by
    intro x hx
    rw [mark_loop_apply, store_apply]
    by_cases h1 : x ∈ nbrs graph A
    · simp [h1]
    · by_cases h2 : x = A
      · simp [h2]
      · simp only [h1, h2, if_false, or_self, iff_false]
        intro h; have := hs x hx h; tauto
  simp only [SameStructure, Bool.and_eq_true, decide_eq_true_eq, Covered]
  rw [hm B (Or.inl rfl)]
  have hlen : (nbrs graph B).length = (graph B).edges.length - 1 := by simp [nbrs]
  have hle := scan_loop_le A (mark_loop A (nbrs graph A) (store s A A)) (nbrs graph B) 1
  have hiff := scan_loop_eq_iff A (mark_loop A (nbrs graph A) (store s A A)) (nbrs graph B) 1
  have hall : (∀ e ∈ nbrs graph B, mark_loop A (nbrs graph A) (store s A A) e = A) ↔
      (∀ e ∈ nbrs graph B, e = A ∨ e ∈ nbrs graph A) := by
    constructor
    · intro h e he; exact (hm e (Or.inr he)).1 (h e he)
    · intro h e he; exact (hm e (Or.inr he)).2 (h e he)
  rw [← hall, ← hiff]
  unfold vtx_data.nedges
  by_cases hnil : (graph B).edges = []
  · simp only [hnil, List.length_nil, ne_eq, not_true_eq_false, false_and, and_false,
      iff_false, not_and]
    intro h
    have : (nbrs graph B) = [] := by simp [nbrs, hnil]
    rw [this] at h
    simp [scan_loop] at h
  · have hpos : 0 < (graph B).edges.length := List.length_pos.2 hnil
    constructor
    · rintro ⟨h1, h2⟩
      exact ⟨hnil, by omega, h2⟩
    · rintro ⟨_, h1, h2⟩
      exact ⟨by omega, h2⟩

/-! ### The supernode loop: invariants that hold for every graph -/

theorem absorb_step_basic (graph : Graph) (hash : Nat → Int) (i : Nat) (st : FlatState)
    (nb : Nat) :
    (absorb_step graph hash i st nb).cnvtxs = st.cnvtxs ∧
    ∀ k, (absorb_step graph hash i st nb).v2cv k = st.v2cv k ∨
      (st.v2cv k = 0 ∧ i < k ∧ (absorb_step graph hash i st nb).v2cv k = st.cnvtxs) := by
  by_cases h1 : nb > i ∧ hash nb = hash i ∧
      (graph i).nedges = (graph nb).nedges ∧ st.v2cv nb = 0
  · by_cases h2 : (SameStructure i nb graph st.scatter).1 = true
    · simp only [absorb_step, h1, h2, and_self, if_true, true_and]
      intro k
      by_cases hk : k = nb
      · subst hk
        right
        exact ⟨h1.2.2.2, h1.1, by simp⟩
      · left
        simp [store_other _ _ hk]
    · simp [absorb_step, h1, h2]
  · simp [absorb_step, h1]

theorem absorb_loop_basic (graph : Graph) (hash : Nat → Int) (i : Nat) (L : List Nat)
    (st : FlatState) :
    (L.foldl (absorb_step graph hash i) st).cnvtxs = st.cnvtxs ∧
    ∀ k, (L.foldl (absorb_step graph hash i) st).v2cv k = st.v2cv k ∨
      (st.v2cv k = 0 ∧ i < k ∧ (L.foldl (absorb_step graph hash i) st).v2cv k = st.cnvtxs) := by
  induction L generalizing st with
  | nil => exact ⟨rfl, fun k => Or.inl rfl⟩
  | cons nb L ih =>
    rw [List.foldl_cons]
    obtain ⟨hc, hv⟩ := ih (absorb_step graph hash i st nb)
    obtain ⟨hc1, hv1⟩ := absorb_step_basic graph hash i st nb
    refine ⟨hc.trans hc1, fun k => ?_⟩
    rcases hv k with h | ⟨h0, hik, h⟩
    · rcases hv1 k with h1 | ⟨h10, h1ik, h1⟩
      · left; rw [h, h1]
      · right; exact ⟨h10, h1ik, by rw [h, h1]⟩
    · rcases hv1 k with h1 | ⟨h10, h1ik, h1⟩
      · right; exact ⟨by rw [← h1]; exact h0, hik, by rw [h, hc1]⟩
      · right; exact ⟨h10, hik, by rw [h, hc1]⟩

theorem group_step_basic (graph : Graph) (hash : Nat → Int) (n i : Nat) (st : FlatState)
    (h1 : 1 ≤ i) (h2 : i ≤ n) (inv : BasicInv n i st) :
    BasicInv n (i + 1) (group_step graph hash st i) := by
  unfold group_step
  split_ifs with h0
  · simp only
    obtain ⟨hc, hv⟩ := absorb_loop_basic graph hash i (nbrs graph i)
      { st with cnvtxs := st.cnvtxs + 1, v2cv := store st.v2cv i (st.cnvtxs + 1) }
    simp only at hc hv
    set st2 := (nbrs graph i).foldl (absorb_step graph hash i)
      { st with cnvtxs := st.cnvtxs + 1, v2cv := store st.v2cv i (st.cnvtxs + 1) } with hst2
    -- every entry is the old one, or the new id given to a vertex that had none
    have key : ∀ k, st2.v2cv k = st.v2cv k ∨
        (st.v2cv k = 0 ∧ i ≤ k ∧ st2.v2cv k = st.cnvtxs + 1) := by
      intro k
      rcases hv k with h | ⟨ha, hb, hc2⟩
      · by_cases hk : k = i
        · subst hk; right; rw [h]; exact ⟨h0, le_refl _, by simp⟩
        · left; rw [h, store_other _ _ hk]
      · have hk : k ≠ i := by omega
        rw [store_other _ _ hk] at ha
        right; exact ⟨ha, by omega, hc2⟩
    have keep : ∀ k, st.v2cv k ≠ 0 → st2.v2cv k = st.v2cv k := by
      intro k hk
      rcases key k with h | ⟨h, _⟩
      · exact h
      · exact absurd h hk
    have hi : st2.v2cv i = st.cnvtxs + 1 := by
      rcases key i with h | ⟨_, _, h⟩
      · rcases hv i with h3 | ⟨h3, h4, _⟩
        · rw [h3]; simp
        · omega
      · exact h
    refine ⟨?_, ?_, ?_, ?_, ?_, ?_⟩
    · intro k hk1 hk2
      by_cases hk : k = i
      · subst hk; rw [hi]; omega
      · rw [keep k (inv.assigned k hk1 (by omega))]
        exact inv.assigned k hk1 (by omega)
    · intro k hk1 hk2
      rw [hc]
      rcases key k with h | ⟨_, _, h⟩
      · rw [h]; have := inv.bound k hk1 hk2; omega
      · omega
    · intro c hc1 hc2
      rw [hc] at hc2
      by_cases hcc : c = st.cnvtxs + 1
      · exact ⟨i, h1, by omega, by rw [hi, hcc]⟩
      · obtain ⟨k, hk1, hk2, hk3⟩ := inv.used c hc1 (by omega)
        exact ⟨k, hk1, by omega, by rw [keep k (by omega), hk3]⟩
    · intro k hk1 hk2 c hc1 hc2
      rcases key k with h | ⟨_, hik, h⟩
      · rw [h] at hc2
        obtain ⟨r, hr1, hr2, hr3⟩ := inv.ordered k hk1 hk2 c hc1 hc2
        exact ⟨r, hr1, hr2, by rw [keep r (by omega), hr3]⟩
      · rw [h] at hc2
        obtain ⟨r, hr1, hr2, hr3⟩ := inv.used c hc1 (by omega)
        exact ⟨r, hr1, by omega, by rw [keep r (by omega), hr3]⟩
    · rw [hc]; have := inv.count; omega
    · intro k hk1 hk2
      rcases key k with h | ⟨_, hik, h⟩
      · rw [h]; exact inv.below k hk1 hk2
      · rw [h]; have := inv.count; omega
  · refine ⟨?_, inv.bound, ?_, inv.ordered, ?_, inv.below⟩
    · intro k hk1 hk2
      by_cases hk : k = i
      · subst hk; exact h0
      · exact inv.assigned k hk1 (by omega)
    · intro c hc1 hc2
      obtain ⟨k, hk1, hk2, hk3⟩ := inv.used c hc1 hc2
      exact ⟨k, hk1, by omega, hk3⟩
    · have := inv.count; omega

theorem zero_loop_basic (n : Nat) (v2cv scatter : Nat → Nat) :
    BasicInv n 1 (zero_loop n v2cv scatter) := by
  obtain ⟨hc, hz⟩ := zero_loop_spec n v2cv scatter
  refine ⟨fun k h1 h2 => by omega, ?_, ?_, ?_, by omega, ?_⟩
  · intro k h1 h2; rw [(hz k h1 h2).1]; omega
  · intro c h1 h2; omega
  · intro k h1 h2 c hc1 hc2; rw [(hz k h1 h2).1] at hc2; omega
  · intro k h1 h2; rw [(hz k h1 h2).1]; omega

theorem find_flat_eq (graph : Graph) (n : Nat) (v2cv : Nat → Nat) (m : Scratch) :
    find_flat graph n v2cv m =
      ((final_state graph n v2cv m).cnvtxs, (final_state graph n v2cv m).v2cv) := rfl

theorem final_basic (graph : Graph) (n : Nat) (v2cv : Nat → Nat) (m : Scratch) :
    BasicInv n (n + 1) (final_state graph n v2cv m) := by
  unfold final_state
  have := foldl_range_inv (group_step graph (hash_loop graph n m.hash))
    (fun i st => BasicInv n i st) n 1 (zero_loop n v2cv m.scatter)
    (zero_loop_basic n v2cv m.scatter)
    (fun i s hi1 hi2 hp => group_step_basic graph _ n i s hi1 (by omega) hp)
  rw [show n + 1 = 1 + n by omega]
  exact this

/-! ### The hash value -/

theorem wrap32_add_wrap32 (a b : Int) : wrap32 (wrap32 a + b) = wrap32 (a + b) := by
  unfold wrap32; omega

theorem wrap32_of_range (a : Int) (h1 : -2147483648 ≤ a) (h2 : a < 2147483648) :
    wrap32 a = a := by
  unfold wrap32; omega

theorem wrap32_congr (a : Int) : (wrap32 a - a) % 4294967296 = 0 := by
  unfold wrap32; omega

theorem hash_fold_cons (L : List Nat) (e : Nat) (a : Int) :
    (e :: L).foldl (fun (this_hash : Int) (e : Nat) => wrap32 (this_hash + (e : Int))) a =
      wrap32 (a + ((e :: L).map (fun e : Nat => (e : Int))).sum) := by
  induction L generalizing e a with
  | nil => simp
  | cons f L ih =>
    rw [List.foldl_cons, ih f]
    simp only [List.map_cons, List.sum_cons]
    rw [wrap32_add_wrap32]
    congr 1
    ring

theorem hash_vertex_of_ne_nil (graph : Graph) (i : Nat) (h : nbrs graph i ≠ []) :
    hash_vertex graph i = wrap32 ((i : Int) + nbr_sum graph i) := by
  unfold hash_vertex nbr_sum
  obtain ⟨e, L, hL⟩ := List.exists_cons_of_ne_nil h
  rw [hL, hash_fold_cons]

theorem hash_vertex_of_nil (graph : Graph) (i : Nat) (h : nbrs graph i = []) :
    hash_vertex graph i = i := by
  unfold hash_vertex
  rw [h]; rfl

theorem nbr_sum_nonneg (graph : Graph) (i : Nat) : 0 ≤ nbr_sum graph i := by
  unfold nbr_sum
  apply List.sum_nonneg
  intro x hx
  simp only [List.mem_map] at hx
  obtain ⟨e, _, rfl⟩ := hx
  exact Int.natCast_nonneg e

/-! ### Twins -/

theorem Twin.refl (graph : Graph) (x : Nat) : Twin graph x x := List.Perm.refl _

theorem Twin.symm {graph : Graph} {x y : Nat} (h : Twin graph x y) : Twin graph y x :=
  List.Perm.symm h

theorem Twin.trans {graph : Graph} {x y z : Nat} (h1 : Twin graph x y) (h2 : Twin graph y z) :
    Twin graph x z := List.Perm.trans h1 h2

theorem Twin.mem_nbrs {graph : Graph} {x y : Nat} (h : Twin graph x y) (hne : x ≠ y) :
    y ∈ nbrs graph x := by
  have : y ∈ x :: nbrs graph x := h.symm.subset (List.mem_cons_self _ _)
  rcases List.mem_cons.1 this with h1 | h1
  · exact absurd h1.symm hne
  · exact h1

theorem Twin.nbrs_length {graph : Graph} {x y : Nat} (h : Twin graph x y) :
    (nbrs graph x).length = (nbrs graph y).length := by
  have := h.length_eq
  simpa using this

theorem nedges_eq_succ (graph : Graph) (x : Nat) (h : nbrs graph x ≠ []) :
    (graph x).nedges = (nbrs graph x).length + 1 := by
  unfold vtx_data.nedges
  unfold nbrs at h ⊢
  cases hE : (graph x).edges with
  | nil => rw [hE] at h; simp at h
  | cons a L => simp

theorem Twin.nedges_eq {graph : Graph} {x y : Nat} (h : Twin graph x y) (hne : x ≠ y) :
    (graph x).nedges = (graph y).nedges := by
  have hx : nbrs graph x ≠ [] := List.ne_nil_of_mem (h.mem_nbrs hne)
  have hy : nbrs graph y ≠ [] := List.ne_nil_of_mem (h.symm.mem_nbrs (Ne.symm hne))
  rw [nedges_eq_succ graph x hx, nedges_eq_succ graph y hy, h.nbrs_length]

theorem Twin.hash_eq {graph : Graph} {x y : Nat} (h : Twin graph x y) (hne : x ≠ y) :
    hash_vertex graph x = hash_vertex graph y := by
  have hx : nbrs graph x ≠ [] := List.ne_nil_of_mem (h.mem_nbrs hne)
  have hy : nbrs graph y ≠ [] := List.ne_nil_of_mem (h.symm.mem_nbrs (Ne.symm hne))
  rw [hash_vertex_of_ne_nil graph x hx, hash_vertex_of_ne_nil graph y hy]
  have := (List.Perm.map (fun e : Nat => (e : Int)) h).sum_eq
  simp only [List.map_cons, List.sum_cons] at this
  unfold nbr_sum
  rw [this]

theorem Twin.covered {graph : Graph} {x y : Nat} (h : Twin graph x y) (hne : x ≠ y) :
    Covered graph x y := by
  have hy : nbrs graph y ≠ [] := List.ne_nil_of_mem (h.symm.mem_nbrs (Ne.symm hne))
  refine ⟨?_, ?_, Or.inr (h.mem_nbrs hne)⟩
  · intro hnil; apply hy; simp [nbrs, hnil]
  · intro e he
    have : e ∈ x :: nbrs graph x := h.symm.subset (List.mem_cons_of_mem _ he)
    exact List.mem_cons.1 this

/-- Exactness of the tests: on duplicate-free, self-free lists, equal edge counts plus the
one-sided inclusion checked by `SameStructure` force equal closed neighborhoods. -/
theorem twin_of_covered {graph : Graph} {x y : Nat}
    (hy : (nbrs graph y).Nodup ∧ y ∉ nbrs graph y)
    (hdeg : (graph x).nedges = (graph y).nedges) (hc : Covered graph x y) :
    Twin graph x y := by
  obtain ⟨hne, hsub, hmem⟩ := hc
  have ndy : (y :: nbrs graph y).Nodup := List.nodup_cons.2 ⟨hy.2, hy.1⟩
  have sub : (y :: nbrs graph y) ⊆ (x :: nbrs graph x) := by
    intro e he
    rcases List.mem_cons.1 he with h | h
    · subst h; exact List.mem_cons.2 hmem
    · exact List.mem_cons.2 (hsub e h)
  have hlen : (x :: nbrs graph x).length ≤ (y :: nbrs graph y).length := by
    simp only [List.length_cons, nbrs, List.length_tail]
    unfold vtx_data.nedges at hdeg
    omega
  exact ((List.subperm_of_subset ndy sub).perm_of_length_le hlen).symm

theorem floor_le_roundHalfEven (q : ℚ) : ⌊q⌋ ≤ roundHalfEven q := by
  unfold roundHalfEven
  simp only
  split_ifs <;> omega

theorem roundHalfEven_le (q : ℚ) : (roundHalfEven q : ℚ) ≤ q + 1 / 2 := by
  have h1 : (⌊q⌋ : ℚ) ≤ q := Int.floor_le q
  unfold roundHalfEven
  simp only
  split_ifs with h2 h3 h4
  · linarith
  · push_cast; linarith
  · linarith
  · push_cast; linarith

theorem roundHalfEven_intCast (m : ℤ) : roundHalfEven (m : ℚ) = m := by
  unfold roundHalfEven
  simp

theorem log2_eq {x : ℚ} {e : ℤ} (hx : 0 < x) (h1 : (2 : ℚ) ^ e ≤ x)
    (h2 : x < (2 : ℚ) ^ (e + 1)) : Int.log 2 x = e := by
  have a : e ≤ Int.log 2 x := (Int.zpow_le_iff_le_log (by norm_num) hx).1 (by exact_mod_cast h1)
  have b : Int.log 2 x < e + 1 := (Int.lt_zpow_iff_log_lt (by norm_num) hx).1 (by exact_mod_cast h2)
  omega

theorem Thresh_eq : Thresh = 8106479329266893 / 9007199254740992 := by
  have hlog : Int.log 2 (|(9 / 10 : ℚ)|) = -1 := by
    rw [abs_of_pos (by norm_num)]
    exact log2_eq (by norm_num) (by norm_num) (by norm_num)
  unfold Thresh fl64
  rw [if_neg (by norm_num)]
  simp only [hlog]
  have hr : roundHalfEven ((9 / 10 : ℚ) / 2 ^ ((-1 : ℤ) - 52)) = 8106479329266893 := by
    have hf : ⌊(9 / 10 : ℚ) / 2 ^ ((-1 : ℤ) - 52)⌋ = 8106479329266892 := by
      rw [Int.floor_eq_iff]
      constructor <;> norm_num
    unfold roundHalfEven
    simp only [hf]
    norm_num
  rw [hr]
  norm_num

theorem fl64_lower {x : ℚ} (hx : 0 < x) (hx2 : x < 2 ^ (53 : ℤ)) (c : ℤ) (hc : (c : ℚ) ≤ x) :
    (c : ℚ) ≤ fl64 x := by
  unfold fl64
  rw [if_neg hx.ne', abs_of_pos hx]
  simp only
  have he : Int.log 2 x < 53 :=
    (Int.lt_zpow_iff_log_lt (by norm_num) hx).1 (by exact_mod_cast hx2)
  obtain ⟨d, hd⟩ : ∃ d : ℕ, Int.log 2 x - 52 = -(d : ℤ) := ⟨(52 - Int.log 2 x).toNat, by omega⟩
  rw [hd, zpow_neg, zpow_natCast, div_inv_eq_mul]
  have hpos : (0 : ℚ) < 2 ^ d := by positivity
  have h1 : ((c * 2 ^ d : ℤ) : ℚ) ≤ x * 2 ^ d := by
    push_cast
    exact mul_le_mul_of_nonneg_right hc hpos.le
  have h2 : c * 2 ^ d ≤ roundHalfEven (x * 2 ^ d) :=
    le_trans (Int.le_floor.2 h1) (floor_le_roundHalfEven _)
  have h3 : ((c * 2 ^ d : ℤ) : ℚ) ≤ (roundHalfEven (x * 2 ^ d) : ℚ) := by exact_mod_cast h2
  rw [le_mul_inv_iff₀ hpos]
  push_cast at h3
  exact h3

theorem fl64_upper {x : ℚ} (hx : 0 < x) : fl64 x ≤ x * (1 + 1 / 2 ^ 53) := by
  unfold fl64
  rw [if_neg hx.ne', abs_of_pos hx]
  simp only
  have hu : (0 : ℚ) < 2 ^ (Int.log 2 x - 52) := by positivity
  have h1 := roundHalfEven_le (x / 2 ^ (Int.log 2 x - 52))
  have h2 : (2 : ℚ) ^ (Int.log 2 x - 52) ≤ x / 2 ^ 52 := by
    rw [zpow_sub₀ (by norm_num)]
    have := Int.zpow_log_le_self (R := ℚ) (b := 2) (by norm_num) hx
    have h52 : ((2 : ℚ) ^ (52 : ℤ)) = 2 ^ 52 := by norm_num
    rw [h52]
    push_cast at this
    exact div_le_div_of_nonneg_right this (by positivity)
  calc (roundHalfEven (x / 2 ^ (Int.log 2 x - 52)) : ℚ) * 2 ^ (Int.log 2 x - 52)
      ≤ (x / 2 ^ (Int.log 2 x - 52) + 1 / 2) * 2 ^ (Int.log 2 x - 52) :=
        mul_le_mul_of_nonneg_right h1 hu.le
    _ = x + 2 ^ (Int.log 2 x - 52) / 2 := by field_simp; ring
    _ ≤ x + (x / 2 ^ 52) / 2 := by linarith
    _ = x * (1 + 1 / 2 ^ 53) := by ring

theorem fl64_natCast (k : ℕ) (hk : k < 2 ^ 53) : fl64 (k : ℚ) = k := by
  rcases Nat.eq_zero_or_pos k with h0 | h0
  · subst h0; simp [fl64]
  have hx : (0 : ℚ) < k := by exact_mod_cast h0
  have hx2 : (k : ℚ) < 2 ^ (53 : ℤ) := by
    have : ((2 : ℚ) ^ (53 : ℤ)) = ((2 ^ 53 : ℕ) : ℚ) := by norm_num
    rw [this]; exact_mod_cast hk
  apply le_antisymm
  · unfold fl64
    rw [if_neg hx.ne', abs_of_pos hx]
    simp only
    have he : Int.log 2 (k : ℚ) < 53 :=
      (Int.lt_zpow_iff_log_lt (by norm_num) hx).1 (by exact_mod_cast hx2)
    obtain ⟨d, hd⟩ : ∃ d : ℕ, Int.log 2 (k : ℚ) - 52 = -(d : ℤ) :=
      ⟨(52 - Int.log 2 (k : ℚ)).toNat, by omega⟩
    rw [hd, zpow_neg, zpow_natCast, div_inv_eq_mul]
    have hpos : (0 : ℚ) < 2 ^ d := by positivity
    have : (k : ℚ) * 2 ^ d = (((k : ℤ) * 2 ^ d : ℤ) : ℚ) := by push_cast; rfl
    rw [this, roundHalfEven_intCast]
    push_cast
    rw [mul_assoc, mul_inv_cancel₀ hpos.ne', mul_one]
  · have := fl64_lower hx hx2 (k : ℤ) (by simp)
    simpa using this

theorem sufficient_shrinkage_iff (c n : ℕ) (hc : c < 2 ^ 31) (hn : n < 2 ^ 31) :
    sufficient_shrinkage c n = true ↔ 10 * c ≤ 9 * n := by
  unfold sufficient_shrinkage
  rw [decide_eq_true_iff, fl64_natCast c (by omega), fl64_natCast n (by omega), Thresh_eq]
  have hnq : (n : ℚ) < 2147483648 := by exact_mod_cast hn
  rcases Nat.eq_zero_or_pos n with h0 | h0
  · subst h0
    simp [fl64]
  have hn0 : (1 : ℚ) ≤ n := by exact_mod_cast h0
  set x : ℚ := 8106479329266893 / 9007199254740992 * (n : ℚ) with hxdef
  have hx : 0 < x := by positivity
  have hx2 : x < 2 ^ (53 : ℤ) := by
    have : ((2 : ℚ) ^ (53 : ℤ)) = 9007199254740992 := by norm_num
    rw [this, hxdef]; linarith
  constructor
  · intro h
    by_contra hlt
    have h1 : 9 * n + 1 ≤ 10 * c := by omega
    have h2 : (9 : ℚ) * n + 1 ≤ 10 * c := by exact_mod_cast h1
    have h3 := fl64_upper hx
    have h4 : (c : ℚ) ≤ x * (1 + 1 / 2 ^ 53) := le_trans h h3
    rw [hxdef] at h4
    norm_num at h4
    linarith
  · intro h
    have h2 : (10 : ℚ) * c ≤ 9 * n := by exact_mod_cast h
    have := fl64_lower hx hx2 (c : ℤ) (by rw [hxdef]; push_cast; linarith)
    simpa using this

theorem SameStructure_scatterOK (graph : Graph) (n i nb : Nat) (s : Nat → Nat)
    (h : ScatterOK graph n i s) : ScatterOK graph n i (SameStructure i nb graph s).2 := by
  intro x hx
  rw [SameStructure_scatter]
  by_cases hc : x = i ∨ x ∈ nbrs graph i
  · simp [hc]
  · rw [if_neg hc]
    exact h x hx

theorem SameStructure_flag_of_scatterOK (graph : Graph) (n i nb : Nat) (s : Nat → Nat)
    (wf : WellFormed graph n) (hnb : nb ∈ vertices n) (h : ScatterOK graph n i s) :
    (SameStructure i nb graph s).1 = true ↔ Covered graph i nb := by
  apply SameStructure_flag
  intro x hx hsx
  have hxv : x ∈ vertices n := by
    rcases hx with rfl | hx
    · exact hnb
    · exact wf nb hnb x hx
  exact (h x hxv).2 hsx

theorem absorb_step_closed (graph : Graph) (hash : Nat → Int) (n i nb : Nat) (st : FlatState)
    (wf : WellFormed graph n) (hnb : nb ∈ vertices n) (h : ScatterOK graph n i st.scatter) :
    (absorb_step graph hash i st nb).cnvtxs = st.cnvtxs ∧
    ScatterOK graph n i (absorb_step graph hash i st nb).scatter ∧
    ∀ k, (absorb_step graph hash i st nb).v2cv k =
      if k = nb ∧ Absorbs graph hash i k ∧ st.v2cv k = 0 then st.cnvtxs else st.v2cv k := by
  have hflag := SameStructure_flag_of_scatterOK graph n i nb st.scatter wf hnb h
  have hsc := SameStructure_scatterOK graph n i nb st.scatter h
  by_cases h1 : nb > i ∧ hash nb = hash i ∧
      (graph i).nedges = (graph nb).nedges ∧ st.v2cv nb = 0
  · by_cases h2 : (SameStructure i nb graph st.scatter).1 = true
    · have hcov := hflag.1 h2
      simp only [absorb_step, h1, h2, and_self, if_true, true_and]
      refine ⟨hsc, fun k => ?_⟩
      by_cases hk : k = nb
      · subst hk
        have : Absorbs graph hash i k := ⟨h1.1, h1.2.1, h1.2.2.1, hcov⟩
        simp [this, h1.2.2.2]
      · simp [store_other _ _ hk, hk]
    · have hcov : ¬ Covered graph i nb := fun hc => h2 (hflag.2 hc)
      simp only [absorb_step, h1, h2, and_self, if_true, true_and, Bool.false_eq_true,
        if_false]
      refine ⟨hsc, fun k => ?_⟩
      by_cases hk : k = nb
      · subst hk
        have : ¬ Absorbs graph hash i k := fun ha => hcov ha.2.2.2
        simp [this]
      · simp [hk]
  · simp only [absorb_step, h1, if_false, true_and]
    refine ⟨h, fun k => ?_⟩
    by_cases hk : k = nb
    · subst hk
      have : ¬ (Absorbs graph hash i k ∧ st.v2cv k = 0) :=
        fun ha => h1 ⟨ha.1.1, ha.1.2.1, ha.1.2.2.1, ha.2⟩
      simp [this]
    · simp [hk]

theorem absorb_loop_closed (graph : Graph) (hash : Nat → Int) (n i : Nat)
    (wf : WellFormed graph n) (L : List Nat) (hL : ∀ e ∈ L, e ∈ vertices n) (st : FlatState)
    (h : ScatterOK graph n i st.scatter) :
    (L.foldl (absorb_step graph hash i) st).cnvtxs = st.cnvtxs ∧
    ScatterOK graph n i (L.foldl (absorb_step graph hash i) st).scatter ∧
    ∀ k, (L.foldl (absorb_step graph hash i) st).v2cv k =
      if k ∈ L ∧ Absorbs graph hash i k ∧ st.v2cv k = 0 then st.cnvtxs else st.v2cv k := by
  induction L generalizing st with
  | nil => exact ⟨rfl, h, fun k => by simp⟩
  | cons nb L ih =>
    rw [List.foldl_cons]
    obtain ⟨c1, s1, v1⟩ := absorb_step_closed graph hash n i nb st wf
      (hL nb (List.mem_cons_self _ _)) h
    obtain ⟨c2, s2, v2⟩ := ih (fun e he => hL e (List.mem_cons_of_mem _ he))
      (absorb_step graph hash i st nb) s1
    refine ⟨c2.trans c1, s2, fun k => ?_⟩
    rw [v2, v1, c1]
    by_cases hk : k = nb
    · subst hk
      by_cases ha : Absorbs graph hash i k ∧ st.v2cv k = 0
      · simp only [ha, and_self, true_and, if_true, List.mem_cons, true_or]
        split_ifs <;> rfl
      · have ha2 : ¬ (k = k ∧ Absorbs graph hash i k ∧ st.v2cv k = 0) := fun x => ha x.2
        have ha3 : ¬ (k ∈ k :: L ∧ Absorbs graph hash i k ∧ st.v2cv k = 0) := fun x => ha x.2
        have ha4 : ¬ (k ∈ L ∧ Absorbs graph hash i k ∧ st.v2cv k = 0) := fun x => ha x.2
        rw [if_neg ha2, if_neg ha3, if_neg ha4]
    · simp [hk]

theorem group_step_of_zero (graph : Graph) (hash : Nat → Int) (st : FlatState) (i : Nat)
    (h0 : st.v2cv i = 0) :
    group_step graph hash st i = (nbrs graph i).foldl (absorb_step graph hash i)
      { st with cnvtxs := st.cnvtxs + 1, v2cv := store st.v2cv i (st.cnvtxs + 1) } := by
  simp [group_step, h0]

theorem group_step_of_ne_zero (graph : Graph) (hash : Nat → Int) (st : FlatState) (i : Nat)
    (h0 : st.v2cv i ≠ 0) : group_step graph hash st i = st := by
  simp [group_step, h0]

/-- The effect of one pass of the outer loop on a well-formed graph, for an unassigned `i`:
`i` and the unassigned entries of `i` that pass the four tests get the new number. -/
theorem group_step_closed (graph : Graph) (hash : Nat → Int) (n i : Nat) (st : FlatState)
    (wf : WellFormed graph n) (hi : i ∈ vertices n) (h0 : st.v2cv i = 0)
    (hm : ∀ x ∈ vertices n, st.scatter x < i) :
    (group_step graph hash st i).cnvtxs = st.cnvtxs + 1 ∧
    ScatterOK graph n i (group_step graph hash st i).scatter ∧
    ∀ k, (group_step graph hash st i).v2cv k =
      if k = i ∨ (k ∈ nbrs graph i ∧ Absorbs graph hash i k ∧ st.v2cv k = 0)
      then st.cnvtxs + 1 else st.v2cv k := by
  rw [group_step_of_zero graph hash st i h0]
  have hsc : ScatterOK graph n i
      ({ st with cnvtxs := st.cnvtxs + 1, v2cv := store st.v2cv i (st.cnvtxs + 1) } :
        FlatState).scatter := by
    intro x hx
    have := hm x hx
    exact ⟨by simp only; omega, fun h => by simp only at h; omega⟩
  obtain ⟨c, s, v⟩ := absorb_loop_closed graph hash n i wf (nbrs graph i) (wf i hi) _ hsc
  refine ⟨c, s, fun k => ?_⟩
  rw [v]
  simp only [store_apply]
  by_cases hk : k = i
  · subst hk
    simp
  · simp [hk]

theorem group_step_struct (graph : Graph) (hash : Nat → Int) (n i : Nat) (st : FlatState)
    (wf : WellFormed graph n) (simple : SimpleLists graph n)
    (hH : ∀ k ∈ vertices n, hash k = hash_vertex graph k)
    (h1 : 1 ≤ i) (h2 : i ≤ n) (inv : StructInv graph n i st) :
    StructInv graph n (i + 1) (group_step graph hash st i) := by
  have hi : i ∈ vertices n := mem_vertices.2 ⟨h1, h2⟩
  have hb := group_step_basic graph hash n i st h1 h2 inv.basic
  -- an assigned vertex shares its number with a vertex that is already done
  have earlier : ∀ y ∈ vertices n, st.v2cv y ≠ 0 →
      ∃ r ∈ vertices n, r < i ∧ st.v2cv r = st.v2cv y ∧ Twin graph r y := by
    intro y hy hy0
    obtain ⟨hy1, hy2⟩ := mem_vertices.1 hy
    obtain ⟨r, hr1, hr2, hr3⟩ := inv.basic.used (st.v2cv y) (by omega)
      (inv.basic.bound y hy1 hy2)
    have hr : r ∈ vertices n := mem_vertices.2 ⟨hr1, by omega⟩
    exact ⟨r, hr, hr2, hr3, inv.sound r hr y hy (by omega) hr3⟩
  by_cases h0 : st.v2cv i = 0
  · obtain ⟨hc, hs, hv⟩ := group_step_closed graph hash n i st wf hi h0 inv.marks
    have hold : ∀ k ∈ vertices n, st.v2cv k < st.cnvtxs + 1 := by
      intro k hk
      obtain ⟨hk1, hk2⟩ := mem_vertices.1 hk
      have := inv.basic.bound k hk1 hk2
      omega
    have hnew : ∀ k ∈ vertices n,
        (k = i ∨ (k ∈ nbrs graph i ∧ Absorbs graph hash i k ∧ st.v2cv k = 0)) →
        Twin graph i k := by
      intro k hk hn
      rcases hn with rfl | ⟨_, ha, _⟩
      · exact Twin.refl graph _
      · exact twin_of_covered (simple k hk) ha.2.2.1 ha.2.2.2
    refine ⟨hb, ?_, ?_, ?_⟩
    · intro x hx
      have := (hs x hx).1
      omega
    · intro j hj k hk hj0 hjk
      rw [hv j, hv k] at hjk
      rw [hv j] at hj0
      by_cases nj : j = i ∨ (j ∈ nbrs graph i ∧ Absorbs graph hash i j ∧ st.v2cv j = 0)
      · by_cases nk : k = i ∨ (k ∈ nbrs graph i ∧ Absorbs graph hash i k ∧ st.v2cv k = 0)
        · exact (hnew j hj nj).symm.trans (hnew k hk nk)
        · rw [if_pos nj, if_neg nk] at hjk
          have := hold k hk
          omega
      · rw [if_neg nj] at hj0
        by_cases nk : k = i ∨ (k ∈ nbrs graph i ∧ Absorbs graph hash i k ∧ st.v2cv k = 0)
        · rw [if_neg nj, if_pos nk] at hjk
          have := hold j hj
          omega
        · rw [if_neg nj, if_neg nk] at hjk
          exact inv.sound j hj k hk hj0 hjk
    · intro x hx hxi y hy hxy
      obtain ⟨hx1, hx2⟩ := mem_vertices.1 hx
      by_cases hxeq : x = i
      · subst hxeq
        have nx : x = x ∨ (x ∈ nbrs graph x ∧ Absorbs graph hash x x ∧ st.v2cv x = 0) :=
          Or.inl rfl
        rw [hv y, hv x, if_pos nx]
        by_cases hyx : y = x
        · subst hyx; rw [if_pos nx]
        · have hy0 : st.v2cv y = 0 := by
            by_contra hne
            obtain ⟨r, hr, hri, _, hry⟩ := earlier y hy hne
            have := inv.complete r hr hri x hx (hry.trans hxy.symm)
            have := inv.basic.assigned r (mem_vertices.1 hr).1 hri
            omega
          have hgt : y > x := by
            by_contra hle
            have hlt : y < x := by omega
            have := inv.complete y hy hlt x hx hxy.symm
            have := inv.basic.assigned y (mem_vertices.1 hy).1 hlt
            omega
          have hxne : x ≠ y := fun h => hyx h.symm
          have ha : Absorbs graph hash x y :=
            ⟨hgt, by rw [hH y hy, hH x hx]; exact (hxy.hash_eq hxne).symm,
              hxy.nedges_eq hxne, hxy.covered hxne⟩
          rw [if_pos (Or.inr ⟨hxy.mem_nbrs hxne, ha, hy0⟩)]
      · have hlt : x < i := by omega
        have hxa := inv.basic.assigned x hx1 hlt
        have hyx := inv.complete x hx hlt y hy hxy
        have nx : ¬ (x = i ∨ (x ∈ nbrs graph i ∧ Absorbs graph hash i x ∧ st.v2cv x = 0)) := by
          rintro (h | ⟨_, _, h⟩)
          · exact hxeq h
          · exact hxa h
        have ny : ¬ (y = i ∨ (y ∈ nbrs graph i ∧ Absorbs graph hash i y ∧ st.v2cv y = 0)) := by
          rintro (h | ⟨_, _, h⟩)
          · subst h; omega
          · omega
        rw [hv y, hv x, if_neg nx, if_neg ny, hyx]
  · rw [group_step_of_ne_zero graph hash st i h0] at hb ⊢
    refine ⟨hb, ?_, inv.sound, ?_⟩
    · intro x hx
      have := inv.marks x hx
      omega
    · intro x hx hxi y hy hxy
      by_cases hxeq : x = i
      · subst hxeq
        obtain ⟨r, hr, hri, hrv, hrx⟩ := earlier x hx h0
        rw [← hrv]
        exact inv.complete r hr hri y hy (hrx.trans hxy)
      · exact inv.complete x hx (by omega) y hy hxy

theorem zero_loop_struct (graph : Graph) (n : Nat) (v2cv scatter : Nat → Nat) :
    StructInv graph n 1 (zero_loop n v2cv scatter) := by
  obtain ⟨_, hz⟩ := zero_loop_spec n v2cv scatter
  refine ⟨zero_loop_basic n v2cv scatter, ?_, ?_, ?_⟩
  · intro x hx
    obtain ⟨h1, h2⟩ := mem_vertices.1 hx
    rw [(hz x h1 h2).2]; omega
  · intro j hj k _ hj0
    obtain ⟨h1, h2⟩ := mem_vertices.1 hj
    exact absurd (hz j h1 h2).1 hj0
  · intro x hx hx1
    have := (mem_vertices.1 hx).1
    omega

theorem final_struct (graph : Graph) (n : Nat) (v2cv : Nat → Nat) (m : Scratch)
    (wf : WellFormed graph n) (simple : SimpleLists graph n) :
    StructInv graph n (n + 1) (final_state graph n v2cv m) := by
  unfold final_state
  have := foldl_range_inv (group_step graph (hash_loop graph n m.hash))
    (fun i st => StructInv graph n i st) n 1 (zero_loop n v2cv m.scatter)
    (zero_loop_struct graph n v2cv m.scatter)
    (fun i s hi1 hi2 hp => group_step_struct graph _ n i s wf simple
      (fun k hk => hash_loop_apply graph n m.hash k (mem_vertices.1 hk).1 (mem_vertices.1 hk).2)
      hi1 (by omega) hp)
  rw [show n + 1 = 1 + n by omega]
  exact this

theorem twin_of_identical {graph : Graph} {x y : Nat}
    (hx : (nbrs graph x).Nodup ∧ x ∉ nbrs graph x)
    (hy : (nbrs graph y).Nodup ∧ y ∉ nbrs graph y)
    (hyx : y ∈ nbrs graph x) (hxy : x ∈ nbrs graph y)
    (hset : (nbrs graph x).toFinset \ {x, y} = (nbrs graph y).toFinset \ {x, y}) :
    Twin graph x y := by
  have ndx : (x :: nbrs graph x).Nodup := List.nodup_cons.2 ⟨hx.2, hx.1⟩
  have ndy : (y :: nbrs graph y).Nodup := List.nodup_cons.2 ⟨hy.2, hy.1⟩
  refine (List.perm_ext_iff_of_nodup ndx ndy).2 (fun a => ?_)
  by_cases hax : a = x
  · subst hax; simp [hxy]
  by_cases hay : a = y
  · subst hay; simp [hyx]
  have := Finset.ext_iff.1 hset a
  simp only [Finset.mem_sdiff, List.mem_toFinset, Finset.mem_insert, Finset.mem_singleton,
    hax, hay, or_self, not_false_eq_true, and_true] at this
  simp [hax, hay, this]

theorem Twin.sdiff_eq {graph : Graph} {x y : Nat} (h : Twin graph x y) :
    (nbrs graph x).toFinset \ {x, y} = (nbrs graph y).toFinset \ {x, y} := by
  ext a
  simp only [Finset.mem_sdiff, List.mem_toFinset, Finset.mem_insert, Finset.mem_singleton]
  have h1 : a ∈ x :: nbrs graph x ↔ a ∈ y :: nbrs graph y := h.mem_iff
  simp only [List.mem_cons] at h1
  constructor
  · rintro ⟨ha, hn⟩
    push_neg at hn
    exact ⟨by have := h1.1 (Or.inr ha); tauto, by tauto⟩
  · rintro ⟨ha, hn⟩
    push_neg at hn
    exact ⟨by have := h1.2 (Or.inr ha); tauto, by tauto⟩

theorem flatten_ret {Coords : Type} (mk : MakefCall Coords → World Coords → World Coords)
    (w : World Coords) (nvtxs : Nat) (nedges using_ewgts igeom : Int) (coords : Coords)
    (v2cv : Nat → Nat) (m : Scratch) :
    (flatten mk w nvtxs nedges using_ewgts igeom coords v2cv m).ret =
      sufficient_shrinkage (find_flat w.graph nvtxs v2cv m).1 nvtxs := by
  unfold flatten
  simp only
  split_ifs with h
  · simp [h]
  · simp at h; simp [h]

theorem find_flat_count_le (graph : Graph) (n : Nat) (v2cv : Nat → Nat) (m : Scratch) :
    (find_flat graph n v2cv m).1 ≤ n := by
  rw [find_flat_eq]
  have := (final_basic graph n v2cv m).count
  simp only
  omega

theorem flatten_ret_iff {Coords : Type} (mk : MakefCall Coords → World Coords → World Coords)
    (w : World Coords) (nvtxs : Nat) (nedges using_ewgts igeom : Int) (coords : Coords)
    (v2cv : Nat → Nat) (m : Scratch) (hn : nvtxs < 2 ^ 31) :
    (flatten mk w nvtxs nedges using_ewgts igeom coords v2cv m).ret = true ↔
      10 * (find_flat w.graph nvtxs v2cv m).1 ≤ 9 * nvtxs := by
  rw [flatten_ret]
  have := find_flat_count_le w.graph nvtxs v2cv m
  exact sufficient_shrinkage_iff _ _ (by omega) hn

/-- Rejection when the coarse count exceeds nine tenths of the vertex count. -/
theorem flatten_ret_false {Coords : Type}
    (mk : MakefCall Coords → World Coords → World Coords) (w : World Coords) (nvtxs : Nat)
    (nedges using_ewgts igeom : Int) (coords : Coords) (v2cv : Nat → Nat) (m : Scratch)
    (hn : nvtxs < 2 ^ 31) (h : 9 * nvtxs < 10 * (find_flat w.graph nvtxs v2cv m).1) :
    (flatten mk w nvtxs nedges using_ewgts igeom coords v2cv m).ret = false := by
  rw [← Bool.not_eq_true, flatten_ret_iff mk w nvtxs nedges using_ewgts igeom coords v2cv m hn]
  omega

/-! ## C2 -/

/-- C2: for every graph and every `n`, after `find_flat` no entry `v2cv[1..n]` is zero and
the values taken on `1..n` are exactly `1, ..., cnvtxs`. -/
theorem v2cv_onto (graph : Graph) (n : Nat) (v2cv : Nat → Nat) (m : Scratch) :
    (∀ i, 1 ≤ i → i ≤ n → (find_flat graph n v2cv m).2 i ≠ 0) ∧
    (∀ c, (∃ i, 1 ≤ i ∧ i ≤ n ∧ (find_flat graph n v2cv m).2 i = c) ↔
      (1 ≤ c ∧ c ≤ (find_flat graph n v2cv m).1)) := by
  have inv := final_basic graph n v2cv m
  rw [find_flat_eq]
  refine ⟨fun i h1 h2 => inv.assigned i h1 (by omega), fun c => ⟨?_, ?_⟩⟩
  · rintro ⟨i, h1, h2, rfl⟩
    have := inv.assigned i h1 (by omega)
    exact ⟨by simp only; omega, inv.bound i h1 h2⟩
  · rintro ⟨h1, h2⟩
    obtain ⟨k, hk1, hk2, hk3⟩ := inv.used c h1 h2
    exact ⟨k, hk1, by omega, hk3⟩

/-- C2 (instance): the six vertices of `cliqueGraph` are mapped onto `1..4`. -/
theorem v2cv_onto_witness :
    (find_flat cliqueGraph 6 (fun _ => 0) zeroScratch).1 = 4 ∧
    ((∀ i, 1 ≤ i → i ≤ 6 → (find_flat cliqueGraph 6 (fun _ => 0) zeroScratch).2 i ≠ 0) ∧
    (∀ c, (∃ i, 1 ≤ i ∧ i ≤ 6 ∧ (find_flat cliqueGraph 6 (fun _ => 0) zeroScratch).2 i = c) ↔
      (1 ≤ c ∧ c ≤ (find_flat cliqueGraph 6 (fun _ => 0) zeroScratch).1))) :=
  ⟨by decide, v2cv_onto cliqueGraph 6 (fun _ => 0) zeroScratch⟩

/-! ## C3 -/

/-- C3: for an `int` vertex count `nvtxs`, `flatten` returns TRUE exactly when
`10 * cnvtxs ≤ 9 * nvtxs` for the `cnvtxs` computed by `find_flat`, and FALSE exactly when
not; with ten vertices it accepts exactly when `cnvtxs ≤ 9`. -/
theorem flatten_accepts_iff {Coords : Type}
    (mk : MakefCall Coords → World Coords → World Coords) (w : World Coords) (nvtxs : Nat)
    (nedges using_ewgts igeom : Int) (coords : Coords) (v2cv : Nat → Nat) (m : Scratch)
    (hn : nvtxs < 2 ^ 31) :
    ((flatten mk w nvtxs nedges using_ewgts igeom coords v2cv m).ret = true ↔
      10 * (find_flat w.graph nvtxs v2cv m).1 ≤ 9 * nvtxs) ∧
    ((flatten mk w nvtxs nedges using_ewgts igeom coords v2cv m).ret = false ↔
      9 * nvtxs < 10 * (find_flat w.graph nvtxs v2cv m).1) ∧
    (nvtxs = 10 →
      ((flatten mk w nvtxs nedges using_ewgts igeom coords v2cv m).ret = true ↔
        (find_flat w.graph nvtxs v2cv m).1 ≤ 9)) := by
  have h := flatten_ret_iff mk w nvtxs nedges using_ewgts igeom coords v2cv m hn
  refine ⟨h, ?_, ?_⟩
  · rw [← Bool.not_eq_true, h]; omega
  · intro h10; rw [h]; omega

/-- C3 (witness): `cliqueGraph` shrinks from 6 to 4 vertices and is accepted. -/
theorem flatten_accepts_iff_witness :
    6 < 2 ^ 31 ∧
    (((flatten (fun _ w => w) (worldOf cliqueGraph) 6 13 0 0 () (fun _ => 0) zeroScratch).ret
        = true ↔
      10 * (find_flat (worldOf cliqueGraph).graph 6 (fun _ => 0) zeroScratch).1 ≤ 9 * 6) ∧
    ((flatten (fun _ w => w) (worldOf cliqueGraph) 6 13 0 0 () (fun _ => 0) zeroScratch).ret
        = false ↔
      9 * 6 < 10 * (find_flat (worldOf cliqueGraph).graph 6 (fun _ => 0) zeroScratch).1) ∧
    (6 = 10 →
      ((flatten (fun _ w => w) (worldOf cliqueGraph) 6 13 0 0 () (fun _ => 0) zeroScratch).ret
          = true ↔
        (find_flat (worldOf cliqueGraph).graph 6 (fun _ => 0) zeroScratch).1 ≤ 9))) :=
  ⟨by norm_num,
    flatten_accepts_iff (fun _ w => w) (worldOf cliqueGraph) 6 13 0 0 () (fun _ => 0)
      zeroScratch (by norm_num)⟩

/-! ## C4 -/

/-- C4: on a graph with entries in `1..n`, no repeated entry and no self entry, let `S` be a
set of vertices that are pairwise adjacent, of equal `nedges`, and with the same neighbor
sets apart from each other.  Then `find_flat` gives every member of `S` the coarse vertex
of the smallest member of `S`. -/
theorem greedy_first_come (graph : Graph) (n : Nat) (v2cv : Nat → Nat) (m : Scratch)
    (wf : WellFormed graph n) (simple : SimpleLists graph n) (S : Finset Nat)
    (hne : S.Nonempty) (hS : ∀ x ∈ S, 1 ≤ x ∧ x ≤ n)
    (hident : ∀ x ∈ S, ∀ y ∈ S, x ≠ y →
      y ∈ nbrs graph x ∧ (graph x).nedges = (graph y).nedges ∧
        (nbrs graph x).toFinset \ {x, y} = (nbrs graph y).toFinset \ {x, y}) :
    ∀ x ∈ S, (find_flat graph n v2cv m).2 x = (find_flat graph n v2cv m).2 (S.min' hne) := by
  intro x hx
  have inv := final_struct graph n v2cv m wf simple
  rw [find_flat_eq]
  have hs : S.min' hne ∈ S := Finset.min'_mem S hne
  by_cases hxs : S.min' hne = x
  · rw [hxs]
  have hsv := mem_vertices.2 (hS _ hs)
  have hxv := mem_vertices.2 (hS x hx)
  have tw : Twin graph (S.min' hne) x :=
    twin_of_identical (simple _ hsv) (simple x hxv) (hident _ hs x hx hxs).1
      (hident x hx _ hs (Ne.symm hxs)).1 (hident _ hs x hx hxs).2.2
  exact inv.complete _ hsv (by have := (hS _ hs).2; omega) x hxv tw

/-- C4 (witness): in `cliqueGraph` the vertices 2, 3, 4 get the coarse vertex of 2. -/
theorem greedy_first_come_witness :
    WellFormed cliqueGraph 6 ∧ SimpleLists cliqueGraph 6 ∧
    ((List.range' 1 6).map (find_flat cliqueGraph 6 (fun _ => 0) zeroScratch).2
      = [1, 2, 2, 2, 3, 4]) ∧
    (∀ x ∈ ({2, 3, 4} : Finset Nat),
      (find_flat cliqueGraph 6 (fun _ => 0) zeroScratch).2 x =
        (find_flat cliqueGraph 6 (fun _ => 0) zeroScratch).2
          (({2, 3, 4} : Finset Nat).min' (by decide))) :=
  ⟨by decide, by decide, by decide,
    greedy_first_come cliqueGraph 6 (fun _ => 0) zeroScratch (by decide) (by decide) {2, 3, 4}
      (by decide) (by decide) (by decide)⟩

/-! ## C5 -/

/-- C5 (counterexample): in `starGraph`, with `scatter` all zero, `SameStructure(1, 2)`
returns true although vertex 1 has the neighbor 3 that vertex 2 lacks: the function only
checks that the entries of the second vertex are among those of the first. -/
theorem SameStructure_accepts_subset :
    (1 < 2) ∧ (∀ x : Nat, (fun _ : Nat => 0) x ≠ 1) ∧
    (SameStructure 1 2 starGraph (fun _ => 0)).1 = true ∧
    2 ∈ nbrs starGraph 1 ∧ 1 ∈ nbrs starGraph 2 ∧
    (nbrs starGraph 1).toFinset \ {1, 2} ≠ (nbrs starGraph 2).toFinset \ {1, 2} :=
  ⟨by decide, fun _ => by simp, by decide, by decide, by decide, by decide⟩

/-- C5 (amended): for vertices `A < B` with equal `nedges`, where the entries
`edges[1..nedges-1]` of `B` are pairwise distinct and differ from `B`, and a `scatter`
array without an entry equal to `A`, `SameStructure(A, B, graph, scatter)` returns true
if and only if `A` and `B` list each other and have the same neighbor set once `A` and
`B` are removed. -/
theorem SameStructure_exact_of_equal_degree (graph : Graph) (A B : Nat) (scatter : Nat → Nat)
    (hAB : A < B) (hs : ∀ x, scatter x ≠ A)
    (hdeg : (graph A).nedges = (graph B).nedges)
    (hB : (nbrs graph B).Nodup ∧ B ∉ nbrs graph B) :
    (SameStructure A B graph scatter).1 = true ↔
      (B ∈ nbrs graph A ∧ A ∈ nbrs graph B ∧
        (nbrs graph A).toFinset \ {A, B} = (nbrs graph B).toFinset \ {A, B}) := by
  have hne : A ≠ B := by omega
  rw [SameStructure_flag A B graph scatter (fun x _ hx => absurd hx (hs x))]
  constructor
  · intro hc
    have tw := twin_of_covered hB hdeg hc
    exact ⟨tw.mem_nbrs hne, tw.symm.mem_nbrs (Ne.symm hne), tw.sdiff_eq⟩
  · rintro ⟨h1, h2, h3⟩
    refine ⟨List.ne_nil_of_mem (List.mem_of_mem_tail h2), ?_, Or.inr h1⟩
    intro e he
    by_cases heA : e = A
    · exact Or.inl heA
    by_cases heB : e = B
    · subst heB; exact Or.inr h1
    have := Finset.ext_iff.1 h3 e
    simp only [Finset.mem_sdiff, List.mem_toFinset, Finset.mem_insert, Finset.mem_singleton,
      heA, heB, or_self, not_false_eq_true, and_true] at this
    exact Or.inr (this.2 he)

/-- C5 (witness): vertices 1 and 2 of the triangle. -/
theorem SameStructure_exact_of_equal_degree_witness :
    (1 < 2) ∧ (∀ x : Nat, (fun _ : Nat => 0) x ≠ 1) ∧
    (triangleGraph 1).nedges = (triangleGraph 2).nedges ∧
    ((nbrs triangleGraph 2).Nodup ∧ 2 ∉ nbrs triangleGraph 2) ∧
    ((SameStructure 1 2 triangleGraph (fun _ => 0)).1 = true ↔
      (2 ∈ nbrs triangleGraph 1 ∧ 1 ∈ nbrs triangleGraph 2 ∧
        (nbrs triangleGraph 1).toFinset \ {1, 2} = (nbrs triangleGraph 2).toFinset \ {1, 2})) :=
  ⟨by decide, fun _ => by simp, by decide, by decide,
    SameStructure_exact_of_equal_degree triangleGraph 1 2 (fun _ => 0) (by decide)
      (fun _ => by simp) (by decide) (by decide)⟩

/-! ### The star -/

theorem nbrs_starOf_center (n : Nat) : nbrs (starOf n) 1 = List.range' 2 (n - 1) := by
  simp [nbrs, starOf]

theorem nbrs_starOf_leaf (n i : Nat) (h : i ≠ 1) : nbrs (starOf n) i = [1] := by
  simp [nbrs, starOf, h]

theorem starOf_wf (n : Nat) : WellFormed (starOf n) n := by
  intro i hi e he
  obtain ⟨h1, h2⟩ := mem_vertices.1 hi
  by_cases hc : i = 1
  · subst hc
    rw [nbrs_starOf_center, List.mem_range'_1] at he
    exact mem_vertices.2 ⟨by omega, by omega⟩
  · rw [nbrs_starOf_leaf n i hc, List.mem_singleton] at he
    exact mem_vertices.2 ⟨by omega, by omega⟩

theorem starOf_simple (n : Nat) : SimpleLists (starOf n) n := by
  intro i _
  by_cases hc : i = 1
  · subst hc
    rw [nbrs_starOf_center]
    exact ⟨List.nodup_range' 2 (n - 1), by rw [List.mem_range'_1]; omega⟩
  · rw [nbrs_starOf_leaf n i hc]
    exact ⟨List.nodup_singleton 1, by rw [List.mem_singleton]; exact hc⟩

theorem range_sum_closed (k s : Nat) :
    2 * ((List.range' s k).map (fun e : Nat => (e : Int))).sum + (k : Int) =
      (k : Int) * (2 * (s : Int) + (k : Int)) := by
  induction k generalizing s with
  | zero => simp
  | succ k ih =>
    have := ih (s + 1)
    rw [List.range'_succ, List.map_cons, List.sum_cons]
    push_cast at this ⊢
    linarith [this]

theorem nbr_sum_starOf_center : nbr_sum (starOf 70000) 1 = 2450034999 := by
  unfold nbr_sum
  rw [nbrs_starOf_center]
  have := range_sum_closed 69999 2
  have h : (70000 : Nat) - 1 = 69999 := by norm_num
  rw [h]
  push_cast at this
  omega

/-! ## C6 -/

/-- C6 (counterexample): in the star with 70000 vertices, a well-formed simple graph,
vertex 1 plus the sum of its entries `2, ..., 70000` is `2450035000`, more than `INT_MAX`,
and the hash value that `find_flat` computes for vertex 1 is `-1844932296`. -/
theorem hash_overflows_on_star :
    WellFormed (starOf 70000) 70000 ∧ SimpleLists (starOf 70000) 70000 ∧
    ((1 : Nat) : Int) + nbr_sum (starOf 70000) 1 = 2450035000 ∧
    hash_loop (starOf 70000) 70000 (fun _ => 0) 1 = -1844932296 ∧
    hash_loop (starOf 70000) 70000 (fun _ => 0) 1 ≠
      ((1 : Nat) : Int) + nbr_sum (starOf 70000) 1 := by
  have hne : nbrs (starOf 70000) 1 ≠ [] := by
    rw [nbrs_starOf_center]
    intro h
    have := congrArg List.length h
    rw [List.length_range'] at this
    simp at this
  have hh : hash_loop (starOf 70000) 70000 (fun _ => 0) 1 = -1844932296 := by
    rw [hash_loop_apply _ _ _ 1 (by norm_num) (by norm_num),
      hash_vertex_of_ne_nil _ _ hne, nbr_sum_starOf_center]
    unfold wrap32
    norm_num
  refine ⟨starOf_wf 70000, starOf_simple 70000, ?_, hh, ?_⟩
  · rw [nbr_sum_starOf_center]; norm_num
  · rw [hh, nbr_sum_starOf_center]; norm_num

/-- C6 (amended): for every graph and every vertex `i` in `1..n`, the value `hash[i]` that
`find_flat` computes is `i` plus the sum of `edges[1..nedges-1]` (with multiplicity) as a
32-bit `int`: it is congruent to that sum modulo `2^32` and equal to it whenever the sum
is at most `INT_MAX`; a vertex with `nedges ≤ 1` has hash value `i`. -/
theorem hash_is_vertex_plus_sum (graph : Graph) (n : Nat) (hash : Nat → Int) (i : Nat)
    (h1 : 1 ≤ i) (h2 : i ≤ n) :
    (hash_loop graph n hash i - ((i : Int) + nbr_sum graph i)) % 4294967296 = 0 ∧
    ((i : Int) + nbr_sum graph i < 2147483648 →
      hash_loop graph n hash i = (i : Int) + nbr_sum graph i) ∧
    ((graph i).nedges ≤ 1 → hash_loop graph n hash i = (i : Int)) := by
  rw [hash_loop_apply graph n hash i h1 h2]
  have hnil : nbrs graph i = [] → hash_vertex graph i = (i : Int) + nbr_sum graph i := by
    intro h
    rw [hash_vertex_of_nil graph i h]
    simp [nbr_sum, h]
  refine ⟨?_, ?_, ?_⟩
  · by_cases h : nbrs graph i = []
    · rw [hnil h]; simp
    · rw [hash_vertex_of_ne_nil graph i h]; exact wrap32_congr _
  · intro hlt
    by_cases h : nbrs graph i = []
    · exact hnil h
    · rw [hash_vertex_of_ne_nil graph i h]
      have := nbr_sum_nonneg graph i
      exact wrap32_of_range _ (by omega) hlt
  · intro hle
    apply hash_vertex_of_nil
    unfold vtx_data.nedges at hle
    unfold nbrs
    apply List.eq_nil_of_length_eq_zero
    rw [List.length_tail]
    omega

/-- C6 (witness): vertex 2 of `dupGraph` has hash value `2 + (1 + 4 + 4 + 4) = 15`. -/
theorem hash_is_vertex_plus_sum_witness :
    (1 ≤ 2 ∧ 2 ≤ 5) ∧ (2 : Int) + nbr_sum dupGraph 2 = 15 ∧
    ((hash_loop dupGraph 5 (fun _ => 0) 2 - (((2 : Nat) : Int) + nbr_sum dupGraph 2))
        % 4294967296 = 0 ∧
    ((((2 : Nat) : Int) + nbr_sum dupGraph 2 < 2147483648 →
      hash_loop dupGraph 5 (fun _ => 0) 2 = ((2 : Nat) : Int) + nbr_sum dupGraph 2) ∧
    ((dupGraph 2).nedges ≤ 1 → hash_loop dupGraph 5 (fun _ => 0) 2 = ((2 : Nat) : Int)))) :=
  ⟨by decide, by decide,
    hash_is_vertex_plus_sum dupGraph 5 (fun _ => 0) 2 (by decide) (by decide)⟩

/-! ## C7 -/

/-- C7: for every graph and all coarse vertices `c < c'` in `1..cnvtxs`, the smallest
vertex that `find_flat` maps to `c` is smaller than the smallest vertex it maps to `c'`;
moreover `v2cv[1] = 1` when `n ≥ 1`, and `v2cv[k] ≤ k` for every `k` in `1..n`. -/
theorem coarse_ids_follow_scan_order (graph : Graph) (n : Nat) (v2cv : Nat → Nat)
    (m : Scratch) :
    (∀ c c', 1 ≤ c → c < c' → c' ≤ (find_flat graph n v2cv m).1 →
      ∃ k k', FirstWith (find_flat graph n v2cv m).2 n c k ∧
        FirstWith (find_flat graph n v2cv m).2 n c' k' ∧ k < k') ∧
    (1 ≤ n → (find_flat graph n v2cv m).2 1 = 1) ∧
    (∀ k, 1 ≤ k → k ≤ n → (find_flat graph n v2cv m).2 k ≤ k) := by
  have inv := final_basic graph n v2cv m
  rw [find_flat_eq]
  simp only
  have first : ∀ c, 1 ≤ c → c ≤ (final_state graph n v2cv m).cnvtxs →
      ∃ k, FirstWith (final_state graph n v2cv m).v2cv n c k := by
    intro c hc1 hc2
    obtain ⟨k, hk1, hk2, hk3⟩ := inv.used c hc1 hc2
    have hex : ∃ k, 1 ≤ k ∧ k ≤ n ∧ (final_state graph n v2cv m).v2cv k = c :=
      ⟨k, hk1, by omega, hk3⟩
    classical
    refine ⟨Nat.find hex, (Nat.find_spec hex).1, (Nat.find_spec hex).2.1,
      (Nat.find_spec hex).2.2, fun j hj1 hj2 hj3 => Nat.find_min' hex ⟨hj1, hj2, hj3⟩⟩
  refine ⟨?_, ?_, inv.below⟩
  · intro c c' hc1 hcc hc2
    obtain ⟨k, hk⟩ := first c hc1 (by omega)
    obtain ⟨k', hk'⟩ := first c' (by omega) hc2
    refine ⟨k, k', hk, hk', ?_⟩
    obtain ⟨r, hr1, hr2, hr3⟩ := inv.ordered k' hk'.1 hk'.2.1 c hc1 (by rw [hk'.2.2.1]; exact hcc)
    have := hk.2.2.2 r hr1 (by have := hk'.2.1; omega) hr3
    omega
  · intro hn
    have h0 := inv.assigned 1 (le_refl 1) (by omega)
    have h1 := inv.below 1 (le_refl 1) hn
    omega

/-- C7 (instance): in `cliqueGraph` the coarse vertices 1, 2, 3, 4 first occur at the
vertices 1, 2, 5, 6. -/
theorem coarse_ids_follow_scan_order_witness :
    ((List.range' 1 6).map (find_flat cliqueGraph 6 (fun _ => 0) zeroScratch).2
      = [1, 2, 2, 2, 3, 4]) ∧
    ((∀ c c', 1 ≤ c → c < c' → c' ≤ (find_flat cliqueGraph 6 (fun _ => 0) zeroScratch).1 →
      ∃ k k', FirstWith (find_flat cliqueGraph 6 (fun _ => 0) zeroScratch).2 6 c k ∧
        FirstWith (find_flat cliqueGraph 6 (fun _ => 0) zeroScratch).2 6 c' k' ∧ k < k') ∧
    (1 ≤ 6 → (find_flat cliqueGraph 6 (fun _ => 0) zeroScratch).2 1 = 1) ∧
    (∀ k, 1 ≤ k → k ≤ 6 → (find_flat cliqueGraph 6 (fun _ => 0) zeroScratch).2 k ≤ k)) :=
  ⟨by decide, coarse_ids_follow_scan_order cliqueGraph 6 (fun _ => 0) zeroScratch⟩

/-! ## C8 -/

/-- C8: for every graph with `n ≥ 0` vertices the count returned by `find_flat` satisfies
`cnvtxs ≤ n` (it is a natural number, so `0 ≤ cnvtxs`), and `1 ≤ cnvtxs` when `1 ≤ n`. -/
theorem cnvtxs_bounds (graph : Graph) (n : Nat) (v2cv : Nat → Nat) (m : Scratch) :
    0 ≤ (find_flat graph n v2cv m).1 ∧ (find_flat graph n v2cv m).1 ≤ n ∧
    (1 ≤ n → 1 ≤ (find_flat graph n v2cv m).1) := by
  have inv := final_basic graph n v2cv m
  refine ⟨Nat.zero_le _, find_flat_count_le graph n v2cv m, fun hn => ?_⟩
  rw [find_flat_eq]
  have h0 := inv.assigned 1 (le_refl 1) (by omega)
  have h1 := inv.bound 1 (le_refl 1) hn
  simp only
  omega

/-! ## C9 -/

/-- C9: whenever `flatten` returns FALSE, the memory of the caller (the input graph and the
locations `*pcgraph`, `*pcnvtxs`, `*pcnedges`, `*pv2cv`, `*ccoords`) is what it was on
entry and `makefgraph` has not been called. -/
theorem flatten_reject_frame {Coords : Type}
    (mk : MakefCall Coords → World Coords → World Coords) (w : World Coords) (nvtxs : Nat)
    (nedges using_ewgts igeom : Int) (coords : Coords) (v2cv : Nat → Nat) (m : Scratch)
    (hret : (flatten mk w nvtxs nedges using_ewgts igeom coords v2cv m).ret = false) :
    (flatten mk w nvtxs nedges using_ewgts igeom coords v2cv m).world = w ∧
    (flatten mk w nvtxs nedges using_ewgts igeom coords v2cv m).makefgraph_calls = [] := by
  rw [flatten_ret] at hret
  unfold flatten
  simp [hret]

/-- C9 (witness): `starGraph` does not shrink; a builder that would overwrite the caller's
graph is never run. -/
theorem flatten_reject_frame_witness :
    (flatten (fun _ w => { w with graph := fun _ => ⟨[]⟩ }) (worldOf starGraph) 3 2 0 0 ()
        (fun _ => 0) zeroScratch).ret = false ∧
    ((flatten (fun _ w => { w with graph := fun _ => ⟨[]⟩ }) (worldOf starGraph) 3 2 0 0 ()
        (fun _ => 0) zeroScratch).world = worldOf starGraph ∧
    (flatten (fun _ w => { w with graph := fun _ => ⟨[]⟩ }) (worldOf starGraph) 3 2 0 0 ()
        (fun _ => 0) zeroScratch).makefgraph_calls = []) :=
  ⟨flatten_ret_false _ _ 3 2 0 0 () _ _ (by norm_num) (by decide),
    flatten_reject_frame _ _ 3 2 0 0 () _ _
      (flatten_ret_false _ _ 3 2 0 0 () _ _ (by norm_num) (by decide))⟩

/-! ## C10 -/

/-- C10: for every single-vertex graph `find_flat` yields `cnvtxs = 1` and `v2cv[1] = 1`
and `flatten` returns FALSE; for every `int` vertex count `n ≥ 1`, a run in which no vertex
is absorbed (`cnvtxs = n`) is rejected. -/
theorem degenerate_graph_rejected {Coords : Type}
    (mk : MakefCall Coords → World Coords → World Coords) (w : World Coords) (nvtxs : Nat)
    (nedges using_ewgts igeom : Int) (coords : Coords) (v2cv : Nat → Nat) (m : Scratch) :
    ((find_flat w.graph 1 v2cv m).1 = 1 ∧ (find_flat w.graph 1 v2cv m).2 1 = 1 ∧
      (flatten mk w 1 nedges using_ewgts igeom coords v2cv m).ret = false) ∧
    (1 ≤ nvtxs → nvtxs < 2 ^ 31 → (find_flat w.graph nvtxs v2cv m).1 = nvtxs →
      (flatten mk w nvtxs nedges using_ewgts igeom coords v2cv m).ret = false) := by
  have inv := final_basic w.graph 1 v2cv m
  have hc : (find_flat w.graph 1 v2cv m).1 = 1 := by
    rw [find_flat_eq]
    have h0 := inv.assigned 1 (le_refl 1) (by omega)
    have h1 := inv.bound 1 (le_refl 1) (le_refl 1)
    have h2 := inv.count
    simp only
    omega
  have hv : (find_flat w.graph 1 v2cv m).2 1 = 1 := by
    rw [find_flat_eq]
    have h0 := inv.assigned 1 (le_refl 1) (by omega)
    have h1 := inv.below 1 (le_refl 1) (le_refl 1)
    simp only
    omega
  refine ⟨⟨hc, hv, ?_⟩, ?_⟩
  · exact flatten_ret_false mk w 1 nedges using_ewgts igeom coords v2cv m (by norm_num)
      (by rw [hc]; norm_num)
  · intro h1 hn hall
    exact flatten_ret_false mk w nvtxs nedges using_ewgts igeom coords v2cv m hn
      (by rw [hall]; omega)

/-- C10 (witness): the single-vertex graph, and `starGraph` where nothing is absorbed. -/
theorem degenerate_graph_rejected_witness :
    ((find_flat (worldOf pointGraph).graph 1 (fun _ => 0) zeroScratch).1 = 1 ∧
      (find_flat (worldOf pointGraph).graph 1 (fun _ => 0) zeroScratch).2 1 = 1 ∧
      (flatten (fun _ w => w) (worldOf pointGraph) 1 0 0 0 () (fun _ => 0) zeroScratch).ret
        = false) ∧
    (find_flat (worldOf starGraph).graph 3 (fun _ => 0) zeroScratch).1 = 3 ∧
    (flatten (fun _ w => w) (worldOf starGraph) 3 2 0 0 () (fun _ => 0) zeroScratch).ret
      = false :=
  ⟨(degenerate_graph_rejected (fun _ w => w) (worldOf pointGraph) 1 0 0 0 () (fun _ => 0)
      zeroScratch).1,
    by decide,
    (degenerate_graph_rejected (fun _ w => w) (worldOf starGraph) 3 2 0 0 () (fun _ => 0)
      zeroScratch).2 (by norm_num) (by norm_num) (by decide)⟩

theorem scan_loop_congr (A : Nat) (s t : Nat → Nat) (L : List Nat) (i : Nat)
    (h : ∀ e ∈ L, (s e = A ↔ t e = A)) : scan_loop A s L i = scan_loop A t L i := by
  induction L generalizing i with
  | nil => rfl
  | cons e es ih =>
    have he := h e (List.mem_cons_self _ _)
    rw [scan_loop, scan_loop, ih (i + 1) (fun x hx => h x (List.mem_cons_of_mem _ hx))]
    by_cases hs : s e = A
    · simp [hs, he.1 hs]
    · have ht : ¬ t e = A := fun x => hs (he.2 x)
      simp [hs, ht]

theorem SameStructure_flag_congr (A B : Nat) (graph : Graph) (s t : Nat → Nat)
    (h : ∀ x, s x = A ↔ t x = A) :
    (SameStructure A B graph s).1 = (SameStructure A B graph t).1 := by
  have hm : ∀ x, (mark_loop A (nbrs graph A) (store s A A) x = A ↔
      mark_loop A (nbrs graph A) (store t A A) x = A) := by
    intro x
    simp only [mark_loop_apply, store_apply]
    by_cases h1 : x ∈ nbrs graph A
    · simp [h1]
    · by_cases h2 : x = A
      · simp [h2]
      · simp only [h1, h2, if_false]; exact h x
  simp only [SameStructure]
  rw [scan_loop_congr A _ _ (nbrs graph B) 1 (fun e _ => hm e)]
  have := hm B
  by_cases h1 : mark_loop A (nbrs graph A) (store s A A) B = A
  · simp [h1, this.1 h1]
  · have h2 : ¬ mark_loop A (nbrs graph A) (store t A A) B = A := fun x => h1 (this.2 x)
    simp [h1, h2]

theorem Twin.closed_eq {graph : Graph} {x y : Nat} (h : Twin graph x y) :
    insert x (nbrs graph x).toFinset = insert y (nbrs graph y).toFinset := by
  have := List.toFinset_eq_of_perm _ _ h
  simpa [List.toFinset_cons] using this

theorem hash_vertex_exact (graph : Graph) (i : Nat)
    (h : (i : Int) + nbr_sum graph i < 2147483648) :
    hash_vertex graph i = (i : Int) + nbr_sum graph i := by
  by_cases hn : nbrs graph i = []
  · rw [hash_vertex_of_nil graph i hn]; simp [nbr_sum, hn]
  · rw [hash_vertex_of_ne_nil graph i hn]
    have := nbr_sum_nonneg graph i
    exact wrap32_of_range _ (by omega) h

/-- A sublist of a list of positive numbers: every omitted entry costs at least one. -/
theorem sublist_sum_add_length {l₁ l₂ : List Nat} (h : l₁.Sublist l₂) (hpos : ∀ e ∈ l₂, 1 ≤ e) :
    l₁.sum + (l₂.length - l₁.length) ≤ l₂.sum := by
  induction h with
  | slnil => simp
  | cons a hs ih =>
    have ha := hpos a (List.mem_cons_self _ _)
    have := ih (fun e he => hpos e (List.mem_cons_of_mem _ he))
    have hl := hs.length_le
    simp only [List.length_cons, List.sum_cons]
    omega
  | cons₂ a hs ih =>
    have := ih (fun e he => hpos e (List.mem_cons_of_mem _ he))
    simp only [List.length_cons, List.sum_cons]
    omega

theorem nbr_sum_eq_cast (graph : Graph) (i : Nat) :
    nbr_sum graph i = (((nbrs graph i).sum : Nat) : Int) := by
  unfold nbr_sum
  induction nbrs graph i with
  | nil => simp
  | cons a l ih => simp only [List.map_cons, List.sum_cons, ih]; push_cast; rfl

/-- The closed list of `B` is, up to order, a sublist of that of `A` when `A` covers `B` and
the list of `B` is duplicate-free and self-free. -/
theorem covered_subperm {graph : Graph} {A B : Nat}
    (hB : (nbrs graph B).Nodup ∧ B ∉ nbrs graph B) (hc : Covered graph A B) :
    (B :: nbrs graph B).Subperm (A :: nbrs graph A) := by
  obtain ⟨_, hsub, hmem⟩ := hc
  have ndy : (B :: nbrs graph B).Nodup := List.nodup_cons.2 ⟨hB.2, hB.1⟩
  apply List.subperm_of_subset ndy
  intro e he
  rcases List.mem_cons.1 he with h | h
  · subst h; exact List.mem_cons.2 hmem
  · exact List.mem_cons.2 (hsub e h)

theorem covered_nedges_le {graph : Graph} {A B : Nat} (hne : A ≠ B)
    (hB : (nbrs graph B).Nodup ∧ B ∉ nbrs graph B) (hc : Covered graph A B) :
    (graph B).nedges ≤ (graph A).nedges := by
  have hsp := (covered_subperm hB hc).length_le
  have hBA : B ∈ nbrs graph A := by
    rcases hc.2.2 with h | h
    · exact absurd h.symm hne
    · exact h
  have hA : nbrs graph A ≠ [] := List.ne_nil_of_mem hBA
  rw [nedges_eq_succ graph A hA]
  simp only [List.length_cons] at hsp
  unfold vtx_data.nedges
  have : (nbrs graph B).length = (graph B).edges.length - 1 := by simp [nbrs]
  omega

theorem covered_nedges_eq {graph : Graph} {A B : Nat} (hne : A ≠ B)
    (hB : (nbrs graph B).Nodup ∧ B ∉ nbrs graph B) (hc : Covered graph A B)
    (hA1 : 1 ≤ A) (hpos : ∀ e ∈ nbrs graph A, 1 ≤ e)
    (hsum : (A : Int) + nbr_sum graph A = (B : Int) + nbr_sum graph B) :
    (graph A).nedges = (graph B).nedges := by
  have hle := covered_nedges_le hne hB hc
  obtain ⟨l, hl1, hl2⟩ := covered_subperm hB hc
  have hs := sublist_sum_add_length hl2 (by
    intro e he
    rcases List.mem_cons.1 he with h | h
    · subst h; exact hA1
    · exact hpos e h)
  rw [hl1.sum_eq, hl1.length_eq] at hs
  simp only [List.sum_cons, List.length_cons] at hs
  rw [nbr_sum_eq_cast, nbr_sum_eq_cast] at hsum
  have hsum' : A + (nbrs graph A).sum = B + (nbrs graph B).sum := by exact_mod_cast hsum
  have hBA : B ∈ nbrs graph A := by
    rcases hc.2.2 with h | h
    · exact absurd h.symm hne
    · exact h
  have hA : nbrs graph A ≠ [] := List.ne_nil_of_mem hBA
  rw [nedges_eq_succ graph A hA] at hle ⊢
  have hBe : (graph B).nedges = (nbrs graph B).length + 1 := by
    unfold vtx_data.nedges
    have : (nbrs graph B).length = (graph B).edges.length - 1 := by simp [nbrs]
    have := List.length_pos.2 hc.1
    omega
  rw [hBe] at hle ⊢
  omega

/-! ## C11 -/

/-- C11 (counterexample): in the path 1 - 2 - 3, `SameStructure(1, 2)` returns false on a
zeroed `scatter` and true on a `scatter` whose entry 3 already holds the value 1: a stale
mark equal to `node1` is taken for a neighbor of `node1`. -/
theorem SameStructure_reads_stale_marks :
    (1 < 2) ∧ (SameStructure 1 2 pathGraph (fun _ => 0)).1 = false ∧
    (SameStructure 1 2 pathGraph (store (fun _ => 0) 3 1)).1 = true := by
  decide

/-- C11 (amended): for every graph, all vertices `A < B` and any two `scatter` arrays that
hold the value `A` at the same indices (in particular any two arrays without an entry
equal to `A`), `SameStructure(A, B, graph, _)` returns the same boolean on both. -/
theorem SameStructure_flag_indep (graph : Graph) (A B : Nat) (s1 s2 : Nat → Nat)
    (_hAB : A < B) (h : ∀ x, s1 x = A ↔ s2 x = A) :
    (SameStructure A B graph s1).1 = (SameStructure A B graph s2).1 :=
  SameStructure_flag_congr A B graph s1 s2 h

/-- C11 (witness): two different arrays without an entry 1, on the path 1 - 2 - 3. -/
theorem SameStructure_flag_indep_witness :
    (1 < 2) ∧ (∀ x : Nat, (fun _ : Nat => 0) x = 1 ↔ (fun _ : Nat => 7) x = 1) ∧
    (SameStructure 1 2 pathGraph (fun _ => 0)).1 =
      (SameStructure 1 2 pathGraph (fun _ => 7)).1 :=
  ⟨by decide, fun _ => by simp,
    SameStructure_flag_indep pathGraph 1 2 (fun _ => 0) (fun _ => 7) (by decide)
      (fun _ => by simp)⟩

/-! ## C12 -/

/-- C12: on a graph whose lists `edges[1..nedges-1]` have entries in `1..n`, no repeated
entry and no self entry, any two distinct vertices with the same coarse vertex after
`find_flat` have the same closed neighborhood, hence equal `nedges`, and list each other.
The pair is arbitrary: two absorbed vertices of one supernode are covered. -/
theorem same_supernode_closed_neighborhood (graph : Graph) (n : Nat) (v2cv : Nat → Nat)
    (m : Scratch) (wf : WellFormed graph n) (simple : SimpleLists graph n) (i j : Nat)
    (hi : 1 ≤ i ∧ i ≤ n) (hj : 1 ≤ j ∧ j ≤ n) (hij : i ≠ j)
    (hsame : (find_flat graph n v2cv m).2 i = (find_flat graph n v2cv m).2 j) :
    insert i (nbrs graph i).toFinset = insert j (nbrs graph j).toFinset ∧
      (graph i).nedges = (graph j).nedges ∧ j ∈ nbrs graph i ∧ i ∈ nbrs graph j := by
  have inv := final_struct graph n v2cv m wf simple
  rw [find_flat_eq] at hsame
  have h0 := inv.basic.assigned i hi.1 (by omega)
  have tw := inv.sound i (mem_vertices.2 hi) j (mem_vertices.2 hj) h0 hsame
  exact ⟨tw.closed_eq, tw.nedges_eq hij, tw.mem_nbrs hij, tw.symm.mem_nbrs (Ne.symm hij)⟩

/-- C12 (witness): vertices 3 and 4 of `cliqueGraph`, both absorbed by vertex 2 and never
compared with each other. -/
theorem same_supernode_closed_neighborhood_witness :
    WellFormed cliqueGraph 6 ∧ SimpleLists cliqueGraph 6 ∧
    (find_flat cliqueGraph 6 (fun _ => 0) zeroScratch).2 3 =
      (find_flat cliqueGraph 6 (fun _ => 0) zeroScratch).2 4 ∧
    (insert 3 (nbrs cliqueGraph 3).toFinset = insert 4 (nbrs cliqueGraph 4).toFinset ∧
      (cliqueGraph 3).nedges = (cliqueGraph 4).nedges ∧ 4 ∈ nbrs cliqueGraph 3 ∧
      3 ∈ nbrs cliqueGraph 4) :=
  ⟨by decide, by decide, by decide,
    same_supernode_closed_neighborhood cliqueGraph 6 (fun _ => 0) zeroScratch (by decide)
      (by decide) 3 4 (by decide) (by decide) (by decide) (by decide)⟩

/-! ## C13 -/

/-- C13: there is an input graph (`stealGraph`, a symmetric multigraph with entries in
`1..5`) and vertices `h = 1 < i = 2 < j = 3` such that `i` is a representative, `j` is an
entry of `i`, has the hash value and the `nedges` of `i`, and `SameStructure(i, j)` succeeds
on every `scatter` without an entry `i`, and yet `find_flat` ends with
`v2cv[j] = v2cv[h] ≠ v2cv[i]`: the earlier representative `h` absorbed `j`. -/
theorem lost_merge_opportunity :
    ∃ (graph : Graph) (n h i j : Nat),
      WellFormed graph n ∧ 1 ≤ h ∧ h < i ∧ i < j ∧ j ≤ n ∧
      h ∈ representatives graph n (fun _ => 0) zeroScratch ∧
      i ∈ representatives graph n (fun _ => 0) zeroScratch ∧
      j ∈ nbrs graph i ∧
      hash_loop graph n zeroScratch.hash j = hash_loop graph n zeroScratch.hash i ∧
      (graph j).nedges = (graph i).nedges ∧
      (∀ s : Nat → Nat, (∀ x, s x ≠ i) → (SameStructure i j graph s).1 = true) ∧
      (find_flat graph n (fun _ => 0) zeroScratch).2 j ≠
        (find_flat graph n (fun _ => 0) zeroScratch).2 i ∧
      (find_flat graph n (fun _ => 0) zeroScratch).2 j =
        (find_flat graph n (fun _ => 0) zeroScratch).2 h := by
  refine ⟨stealGraph, 5, 1, 2, 3, by decide, by decide, by decide, by decide, by decide,
    by decide, by decide, by decide, by decide, by decide, ?_, by decide, by decide⟩
  intro s hs
  rw [SameStructure_flag 2 3 stealGraph s (fun x _ hx => absurd hx (hs x))]
  decide

/-- Complement of C13: on duplicate-free, self-free lists with entries in `1..n` no merge is
lost, a vertex that passes the tests against a vertex `i` ends in the supernode of `i`. -/
theorem passes_tests_same_supernode_of_simple (graph : Graph) (n : Nat) (v2cv : Nat → Nat)
    (m : Scratch) (wf : WellFormed graph n) (simple : SimpleLists graph n) (i j : Nat)
    (hi : 1 ≤ i ∧ i ≤ n) (hj : 1 ≤ j ∧ j ≤ n)
    (hdeg : (graph i).nedges = (graph j).nedges) (hc : Covered graph i j) :
    (find_flat graph n v2cv m).2 j = (find_flat graph n v2cv m).2 i := by
  have inv := final_struct graph n v2cv m wf simple
  rw [find_flat_eq]
  exact inv.complete i (mem_vertices.2 hi) (by omega) j (mem_vertices.2 hj)
    (twin_of_covered (simple j (mem_vertices.2 hj)) hdeg hc)

/-! ## C14 -/

/-- C14 (counterexample): in `starGraph`, `SameStructure(1, 2)` returns true on a zeroed
`scatter` while `graph[1]->nedges = 3` and `graph[2]->nedges = 2`. -/
theorem SameStructure_true_with_unequal_degree :
    (1 < 2) ∧ (∀ x : Nat, (fun _ : Nat => 0) x ≠ 1) ∧
    (SameStructure 1 2 starGraph (fun _ => 0)).1 = true ∧
    (starGraph 1).nedges = 3 ∧ (starGraph 2).nedges = 2 :=
  ⟨by decide, fun _ => by simp, by decide, by decide, by decide⟩

/-- C14 (amended): for vertices `A < B` where the entries `edges[1..nedges-1]` of `B` are
pairwise distinct and differ from `B`, if `SameStructure(A, B, graph, scatter)` returns
true (no entry of `scatter` equal to `A` on entry) then `nedges` of `B` is at most that of
`A`; if moreover `A` and its entries are at least 1 and the hash values of `A` and `B` are
equal and were computed without overflow, then the two `nedges` are equal. -/
theorem degree_le_of_SameStructure (graph : Graph) (A B : Nat) (scatter : Nat → Nat)
    (hAB : A < B) (hs : ∀ x, scatter x ≠ A)
    (hB : (nbrs graph B).Nodup ∧ B ∉ nbrs graph B)
    (hsame : (SameStructure A B graph scatter).1 = true) :
    (graph B).nedges ≤ (graph A).nedges ∧
    (1 ≤ A → (∀ e ∈ nbrs graph A, 1 ≤ e) →
      (A : Int) + nbr_sum graph A < 2147483648 → (B : Int) + nbr_sum graph B < 2147483648 →
      hash_vertex graph A = hash_vertex graph B → (graph A).nedges = (graph B).nedges) := by
  have hne : A ≠ B := by omega
  have hc := (SameStructure_flag A B graph scatter (fun x _ hx => absurd hx (hs x))).1 hsame
  refine ⟨covered_nedges_le hne hB hc, fun hA1 hpos hA hB' hh => ?_⟩
  rw [hash_vertex_exact graph A hA, hash_vertex_exact graph B hB'] at hh
  exact covered_nedges_eq hne hB hc hA1 hpos hh

/-- C14 (witness): vertices 1 and 2 of the triangle. -/
theorem degree_le_of_SameStructure_witness :
    (1 < 2) ∧ (∀ x : Nat, (fun _ : Nat => 0) x ≠ 1) ∧
    ((nbrs triangleGraph 2).Nodup ∧ 2 ∉ nbrs triangleGraph 2) ∧
    (SameStructure 1 2 triangleGraph (fun _ => 0)).1 = true ∧
    hash_vertex triangleGraph 1 = hash_vertex triangleGraph 2 ∧
    ((triangleGraph 2).nedges ≤ (triangleGraph 1).nedges ∧
      (triangleGraph 1).nedges = (triangleGraph 2).nedges) :=
  ⟨by decide, fun _ => by simp, by decide, by decide, by decide,
    (degree_le_of_SameStructure triangleGraph 1 2 (fun _ => 0) (by decide) (fun _ => by simp)
      (by decide) (by decide)).1,
    (degree_le_of_SameStructure triangleGraph 1 2 (fun _ => 0) (by decide) (fun _ => by simp)
      (by decide) (by decide)).2 (by decide) (by decide) (by decide) (by decide) (by decide)⟩

/-! ## C15 -/

/-- C15: for vertices `A ≠ B`, a record of `B` that holds at least its self entry
(`nedges ≥ 1`, as the graph format prescribes) and a `scatter` array without an entry equal
to `A`, `SameStructure(A, B, graph, scatter)` returns true if and only if every entry
`edges[1..nedges-1]` of `B` is `A` or an entry of `A`, and `B` is an entry of `A`;
afterwards `scatter[x] = A` exactly for `x = A` and the entries `x` of `A`, and every other
entry of `scatter` is unchanged. -/
theorem SameStructure_computes (graph : Graph) (A B : Nat) (scatter : Nat → Nat)
    (hAB : A ≠ B) (hB : 1 ≤ (graph B).nedges) (hs : ∀ x, scatter x ≠ A) :
    ((SameStructure A B graph scatter).1 = true ↔
      ((∀ e ∈ nbrs graph B, e = A ∨ e ∈ nbrs graph A) ∧ B ∈ nbrs graph A)) ∧
    (∀ x, (SameStructure A B graph scatter).2 x = A ↔ (x = A ∨ x ∈ nbrs graph A)) ∧
    (∀ x, ¬ (x = A ∨ x ∈ nbrs graph A) → (SameStructure A B graph scatter).2 x = scatter x) := by
  refine ⟨?_, ?_, ?_⟩
  · rw [SameStructure_flag A B graph scatter (fun x _ hx => absurd hx (hs x))]
    unfold Covered
    have hne : (graph B).edges ≠ [] := by
      intro h
      rw [vtx_data.nedges, h] at hB
      simp at hB
    constructor
    · rintro ⟨_, h1, h2⟩
      rcases h2 with h2 | h2
      · exact absurd h2.symm hAB
      · exact ⟨h1, h2⟩
    · rintro ⟨h1, h2⟩
      exact ⟨hne, h1, Or.inr h2⟩
  · intro x
    rw [SameStructure_scatter]
    by_cases hx : x = A ∨ x ∈ nbrs graph A
    · simp [hx]
    · simp only [hx, if_false, iff_false]
      exact hs x
  · intro x hx
    rw [SameStructure_scatter, if_neg hx]

/-- C15 (witness): vertices 1 and 2 of `starGraph`; vertex 2 has the single entry 1. -/
theorem SameStructure_computes_witness :
    (1 ≠ 2) ∧ 1 ≤ (starGraph 2).nedges ∧ (∀ x : Nat, (fun _ : Nat => 0) x ≠ 1) ∧
    (((SameStructure 1 2 starGraph (fun _ => 0)).1 = true ↔
      ((∀ e ∈ nbrs starGraph 2, e = 1 ∨ e ∈ nbrs starGraph 1) ∧ 2 ∈ nbrs starGraph 1)) ∧
    (∀ x, (SameStructure 1 2 starGraph (fun _ => 0)).2 x = 1 ↔ (x = 1 ∨ x ∈ nbrs starGraph 1)) ∧
    (∀ x, ¬ (x = 1 ∨ x ∈ nbrs starGraph 1) →
      (SameStructure 1 2 starGraph (fun _ => 0)).2 x = (fun _ : Nat => 0) x)) :=
  ⟨by decide, by decide, fun _ => by simp,
    SameStructure_computes starGraph 1 2 (fun _ => 0) (by decide) (by decide)
      (fun _ => by simp)⟩

/-! ### Generic facts about logs of loops -/

theorem mem_trace_loop {σ β α : Type} (f : σ → β → σ) (g : σ → β → List α) (e : α) :
    ∀ (L : List β) (s : σ), e ∈ trace_loop f g L s ↔
      ∃ L1 b L2, L = L1 ++ b :: L2 ∧ e ∈ g (L1.foldl f s) b := by
  intro L
  induction L with
  | nil => intro s; simp [trace_loop]
  | cons b bs ih =>
    intro s
    rw [trace_loop, List.mem_append, ih]
    constructor
    · rintro (h | ⟨L1, c, L2, hL, he⟩)
      · exact ⟨[], b, bs, rfl, h⟩
      · exact ⟨b :: L1, c, L2, by rw [hL]; rfl, he⟩
    · rintro ⟨L1, c, L2, hL, he⟩
      cases L1 with
      | nil =>
        simp only [List.nil_append, List.cons.injEq] at hL
        obtain ⟨rfl, rfl⟩ := hL
        exact Or.inl he
      | cons d L1 =>
        simp only [List.cons_append, List.cons.injEq] at hL
        obtain ⟨rfl, rfl⟩ := hL
        exact Or.inr ⟨L1, c, L2, rfl, he⟩

theorem range_split_aux {L2 : List Nat} {b : Nat} :
    ∀ (L1 : List Nat) (start n : Nat), List.range' start n = L1 ++ b :: L2 →
      b = start + L1.length ∧ L1 = List.range' start L1.length ∧
        L2 = List.range' (b + 1) (n - L1.length - 1) := by
  intro L1
  induction L1 with
  | nil =>
    intro start n h
    cases n with
    | zero => simp at h
    | succ n =>
      rw [List.range'_succ] at h
      simp only [List.nil_append, List.cons.injEq] at h
      obtain ⟨rfl, rfl⟩ := h
      simp
  | cons a L1 ih =>
    intro start n h
    cases n with
    | zero => simp at h
    | succ n =>
      rw [List.range'_succ] at h
      simp only [List.cons_append, List.cons.injEq] at h
      obtain ⟨rfl, h⟩ := h
      obtain ⟨hb, h1, h2⟩ := ih (start + 1) n h
      refine ⟨by simp only [List.length_cons]; omega, ?_, ?_⟩
      · simp only [List.length_cons, List.range'_succ]
        rw [← h1]
      · rw [h2]; simp only [List.length_cons]; congr 1; omega

theorem range_split {n : Nat} {L1 L2 : List Nat} {b : Nat}
    (h : List.range' 1 n = L1 ++ b :: L2) :
    1 ≤ b ∧ b ≤ n ∧ L1 = List.range' 1 (b - 1) ∧ L2 = List.range' (b + 1) (n - b) := by
  have hlen := congrArg List.length h
  simp only [List.length_range', List.length_append, List.length_cons] at hlen
  obtain ⟨hb, h1, h2⟩ := range_split_aux L1 1 n h
  refine ⟨by omega, by omega, ?_, ?_⟩
  · rw [show b - 1 = L1.length by omega]; exact h1
  · rw [h2]; congr 1; omega

/-! ### Intermediate states of the supernode loop -/

theorem absorb_step_guard (graph : Graph) (hash : Nat → Int) (i : Nat) (st : FlatState)
    (nb : Nat) :
    ∀ k, (absorb_step graph hash i st nb).v2cv k = st.v2cv k ∨
      (st.v2cv k = 0 ∧ i < k ∧ (absorb_step graph hash i st nb).v2cv k = st.cnvtxs ∧
        k = nb ∧ hash k = hash i ∧ (graph i).nedges = (graph k).nedges) := by
  by_cases h1 : nb > i ∧ hash nb = hash i ∧
      (graph i).nedges = (graph nb).nedges ∧ st.v2cv nb = 0
  · by_cases h2 : (SameStructure i nb graph st.scatter).1 = true
    · have hv : (absorb_step graph hash i st nb).v2cv = store st.v2cv nb st.cnvtxs := by
        simp [absorb_step, h1, h2]
      intro k
      rw [hv]
      by_cases hk : k = nb
      · subst hk
        right
        exact ⟨h1.2.2.2, h1.1, by simp, rfl, h1.2.1, h1.2.2.1⟩
      · left
        exact store_other _ _ hk
    · have hv : (absorb_step graph hash i st nb).v2cv = st.v2cv := by
        simp [absorb_step, h1, h2]
      intro k; left; rw [hv]
  · have hv : (absorb_step graph hash i st nb).v2cv = st.v2cv := by
      simp [absorb_step, h1]
    intro k; left; rw [hv]

theorem absorb_loop_guard (graph : Graph) (hash : Nat → Int) (i : Nat) (L : List Nat)
    (st : FlatState) :
    ∀ k, (L.foldl (absorb_step graph hash i) st).v2cv k = st.v2cv k ∨
      (st.v2cv k = 0 ∧ i < k ∧ (L.foldl (absorb_step graph hash i) st).v2cv k = st.cnvtxs ∧
        k ∈ L ∧ hash k = hash i ∧ (graph i).nedges = (graph k).nedges) := by
  induction L generalizing st with
  | nil => exact fun k => Or.inl rfl
  | cons nb L ih =>
    intro k
    rw [List.foldl_cons]
    have hc1 := (absorb_step_basic graph hash i st nb).1
    rcases ih (absorb_step graph hash i st nb) k with h | ⟨h0, hik, h, hm, hh, hd⟩
    · rcases absorb_step_guard graph hash i st nb k with h1 | ⟨h10, h1ik, h1, hk, hh, hd⟩
      · left; rw [h, h1]
      · right; exact ⟨h10, h1ik, by rw [h, h1], by rw [hk]; exact List.mem_cons_self _ _, hh, hd⟩
    · right
      rcases absorb_step_guard graph hash i st nb k with h1 | ⟨h10, _, _, _, _, _⟩
      · exact ⟨by rw [← h1]; exact h0, hik, by rw [h, hc1], List.mem_cons_of_mem _ hm, hh, hd⟩
      · exact ⟨h10, hik, by rw [h, hc1], List.mem_cons_of_mem _ hm, hh, hd⟩

theorem group_step_keeps (graph : Graph) (hash : Nat → Int) (st : FlatState) (i k : Nat)
    (hk : st.v2cv k ≠ 0) : (group_step graph hash st i).v2cv k = st.v2cv k := by
  by_cases h0 : st.v2cv i = 0
  · rw [group_step_of_zero graph hash st i h0]
    have hki : k ≠ i := fun h => hk (h ▸ h0)
    rcases (absorb_loop_basic graph hash i (nbrs graph i)
      { st with cnvtxs := st.cnvtxs + 1, v2cv := store st.v2cv i (st.cnvtxs + 1) }).2 k
      with h | ⟨h, _, _⟩
    · rw [h]; exact store_other _ _ hki
    · simp only [store_other _ _ hki] at h
      exact absurd h hk
  · rw [group_step_of_ne_zero graph hash st i h0]

theorem foldl_group_keeps (graph : Graph) (hash : Nat → Int) (L : List Nat) (st : FlatState)
    (k : Nat) (hk : st.v2cv k ≠ 0) :
    (L.foldl (group_step graph hash) st).v2cv k = st.v2cv k := by
  induction L generalizing st with
  | nil => rfl
  | cons i L ih =>
    rw [List.foldl_cons]
    have h1 := group_step_keeps graph hash st i k hk
    rw [ih (group_step graph hash st i) (by rw [h1]; exact hk), h1]

theorem state_at_succ (graph : Graph) (n : Nat) (v2cv : Nat → Nat) (m : Scratch) (i : Nat)
    (h1 : 1 ≤ i) :
    state_at graph n v2cv m (i + 1) =
      group_step graph (hash_loop graph n m.hash) (state_at graph n v2cv m i) i := by
  unfold state_at
  rw [show i + 1 - 1 = (i - 1) + 1 by omega, List.range'_concat, List.foldl_append]
  simp only [List.foldl_cons, List.foldl_nil]
  rw [show 1 + 1 * (i - 1) = i by omega]

theorem final_of_state_at (graph : Graph) (n : Nat) (v2cv : Nat → Nat) (m : Scratch) (i : Nat)
    (h1 : 1 ≤ i) (h2 : i ≤ n + 1) :
    final_state graph n v2cv m =
      (List.range' i (n + 1 - i)).foldl (group_step graph (hash_loop graph n m.hash))
        (state_at graph n v2cv m i) := by
  unfold final_state state_at
  rw [← List.foldl_append]
  have := List.range'_append 1 (i - 1) (n + 1 - i) 1
  rw [show 1 + 1 * (i - 1) = i by omega, show n + 1 - i + (i - 1) = n by omega] at this
  rw [this]

theorem state_at_basic (graph : Graph) (n : Nat) (v2cv : Nat → Nat) (m : Scratch) (i : Nat)
    (h1 : 1 ≤ i) (h2 : i ≤ n + 1) : BasicInv n i (state_at graph n v2cv m i) := by
  unfold state_at
  have := foldl_range_inv (group_step graph (hash_loop graph n m.hash))
    (fun i st => BasicInv n i st) (i - 1) 1 (zero_loop n v2cv m.scatter)
    (zero_loop_basic n v2cv m.scatter)
    (fun j s hj1 hj2 hp => group_step_basic graph _ n j s hj1 (by omega) hp)
  rw [show 1 + (i - 1) = i by omega] at this
  exact this

theorem final_keeps (graph : Graph) (n : Nat) (v2cv : Nat → Nat) (m : Scratch) (i k : Nat)
    (h1 : 1 ≤ i) (h2 : i ≤ n + 1) (hk : (state_at graph n v2cv m i).v2cv k ≠ 0) :
    (final_state graph n v2cv m).v2cv k = (state_at graph n v2cv m i).v2cv k := by
  rw [final_of_state_at graph n v2cv m i h1 h2]
  exact foldl_group_keeps graph _ _ _ k hk

theorem mem_representatives (graph : Graph) (n : Nat) (v2cv : Nat → Nat) (m : Scratch)
    (r : Nat) :
    r ∈ representatives graph n v2cv m ↔
      1 ≤ r ∧ r ≤ n ∧ (state_at graph n v2cv m r).v2cv r = 0 := by
  unfold representatives
  rw [mem_trace_loop]
  constructor
  · rintro ⟨L1, b, L2, hL, he⟩
    obtain ⟨hb1, hb2, hL1, _⟩ := range_split hL
    by_cases h0 : (L1.foldl (group_step graph (hash_loop graph n m.hash))
        (zero_loop n v2cv m.scatter)).v2cv b = 0
    · rw [if_pos h0] at he
      simp only [List.mem_singleton] at he
      subst he
      rw [hL1] at h0
      exact ⟨hb1, hb2, h0⟩
    · rw [if_neg h0] at he
      simp at he
  · rintro ⟨h1, h2, h0⟩
    refine ⟨List.range' 1 (r - 1), r, List.range' (r + 1) (n - r), ?_, ?_⟩
    · have := List.range'_append 1 (r - 1) (n - r + 1) 1
      rw [show n - r + 1 + (r - 1) = n by omega, List.range'_succ,
        show 1 + 1 * (r - 1) = r by omega] at this
      exact this.symm
    · unfold state_at at h0
      rw [if_pos h0]
      exact List.mem_singleton_self r

/-- A vertex is a representative exactly when no smaller vertex ends with its coarse
vertex. -/
theorem representative_iff_first (graph : Graph) (n : Nat) (v2cv : Nat → Nat) (m : Scratch)
    (r : Nat) :
    r ∈ representatives graph n v2cv m ↔
      1 ≤ r ∧ r ≤ n ∧ ∀ k, 1 ≤ k → k < r →
        (final_state graph n v2cv m).v2cv k ≠ (final_state graph n v2cv m).v2cv r := by
  rw [mem_representatives]
  constructor
  · rintro ⟨h1, h2, h0⟩
    refine ⟨h1, h2, fun k hk1 hk2 => ?_⟩
    have inv := state_at_basic graph n v2cv m r h1 (by omega)
    have inv' := state_at_basic graph n v2cv m (r + 1) (by omega) (by omega)
    have hkeep := group_step_keeps graph (hash_loop graph n m.hash) (state_at graph n v2cv m r)
      r k (inv.assigned k hk1 hk2)
    rw [← state_at_succ graph n v2cv m r h1] at hkeep
    have hr : (state_at graph n v2cv m (r + 1)).v2cv r =
        (state_at graph n v2cv m r).cnvtxs + 1 := by
      rw [state_at_succ graph n v2cv m r h1]
      have := (group_step_basic graph (hash_loop graph n m.hash) n r _ h1 h2 inv)
      rw [group_step_of_zero graph _ _ r h0]
      rcases (absorb_loop_basic graph (hash_loop graph n m.hash) r (nbrs graph r)
        { state_at graph n v2cv m r with
          cnvtxs := (state_at graph n v2cv m r).cnvtxs + 1,
          v2cv := store (state_at graph n v2cv m r).v2cv r
            ((state_at graph n v2cv m r).cnvtxs + 1) }).2 r with h | ⟨_, h, _⟩
      · rw [h]; simp
      · omega
    rw [final_keeps graph n v2cv m (r + 1) k (by omega) (by omega)
        (by rw [hkeep]; exact inv.assigned k hk1 hk2),
      final_keeps graph n v2cv m (r + 1) r (by omega) (by omega) (by rw [hr]; omega),
      hkeep, hr]
    have := inv.bound k hk1 (by omega)
    omega
  · rintro ⟨h1, h2, hfirst⟩
    refine ⟨h1, h2, ?_⟩
    by_contra h0
    have inv := state_at_basic graph n v2cv m r h1 (by omega)
    obtain ⟨k, hk1, hk2, hk3⟩ := inv.used _ (by omega) (inv.bound r h1 h2)
    apply hfirst k hk1 hk2
    rw [final_keeps graph n v2cv m r k h1 (by omega) (by rw [hk3]; exact h0),
      final_keeps graph n v2cv m r r h1 (by omega) h0, hk3]

/-! ### The representative relation -/

theorem group_step_rep (graph : Graph) (hash : Nat → Int) (n i : Nat) (st : FlatState)
    (h1 : 1 ≤ i) (h2 : i ≤ n) (inv : BasicInv n i st) (rel : RepRel graph hash n st) :
    RepRel graph hash n (group_step graph hash st i) := by
  by_cases h0 : st.v2cv i = 0
  · have hc := (absorb_loop_basic graph hash i (nbrs graph i)
      { st with cnvtxs := st.cnvtxs + 1, v2cv := store st.v2cv i (st.cnvtxs + 1) }).1
    have hg := absorb_loop_guard graph hash i (nbrs graph i)
      { st with cnvtxs := st.cnvtxs + 1, v2cv := store st.v2cv i (st.cnvtxs + 1) }
    rw [group_step_of_zero graph hash st i h0]
    simp only at hc hg
    set st2 := (nbrs graph i).foldl (absorb_step graph hash i)
      { st with cnvtxs := st.cnvtxs + 1, v2cv := store st.v2cv i (st.cnvtxs + 1) } with hst2
    have hi : st2.v2cv i = st.cnvtxs + 1 := by
      rcases hg i with h | ⟨_, h, _⟩
      · rw [h]; simp
      · omega
    have key : ∀ k, (st.v2cv k ≠ 0 ∧ st2.v2cv k = st.v2cv k) ∨
        (st.v2cv k = 0 ∧ st2.v2cv k = 0) ∨
        (st.v2cv k = 0 ∧ st2.v2cv k = st.cnvtxs + 1 ∧
          (k = i ∨ (i < k ∧ k ∈ nbrs graph i ∧ hash k = hash i ∧
            (graph i).nedges = (graph k).nedges))) := by
      intro k
      by_cases hki : k = i
      · subst hki
        exact Or.inr (Or.inr ⟨h0, hi, Or.inl rfl⟩)
      · rcases hg k with h | ⟨ha, hb, hc2, hm, hh, hd⟩
        · rw [store_other _ _ hki] at h
          by_cases hz : st.v2cv k = 0
          · exact Or.inr (Or.inl ⟨hz, by rw [h, hz]⟩)
          · exact Or.inl ⟨hz, h⟩
        · rw [store_other _ _ hki] at ha
          exact Or.inr (Or.inr ⟨ha, hc2, Or.inr ⟨hb, hm, hh, hd⟩⟩)
    intro j hj1 hj2 hj0
    rcases key j with ⟨hjn, hjs⟩ | ⟨_, hjz⟩ | ⟨hjz, hjc, hjg⟩
    · obtain ⟨r, hr1, hr2, hr3, hr4, hr5⟩ := rel j hj1 hj2 hjn
      have hrn : st.v2cv r ≠ 0 := by rw [hr3]; exact hjn
      have hrs : st2.v2cv r = st.v2cv r := by
        rcases key r with ⟨_, h⟩ | ⟨h, _⟩ | ⟨h, _⟩
        · exact h
        · exact absurd h hrn
        · exact absurd h hrn
      refine ⟨r, hr1, hr2, by rw [hrs, hjs, hr3], ?_, hr5⟩
      intro k hk1 hk2
      rw [hjs]
      rcases key k with ⟨_, h⟩ | ⟨_, h⟩ | ⟨_, h, _⟩
      · rw [h]; exact hr4 k hk1 hk2
      · rw [h]; exact fun x => hjn x.symm
      · rw [h]; have := inv.bound j hj1 hj2; omega
    · exact absurd hjz hj0
    · refine ⟨i, h1, ?_, by rw [hi, hjc], ?_, ?_⟩
      · rcases hjg with h | ⟨h, _⟩
        · omega
        · omega
      · intro k hk1 hk2
        rw [hjc]
        rcases key k with ⟨_, h⟩ | ⟨h, _⟩ | ⟨h, _⟩
        · rw [h]; have := inv.bound k hk1 (by omega); omega
        · exact absurd h (inv.assigned k hk1 hk2)
        · exact absurd h (inv.assigned k hk1 hk2)
      · rcases hjg with h | ⟨ha, hb, hc2, hd⟩
        · exact Or.inl h.symm
        · exact Or.inr ⟨ha, hb, hc2, hd⟩
  · rw [group_step_of_ne_zero graph hash st i h0]
    exact rel

theorem final_rep (graph : Graph) (n : Nat) (v2cv : Nat → Nat) (m : Scratch) :
    RepRel graph (hash_loop graph n m.hash) n (final_state graph n v2cv m) := by
  unfold final_state
  have := foldl_range_inv (group_step graph (hash_loop graph n m.hash))
    (fun i st => BasicInv n i st ∧ RepRel graph (hash_loop graph n m.hash) n st) n 1
    (zero_loop n v2cv m.scatter)
    ⟨zero_loop_basic n v2cv m.scatter, fun j hj1 hj2 hj0 =>
      absurd ((zero_loop_spec n v2cv m.scatter).2 j hj1 hj2).1 hj0⟩
    (fun i s hi1 hi2 hp => ⟨group_step_basic graph _ n i s hi1 (by omega) hp.1,
      group_step_rep graph _ n i s hi1 (by omega) hp.1 hp.2⟩)
  exact this.2

/-! ## C16 -/

/-- C16: for every graph, every supernode `1..cnvtxs` has a representative (a vertex at
which the supernode loop executed `v2cv[i] = ++cnvtxs`); a representative `r` is the
smallest vertex of its supernode, and every other member `j` of that supernode satisfies
`r < j`, `j` is one of `edges[1..nedges-1]` of `r`, `hash[j] = hash[r]` and
`graph[j]->nedges = graph[r]->nedges`. -/
theorem representative_relation (graph : Graph) (n : Nat) (v2cv : Nat → Nat) (m : Scratch) :
    (∀ c, 1 ≤ c → c ≤ (find_flat graph n v2cv m).1 →
      ∃ r ∈ representatives graph n v2cv m, (find_flat graph n v2cv m).2 r = c) ∧
    (∀ r ∈ representatives graph n v2cv m,
      FirstWith (find_flat graph n v2cv m).2 n ((find_flat graph n v2cv m).2 r) r ∧
      ∀ j, 1 ≤ j → j ≤ n → j ≠ r →
        (find_flat graph n v2cv m).2 j = (find_flat graph n v2cv m).2 r →
        r < j ∧ j ∈ nbrs graph r ∧
          hash_loop graph n m.hash j = hash_loop graph n m.hash r ∧
          (graph j).nedges = (graph r).nedges) := by
  have inv := final_basic graph n v2cv m
  have rel := final_rep graph n v2cv m
  rw [find_flat_eq]
  simp only
  constructor
  · intro c hc1 hc2
    obtain ⟨k, hk1, hk2, hk3⟩ := inv.used c hc1 hc2
    obtain ⟨r, hr1, hr2, hr3, hr4, _⟩ := rel k hk1 (by omega) (by omega)
    refine ⟨r, (representative_iff_first graph n v2cv m r).2 ⟨hr1, by omega, ?_⟩,
      by rw [hr3, hk3]⟩
    intro k' hk'1 hk'2
    rw [hr3]
    exact hr4 k' hk'1 hk'2
  · intro r hr
    obtain ⟨hr1, hr2, hfirst⟩ := (representative_iff_first graph n v2cv m r).1 hr
    refine ⟨⟨hr1, hr2, rfl, fun j hj1 _ hj3 => ?_⟩, fun j hj1 hj2 hjr hjv => ?_⟩
    · by_contra hlt
      exact hfirst j hj1 (by omega) hj3
    · obtain ⟨r', hr'1, hr'2, hr'3, hr'4, hr'5⟩ :=
        rel j hj1 hj2 (inv.assigned j hj1 (by omega))
      have heq : r' = r := by
        rcases Nat.lt_trichotomy r' r with h | h | h
        · exact absurd (by rw [hr'3, hjv]) (hfirst r' hr'1 h)
        · exact h
        · exact absurd hjv.symm (hr'4 r hr1 h)
      subst heq
      rcases hr'5 with h | ⟨ha, hb, hc, hd⟩
      · exact absurd h.symm hjr
      · exact ⟨ha, hb, hc, hd.symm⟩

/-- C16 (instance): in `cliqueGraph` the representatives are 1, 2, 5, 6. -/
theorem representative_relation_witness :
    representatives cliqueGraph 6 (fun _ => 0) zeroScratch = [1, 2, 5, 6] ∧
    ((∀ c, 1 ≤ c → c ≤ (find_flat cliqueGraph 6 (fun _ => 0) zeroScratch).1 →
      ∃ r ∈ representatives cliqueGraph 6 (fun _ => 0) zeroScratch,
        (find_flat cliqueGraph 6 (fun _ => 0) zeroScratch).2 r = c) ∧
    (∀ r ∈ representatives cliqueGraph 6 (fun _ => 0) zeroScratch,
      FirstWith (find_flat cliqueGraph 6 (fun _ => 0) zeroScratch).2 6
        ((find_flat cliqueGraph 6 (fun _ => 0) zeroScratch).2 r) r ∧
      ∀ j, 1 ≤ j → j ≤ 6 → j ≠ r →
        (find_flat cliqueGraph 6 (fun _ => 0) zeroScratch).2 j =
          (find_flat cliqueGraph 6 (fun _ => 0) zeroScratch).2 r →
        r < j ∧ j ∈ nbrs cliqueGraph r ∧
          hash_loop cliqueGraph 6 zeroScratch.hash j =
            hash_loop cliqueGraph 6 zeroScratch.hash r ∧
          (cliqueGraph j).nedges = (cliqueGraph r).nedges)) :=
  ⟨by decide, representative_relation cliqueGraph 6 (fun _ => 0) zeroScratch⟩

/-! ### Writes of `v2cv` -/

theorem v2cv_writes_append (a b : List Event) :
    v2cv_writes (a ++ b) = v2cv_writes a ++ v2cv_writes b := by
  unfold v2cv_writes
  rw [List.filterMap_append]

theorem v2cv_writes_mark_events (node1 : Nat) (L : List Nat) (i : Nat) :
    v2cv_writes (mark_events node1 L i) = [] := by
  induction L generalizing i with
  | nil => rfl
  | cons e es ih =>
    rw [mark_events, v2cv_writes_append, ih]
    rfl

theorem v2cv_writes_scan_events (node1 node2 : Nat) (s : Nat → Nat) (L : List Nat) (i : Nat) :
    v2cv_writes (scan_events node1 node2 s L i) = [] := by
  induction L generalizing i with
  | nil => rfl
  | cons e es ih =>
    rw [scan_events, v2cv_writes_append]
    split_ifs
    · rfl
    · rw [ih]; rfl

theorem v2cv_writes_SameStructure_events (node1 node2 : Nat) (graph : Graph) (s : Nat → Nat) :
    v2cv_writes (SameStructure_events node1 node2 graph s) = [] := by
  unfold SameStructure_events
  simp only [v2cv_writes_append, v2cv_writes_mark_events, v2cv_writes_scan_events]
  split_ifs <;> rfl

theorem v2cv_writes_absorb_step_events (graph : Graph) (hash : Nat → Int) (i : Nat)
    (st : FlatState) (j nb : Nat) :
    v2cv_writes (absorb_step_events graph hash i st j nb) =
      if (nb > i ∧ hash nb = hash i ∧ (graph i).nedges = (graph nb).nedges ∧
          st.v2cv nb = 0) ∧ (SameStructure i nb graph st.scatter).1 = true
      then [(nb, st.cnvtxs)] else [] := by
  unfold absorb_step_events
  by_cases h1 : nb > i
  · by_cases h2 : hash nb = hash i
    · by_cases h3 : (graph i).nedges = (graph nb).nedges
      · by_cases h4 : st.v2cv nb = 0
        · by_cases h5 : (SameStructure i nb graph st.scatter).1 = true
          · simp only [h1, h2, h3, h4, h5, if_true, and_self, v2cv_writes_append,
              v2cv_writes_SameStructure_events]
            rfl
          · simp only [h1, h2, h3, h4, h5, if_true, and_self, v2cv_writes_append,
              v2cv_writes_SameStructure_events, and_false, if_false, Bool.false_eq_true]
            rfl
        · simp only [h1, h2, h3, h4, if_true, if_false, and_false, false_and,
            v2cv_writes_append]
          rfl
      · simp only [h1, h2, h3, if_true, if_false, and_false, false_and, v2cv_writes_append]
        rfl
    · simp only [h1, h2, if_true, if_false, and_false, false_and, v2cv_writes_append]
      rfl
  · simp only [h1, if_false, false_and, v2cv_writes_append]
    rfl

theorem Frame.nil (v : Nat → Nat) : Frame v v [] :=
  ⟨fun p hp => by simp at hp, by simp, fun k hk => absurd rfl hk, fun _ _ => rfl⟩

theorem Frame.single (v : Nat → Nat) (k c : Nat) (h0 : v k = 0) (hc : c ≠ 0) :
    Frame v (store v k c) [(k, c)] := by
  refine ⟨?_, by simp, ?_, ?_⟩
  · intro p hp
    simp only [List.mem_singleton] at hp
    subst hp
    exact ⟨h0, hc, by simp⟩
  · intro x hx
    by_cases hxk : x = k
    · simp [hxk]
    · rw [store_other _ _ hxk] at hx
      exact absurd rfl hx
  · intro x hx
    have hxk : x ≠ k := fun h => hx (h ▸ h0)
    exact store_other _ _ hxk

theorem Frame.append {v v1 v2 : Nat → Nat} {W1 W2 : List (Nat × Nat)}
    (h1 : Frame v v1 W1) (h2 : Frame v1 v2 W2) : Frame v v2 (W1 ++ W2) := by
  obtain ⟨a1, b1, c1, d1⟩ := h1
  obtain ⟨a2, b2, c2, d2⟩ := h2
  refine ⟨?_, ?_, ?_, ?_⟩
  · intro p hp
    rcases List.mem_append.1 hp with h | h
    · obtain ⟨x, y, z⟩ := a1 p h
      exact ⟨x, y, by rw [d2 p.1 (by rw [z]; exact y), z]⟩
    · obtain ⟨x, y, z⟩ := a2 p h
      refine ⟨?_, y, z⟩
      by_contra hne
      have := d1 p.1 hne
      rw [x] at this
      exact hne this.symm
  · rw [List.map_append, List.nodup_append]
    refine ⟨b1, b2, ?_⟩
    intro k hk1 hk2
    obtain ⟨p, hp, rfl⟩ := List.mem_map.1 hk1
    obtain ⟨q, hq, hqp⟩ := List.mem_map.1 hk2
    obtain ⟨_, y, z⟩ := a1 p hp
    obtain ⟨x, _, _⟩ := a2 q hq
    rw [hqp, z] at x
    exact y x
  · intro k hk
    rw [List.map_append, List.mem_append]
    by_cases h : v1 k = v k
    · right; exact c2 k (by rw [h]; exact hk)
    · left; exact c1 k h
  · intro k hk
    rw [d2 k (by rw [d1 k hk]; exact hk), d1 k hk]

theorem absorb_step_frame (graph : Graph) (hash : Nat → Int) (i : Nat) (st : FlatState)
    (j nb : Nat) (hc : st.cnvtxs ≠ 0) :
    Frame st.v2cv (absorb_step graph hash i st nb).v2cv
      (v2cv_writes (absorb_step_events graph hash i st j nb)) := by
  rw [v2cv_writes_absorb_step_events]
  by_cases h1 : nb > i ∧ hash nb = hash i ∧
      (graph i).nedges = (graph nb).nedges ∧ st.v2cv nb = 0
  · by_cases h2 : (SameStructure i nb graph st.scatter).1 = true
    · have hv : (absorb_step graph hash i st nb).v2cv = store st.v2cv nb st.cnvtxs := by
        simp [absorb_step, h1, h2]
      rw [hv, if_pos ⟨h1, h2⟩]
      exact Frame.single _ _ _ h1.2.2.2 hc
    · have hv : (absorb_step graph hash i st nb).v2cv = st.v2cv := by
        simp [absorb_step, h1, h2]
      rw [hv, if_neg (fun h => h2 h.2)]
      exact Frame.nil _
  · have hv : (absorb_step graph hash i st nb).v2cv = st.v2cv := by
      simp [absorb_step, h1]
    rw [hv, if_neg (fun h => h1 h.1)]
    exact Frame.nil _

theorem absorb_loop_frame (graph : Graph) (hash : Nat → Int) (i : Nat) (L : List Nat) :
    ∀ (j : Nat) (st : FlatState), st.cnvtxs ≠ 0 →
      Frame st.v2cv (L.foldl (absorb_step graph hash i) st).v2cv
        (v2cv_writes (absorb_loop_events graph hash i L j st)) := by
  induction L with
  | nil => intro j st _; exact Frame.nil _
  | cons nb L ih =>
    intro j st hc
    rw [absorb_loop_events, v2cv_writes_append, List.foldl_cons]
    exact (absorb_step_frame graph hash i st j nb hc).append
      (ih (j + 1) _ (by rw [(absorb_step_basic graph hash i st nb).1]; exact hc))

theorem group_step_frame (graph : Graph) (hash : Nat → Int) (st : FlatState) (i : Nat) :
    Frame st.v2cv (group_step graph hash st i).v2cv
      (v2cv_writes (group_step_events graph hash st i)) := by
  unfold group_step_events
  by_cases h0 : st.v2cv i = 0
  · rw [group_step_of_zero graph hash st i h0, if_pos h0, v2cv_writes_append,
      v2cv_writes_append]
    have h1 : Frame st.v2cv (store st.v2cv i (st.cnvtxs + 1)) [(i, st.cnvtxs + 1)] :=
      Frame.single _ _ _ h0 (by omega)
    have h2 := absorb_loop_frame graph hash i (nbrs graph i) 1
      { st with cnvtxs := st.cnvtxs + 1, v2cv := store st.v2cv i (st.cnvtxs + 1) }
      (by simp)
    exact (Frame.nil _).append (h1.append h2)
  · rw [group_step_of_ne_zero graph hash st i h0, if_neg h0, v2cv_writes_append]
    exact (Frame.nil _).append (Frame.nil _)

theorem group_loop_frame (graph : Graph) (hash : Nat → Int) (L : List Nat) :
    ∀ st : FlatState, Frame st.v2cv (L.foldl (group_step graph hash) st).v2cv
      (v2cv_writes (trace_loop (group_step graph hash) (group_step_events graph hash) L st)) := by
  induction L with
  | nil => intro st; exact Frame.nil _
  | cons i L ih =>
    intro st
    rw [trace_loop, v2cv_writes_append, List.foldl_cons]
    exact (group_step_frame graph hash st i).append (ih _)

/-! ## C17 -/

/-- C17: in the grouping pass of `find_flat`, for every graph, every write `v2cv[k] = v`
hits an entry that is zero at that moment and stores a non-zero value, the value `v2cv[k]`
has when `find_flat` returns; no entry is written twice and every vertex of `1..n` is
written once.  An entry that is non-zero when the loop counter is `i` has its final value,
and the value of a vertex in `1..n` is the coarse vertex of a representative. -/
theorem assignments_never_revised (graph : Graph) (n : Nat) (v2cv : Nat → Nat) (m : Scratch) :
    ((v2cv_writes (group_events graph n v2cv m)).map Prod.fst).Nodup ∧
    (∀ k, 1 ≤ k → k ≤ n → ∃ v, (k, v) ∈ v2cv_writes (group_events graph n v2cv m)) ∧
    (∀ p ∈ v2cv_writes (group_events graph n v2cv m),
      p.2 ≠ 0 ∧ (find_flat graph n v2cv m).2 p.1 = p.2) ∧
    (∀ i k, 1 ≤ i → i ≤ n + 1 → (state_at graph n v2cv m i).v2cv k ≠ 0 →
      (find_flat graph n v2cv m).2 k = (state_at graph n v2cv m i).v2cv k) ∧
    (∀ k, 1 ≤ k → k ≤ n → ∃ r ∈ representatives graph n v2cv m,
      r ≤ k ∧ (find_flat graph n v2cv m).2 r = (find_flat graph n v2cv m).2 k) := by
  have fr := group_loop_frame graph (hash_loop graph n m.hash) (List.range' 1 n)
    (zero_loop n v2cv m.scatter)
  obtain ⟨a, b, c, _⟩ := fr
  have inv := final_basic graph n v2cv m
  have rel := final_rep graph n v2cv m
  rw [find_flat_eq]
  simp only
  refine ⟨b, ?_, ?_, ?_, ?_⟩
  · intro k hk1 hk2
    have h0 := ((zero_loop_spec n v2cv m.scatter).2 k hk1 hk2).1
    have h1 := inv.assigned k hk1 (by omega)
    have := c k (by unfold final_state at h1; rw [h0]; exact h1)
    obtain ⟨p, hp, hpk⟩ := List.mem_map.1 this
    exact ⟨p.2, by rw [← hpk]; exact hp⟩
  · intro p hp
    exact ⟨(a p hp).2.1, (a p hp).2.2⟩
  · intro i k hi1 hi2 hk
    exact final_keeps graph n v2cv m i k hi1 hi2 hk
  · intro k hk1 hk2
    obtain ⟨r, hr1, hr2, hr3, hr4, _⟩ := rel k hk1 hk2 (inv.assigned k hk1 (by omega))
    refine ⟨r, (representative_iff_first graph n v2cv m r).2 ⟨hr1, by omega, ?_⟩, hr2, hr3⟩
    intro k' hk'1 hk'2
    rw [hr3]
    exact hr4 k' hk'1 hk'2

/-- C17 (instance): the writes of the grouping pass on `stealGraph`, in program order. -/
theorem assignments_never_revised_witness :
    v2cv_writes (group_events stealGraph 5 (fun _ => 0) zeroScratch) =
      [(1, 1), (3, 1), (2, 2), (4, 3), (5, 4)] ∧
    (((v2cv_writes (group_events stealGraph 5 (fun _ => 0) zeroScratch)).map Prod.fst).Nodup ∧
    (∀ k, 1 ≤ k → k ≤ 5 →
      ∃ v, (k, v) ∈ v2cv_writes (group_events stealGraph 5 (fun _ => 0) zeroScratch)) ∧
    (∀ p ∈ v2cv_writes (group_events stealGraph 5 (fun _ => 0) zeroScratch),
      p.2 ≠ 0 ∧ (find_flat stealGraph 5 (fun _ => 0) zeroScratch).2 p.1 = p.2) ∧
    (∀ i k, 1 ≤ i → i ≤ 5 + 1 → (state_at stealGraph 5 (fun _ => 0) zeroScratch i).v2cv k ≠ 0 →
      (find_flat stealGraph 5 (fun _ => 0) zeroScratch).2 k =
        (state_at stealGraph 5 (fun _ => 0) zeroScratch i).v2cv k) ∧
    (∀ k, 1 ≤ k → k ≤ 5 → ∃ r ∈ representatives stealGraph 5 (fun _ => 0) zeroScratch,
      r ≤ k ∧ (find_flat stealGraph 5 (fun _ => 0) zeroScratch).2 r =
        (find_flat stealGraph 5 (fun _ => 0) zeroScratch).2 k)) :=
  ⟨by decide, assignments_never_revised stealGraph 5 (fun _ => 0) zeroScratch⟩

/-! ### Calls of `SameStructure` -/

theorem call_not_mem_mark_events (a b : Nat) (s : Nat → Nat) (node1 : Nat) (L : List Nat)
    (i : Nat) : Event.call a b s ∉ mark_events node1 L i := by
  induction L generalizing i with
  | nil => simp [mark_events]
  | cons e es ih => simp [mark_events, ih]

theorem call_not_mem_scan_events (a b : Nat) (s : Nat → Nat) (node1 node2 : Nat)
    (t : Nat → Nat) (L : List Nat) (i : Nat) :
    Event.call a b s ∉ scan_events node1 node2 t L i := by
  induction L generalizing i with
  | nil => simp [scan_events]
  | cons e es ih =>
    rw [scan_events]
    split_ifs
    · simp
    · simp [ih]

theorem call_not_mem_SameStructure_events (a b : Nat) (s : Nat → Nat) (node1 node2 : Nat)
    (graph : Graph) (t : Nat → Nat) :
    Event.call a b s ∉ SameStructure_events node1 node2 graph t := by
  unfold SameStructure_events
  simp only [List.mem_append, not_or]
  refine ⟨⟨⟨⟨by simp, call_not_mem_mark_events _ _ _ _ _ _⟩,
    call_not_mem_scan_events _ _ _ _ _ _ _ _⟩, by simp⟩, ?_⟩
  split_ifs <;> simp

theorem call_mem_absorb_step_events {a b : Nat} {s : Nat → Nat} {graph : Graph}
    {hash : Nat → Int} {i : Nat} {st : FlatState} {j nb : Nat}
    (h : Event.call a b s ∈ absorb_step_events graph hash i st j nb) :
    a = i ∧ b = nb ∧ s = st.scatter := by
  unfold absorb_step_events at h
  have hss := call_not_mem_SameStructure_events a b s i nb graph st.scatter
  simp only [List.mem_append, List.mem_cons, List.mem_singleton, reduceCtorEq, false_or,
    List.not_mem_nil, or_false] at h
  split_ifs at h <;>
    simp only [List.mem_append, List.mem_cons, List.mem_singleton, reduceCtorEq, false_or,
      List.not_mem_nil, or_false, hss, Event.call.injEq] at h
  all_goals exact h

theorem call_mem_absorb_loop_events {a b : Nat} {s : Nat → Nat} {graph : Graph}
    {hash : Nat → Int} {i : Nat} :
    ∀ (L : List Nat) (j : Nat) (st : FlatState),
      Event.call a b s ∈ absorb_loop_events graph hash i L j st →
      ∃ L1 L2, L = L1 ++ b :: L2 ∧ a = i ∧
        s = (L1.foldl (absorb_step graph hash i) st).scatter := by
  intro L
  induction L with
  | nil => intro j st h; simp [absorb_loop_events] at h
  | cons nb L ih =>
    intro j st h
    rw [absorb_loop_events, List.mem_append] at h
    rcases h with h | h
    · obtain ⟨ha, hb, hs⟩ := call_mem_absorb_step_events h
      exact ⟨[], L, by rw [hb]; rfl, ha, hs⟩
    · obtain ⟨L1, L2, hL, ha, hs⟩ := ih _ _ h
      exact ⟨nb :: L1, L2, by rw [hL]; rfl, ha, hs⟩

theorem call_mem_group_step_events {a b : Nat} {s : Nat → Nat} {graph : Graph}
    {hash : Nat → Int} {i : Nat} {st : FlatState}
    (h : Event.call a b s ∈ group_step_events graph hash st i) :
    st.v2cv i = 0 ∧ a = i ∧ ∃ L1 L2, nbrs graph i = L1 ++ b :: L2 ∧
      s = (L1.foldl (absorb_step graph hash i)
        { st with cnvtxs := st.cnvtxs + 1, v2cv := store st.v2cv i (st.cnvtxs + 1) }).scatter := by
  unfold group_step_events at h
  by_cases h0 : st.v2cv i = 0
  · rw [if_pos h0] at h
    simp only [List.mem_append, List.mem_cons, List.mem_singleton, reduceCtorEq, false_or,
      List.not_mem_nil] at h
    obtain ⟨L1, L2, hL, ha, hs⟩ := call_mem_absorb_loop_events _ _ _ h
    exact ⟨h0, ha, L1, L2, hL, hs⟩
  · rw [if_neg h0] at h
    simp at h

theorem call_not_mem_hash_sum_events (a b : Nat) (s : Nat → Nat) (i : Nat) (L : List Nat)
    (j : Nat) : Event.call a b s ∉ hash_sum_events i L j := by
  induction L generalizing j with
  | nil => simp [hash_sum_events]
  | cons e es ih => simp [hash_sum_events, ih]

theorem call_mem_find_flat_events {a b : Nat} {s : Nat → Nat} {graph : Graph} {n : Nat}
    {v2cv : Nat → Nat} {m : Scratch}
    (h : Event.call a b s ∈ find_flat_events graph n v2cv m) :
    1 ≤ a ∧ a ≤ n ∧ (state_at graph n v2cv m a).v2cv a = 0 ∧
      ∃ L1 L2, nbrs graph a = L1 ++ b :: L2 ∧
        s = (L1.foldl (absorb_step graph (hash_loop graph n m.hash) a)
          { state_at graph n v2cv m a with
            cnvtxs := (state_at graph n v2cv m a).cnvtxs + 1,
            v2cv := store (state_at graph n v2cv m a).v2cv a
              ((state_at graph n v2cv m a).cnvtxs + 1) }).scatter := by
  unfold find_flat_events at h
  rw [List.mem_append, List.mem_append] at h
  rcases h with (h | h) | h
  · unfold hash_events at h
    obtain ⟨L1, i, L2, _, he⟩ := (mem_trace_loop _ _ _ _ _).1 h
    have := call_not_mem_hash_sum_events a b s i (nbrs graph i) 1
    simp [this] at he
  · unfold zero_events at h
    obtain ⟨L1, i, L2, _, he⟩ := (mem_trace_loop _ _ _ _ _).1 h
    simp at he
  · unfold group_events at h
    obtain ⟨L1, i, L2, hL, he⟩ := (mem_trace_loop _ _ _ _ _).1 h
    obtain ⟨hi1, hi2, hL1, _⟩ := range_split hL
    obtain ⟨h0, ha, K1, K2, hK, hs⟩ := call_mem_group_step_events he
    subst ha
    rw [hL1] at h0 hs
    exact ⟨hi1, hi2, h0, K1, K2, hK, hs⟩

/-! ### Marks in `scatter` -/

theorem absorb_step_scatter (graph : Graph) (hash : Nat → Int) (i : Nat) (st : FlatState)
    (nb x : Nat) :
    (absorb_step graph hash i st nb).scatter x = st.scatter x ∨
      ((absorb_step graph hash i st nb).scatter x = i ∧ (x = i ∨ x ∈ nbrs graph i)) := by
  by_cases h1 : nb > i ∧ hash nb = hash i ∧
      (graph i).nedges = (graph nb).nedges ∧ st.v2cv nb = 0
  · have hs : (absorb_step graph hash i st nb).scatter =
        (SameStructure i nb graph st.scatter).2 := by
      by_cases h2 : (SameStructure i nb graph st.scatter).1 = true
      · simp [absorb_step, h1, h2]
      · simp [absorb_step, h1, h2]
    rw [hs, SameStructure_scatter]
    by_cases hx : x = i ∨ x ∈ nbrs graph i
    · right; rw [if_pos hx]; exact ⟨rfl, hx⟩
    · left; rw [if_neg hx]
  · left
    simp [absorb_step, h1]

theorem absorb_loop_scatter (graph : Graph) (hash : Nat → Int) (i : Nat) (L : List Nat)
    (st : FlatState) (x : Nat) :
    (L.foldl (absorb_step graph hash i) st).scatter x = st.scatter x ∨
      ((L.foldl (absorb_step graph hash i) st).scatter x = i ∧ (x = i ∨ x ∈ nbrs graph i)) := by
  induction L generalizing st with
  | nil => exact Or.inl rfl
  | cons nb L ih =>
    rw [List.foldl_cons]
    rcases ih (absorb_step graph hash i st nb) with h | h
    · rcases absorb_step_scatter graph hash i st nb x with h1 | h1
      · left; rw [h, h1]
      · right; exact ⟨by rw [h]; exact h1.1, h1.2⟩
    · exact Or.inr h

theorem marks_step (graph : Graph) (reps : List Nat) (hash : Nat → Int) (n i : Nat)
    (st : FlatState) (L : List Nat) (c : Nat) (w : Nat → Nat) (hi : i ∈ reps)
    (h : MarksOK graph reps n i st.scatter) :
    MarksOK graph reps n (i + 1)
      (L.foldl (absorb_step graph hash i) { st with cnvtxs := c, v2cv := w }).scatter := by
  intro x hx1 hx2
  rcases absorb_loop_scatter graph hash i L { st with cnvtxs := c, v2cv := w } x with h1 | h1
  · have h1' : (L.foldl (absorb_step graph hash i)
        { st with cnvtxs := c, v2cv := w }).scatter x = st.scatter x := h1
    rw [h1']
    rcases h x hx1 hx2 with h2 | ⟨h2, h3, h4⟩
    · exact Or.inl h2
    · exact Or.inr ⟨h2, by omega, h4⟩
  · right
    rw [h1.1]
    exact ⟨hi, by omega, h1.2⟩

theorem state_at_marks (graph : Graph) (n : Nat) (v2cv : Nat → Nat) (m : Scratch) (i : Nat)
    (h1 : 1 ≤ i) (h2 : i ≤ n + 1) :
    MarksOK graph (representatives graph n v2cv m) n i (state_at graph n v2cv m i).scatter := by
  induction i, h1 using Nat.le_induction with
  | base =>
    intro x hx1 hx2
    left
    exact ((zero_loop_spec n v2cv m.scatter).2 x hx1 hx2).2
  | succ i hi ih =>
    have ih := ih (by omega)
    rw [state_at_succ graph n v2cv m i hi]
    by_cases h0 : (state_at graph n v2cv m i).v2cv i = 0
    · rw [group_step_of_zero graph _ _ i h0]
      exact marks_step graph _ _ n i _ _ _ _
        ((mem_representatives graph n v2cv m i).2 ⟨hi, by omega, h0⟩) ih
    · rw [group_step_of_ne_zero graph _ _ i h0]
      intro x hx1 hx2
      rcases ih x hx1 hx2 with h | ⟨ha, hb, hc⟩
      · exact Or.inl h
      · exact Or.inr ⟨ha, by omega, hc⟩

/-! ### The variant with a fresh `scatter` -/

theorem SameStructure_flag_zero (graph : Graph) (i nb : Nat) (hi : 1 ≤ i) :
    (SameStructure i nb graph (fun _ => 0)).1 = true ↔ Covered graph i nb := by
  apply SameStructure_flag
  intro x _ hx
  simp only at hx
  omega

theorem absorb_step_fresh_closed (graph : Graph) (hash : Nat → Int) (i nb : Nat)
    (st : FlatState) (hi : 1 ≤ i) :
    (absorb_step_fresh graph hash i st nb).cnvtxs = st.cnvtxs ∧
    ∀ k, (absorb_step_fresh graph hash i st nb).v2cv k =
      if k = nb ∧ Absorbs graph hash i k ∧ st.v2cv k = 0 then st.cnvtxs else st.v2cv k := by
  have hflag := SameStructure_flag_zero graph i nb hi
  by_cases h1 : nb > i ∧ hash nb = hash i ∧
      (graph i).nedges = (graph nb).nedges ∧ st.v2cv nb = 0
  · by_cases h2 : (SameStructure i nb graph (fun _ => 0)).1 = true
    · have hcov := hflag.1 h2
      have hv : (absorb_step_fresh graph hash i st nb).v2cv = store st.v2cv nb st.cnvtxs := by
        simp [absorb_step_fresh, h1, h2]
      have hc : (absorb_step_fresh graph hash i st nb).cnvtxs = st.cnvtxs := by
        simp [absorb_step_fresh, h1, h2]
      refine ⟨hc, fun k => ?_⟩
      rw [hv]
      by_cases hk : k = nb
      · subst hk
        have : Absorbs graph hash i k := ⟨h1.1, h1.2.1, h1.2.2.1, hcov⟩
        simp [this, h1.2.2.2]
      · simp [store_other _ _ hk, hk]
    · have hcov : ¬ Covered graph i nb := fun hc => h2 (hflag.2 hc)
      have hv : (absorb_step_fresh graph hash i st nb).v2cv = st.v2cv := by
        simp [absorb_step_fresh, h1, h2]
      have hc : (absorb_step_fresh graph hash i st nb).cnvtxs = st.cnvtxs := by
        simp [absorb_step_fresh, h1, h2]
      refine ⟨hc, fun k => ?_⟩
      rw [hv]
      by_cases hk : k = nb
      · subst hk
        have : ¬ Absorbs graph hash i k := fun ha => hcov ha.2.2.2
        simp [this]
      · simp [hk]
  · have hv : (absorb_step_fresh graph hash i st nb).v2cv = st.v2cv := by
      simp [absorb_step_fresh, h1]
    have hc : (absorb_step_fresh graph hash i st nb).cnvtxs = st.cnvtxs := by
      simp [absorb_step_fresh, h1]
    refine ⟨hc, fun k => ?_⟩
    rw [hv]
    by_cases hk : k = nb
    · subst hk
      have : ¬ (Absorbs graph hash i k ∧ st.v2cv k = 0) :=
        fun ha => h1 ⟨ha.1.1, ha.1.2.1, ha.1.2.2.1, ha.2⟩
      simp [this]
    · simp [hk]

theorem absorb_loop_fresh_closed (graph : Graph) (hash : Nat → Int) (i : Nat) (hi : 1 ≤ i)
    (L : List Nat) (st : FlatState) :
    (L.foldl (absorb_step_fresh graph hash i) st).cnvtxs = st.cnvtxs ∧
    ∀ k, (L.foldl (absorb_step_fresh graph hash i) st).v2cv k =
      if k ∈ L ∧ Absorbs graph hash i k ∧ st.v2cv k = 0 then st.cnvtxs else st.v2cv k := by
  induction L generalizing st with
  | nil => exact ⟨rfl, fun k => by simp⟩
  | cons nb L ih =>
    rw [List.foldl_cons]
    obtain ⟨c1, v1⟩ := absorb_step_fresh_closed graph hash i nb st hi
    obtain ⟨c2, v2⟩ := ih (absorb_step_fresh graph hash i st nb)
    refine ⟨c2.trans c1, fun k => ?_⟩
    rw [v2, v1, c1]
    by_cases hk : k = nb
    · subst hk
      by_cases ha : Absorbs graph hash i k ∧ st.v2cv k = 0
      · simp only [ha, and_self, true_and, if_true, List.mem_cons, true_or]
        split_ifs <;> rfl
      · have ha2 : ¬ (k = k ∧ Absorbs graph hash i k ∧ st.v2cv k = 0) := fun x => ha x.2
        have ha3 : ¬ (k ∈ k :: L ∧ Absorbs graph hash i k ∧ st.v2cv k = 0) := fun x => ha x.2
        have ha4 : ¬ (k ∈ L ∧ Absorbs graph hash i k ∧ st.v2cv k = 0) := fun x => ha x.2
        rw [if_neg ha2, if_neg ha3, if_neg ha4]
    · simp [hk]

theorem group_step_fresh_closed (graph : Graph) (hash : Nat → Int) (i : Nat) (st : FlatState)
    (hi : 1 ≤ i) (h0 : st.v2cv i = 0) :
    (group_step_fresh graph hash st i).cnvtxs = st.cnvtxs + 1 ∧
    ∀ k, (group_step_fresh graph hash st i).v2cv k =
      if k = i ∨ (k ∈ nbrs graph i ∧ Absorbs graph hash i k ∧ st.v2cv k = 0)
      then st.cnvtxs + 1 else st.v2cv k := by
  have hg : group_step_fresh graph hash st i =
      (nbrs graph i).foldl (absorb_step_fresh graph hash i)
        { st with cnvtxs := st.cnvtxs + 1, v2cv := store st.v2cv i (st.cnvtxs + 1) } := by
    simp [group_step_fresh, h0]
  rw [hg]
  obtain ⟨c, v⟩ := absorb_loop_fresh_closed graph hash i hi (nbrs graph i)
    { st with cnvtxs := st.cnvtxs + 1, v2cv := store st.v2cv i (st.cnvtxs + 1) }
  refine ⟨c, fun k => ?_⟩
  rw [v]
  simp only [store_apply]
  by_cases hk : k = i
  · subst hk
    simp
  · simp [hk]

theorem foldl_pair {σ τ β : Type} (f : σ → β → σ) (g : τ → β → τ) (L : List β) (a : σ) (b : τ) :
    L.foldl (fun (p : σ × τ) x => (f p.1 x, g p.2 x)) (a, b) = (L.foldl f a, L.foldl g b) := by
  induction L generalizing a b with
  | nil => rfl
  | cons x L ih => simp only [List.foldl_cons]; exact ih _ _

theorem find_flat_eq_fresh (graph : Graph) (n : Nat) (v2cv : Nat → Nat) (m : Scratch)
    (wf : WellFormed graph n) : find_flat graph n v2cv m = find_flat_fresh graph n v2cv m := by
  have key := foldl_range_inv
    (fun (p : FlatState × FlatState) i =>
      (group_step graph (hash_loop graph n m.hash) p.1 i,
        group_step_fresh graph (hash_loop graph n m.hash) p.2 i))
    (fun i p => (∀ x ∈ vertices n, p.1.scatter x < i) ∧ p.1.v2cv = p.2.v2cv ∧
      p.1.cnvtxs = p.2.cnvtxs) n 1
    (zero_loop n v2cv m.scatter, zero_loop n v2cv m.scatter)
    ⟨fun x hx => by
      obtain ⟨h1, h2⟩ := mem_vertices.1 hx
      rw [((zero_loop_spec n v2cv m.scatter).2 x h1 h2).2]; omega, rfl, rfl⟩
    (fun i p hi1 hi2 hp => by
      show (∀ x ∈ vertices n,
          (group_step graph (hash_loop graph n m.hash) p.1 i).scatter x < i + 1) ∧
        (group_step graph (hash_loop graph n m.hash) p.1 i).v2cv =
          (group_step_fresh graph (hash_loop graph n m.hash) p.2 i).v2cv ∧
        (group_step graph (hash_loop graph n m.hash) p.1 i).cnvtxs =
          (group_step_fresh graph (hash_loop graph n m.hash) p.2 i).cnvtxs
      obtain ⟨hm, hv, hc⟩ := hp
      have hi : i ∈ vertices n := mem_vertices.2 ⟨hi1, by omega⟩
      by_cases h0 : p.1.v2cv i = 0
      · obtain ⟨c1, s1, v1⟩ := group_step_closed graph (hash_loop graph n m.hash) n i p.1 wf hi
          h0 hm
        obtain ⟨c2, v2⟩ := group_step_fresh_closed graph (hash_loop graph n m.hash) i p.2 hi1
          (by rw [← hv]; exact h0)
        refine ⟨fun x hx => by have := (s1 x hx).1; omega, ?_, by rw [c1, c2, hc]⟩
        funext k
        rw [v1, v2, hv, hc]
      · have h0' : p.2.v2cv i ≠ 0 := by rw [← hv]; exact h0
        have e1 := group_step_of_ne_zero graph (hash_loop graph n m.hash) p.1 i h0
        have e2 : group_step_fresh graph (hash_loop graph n m.hash) p.2 i = p.2 := by
          simp [group_step_fresh, h0']
        simp only [e1, e2]
        exact ⟨fun x hx => by have := hm x hx; omega, hv, hc⟩)
  rw [foldl_pair] at key
  obtain ⟨_, hv, hc⟩ := key
  simp only at hv hc
  unfold find_flat find_flat_fresh
  simp only
  rw [hv, hc]

/-! ## C18 -/

/-- C18: on a graph with entries in `1..n`, at every call `SameStructure(i, j, graph,
scatter)` made by `find_flat`, each non-zero entry `scatter[x]`, `x` in `1..n`, is the number
`r ≤ i` of a representative with `x = r` or `x` an entry of `r`; the call returns the same
flag as on a zeroed `scatter`; and `find_flat` returns the same `(cnvtxs, v2cv)` as the
variant that hands every call a zeroed `scatter`. -/
theorem dirty_scatter_harmless (graph : Graph) (n : Nat) (v2cv : Nat → Nat) (m : Scratch)
    (wf : WellFormed graph n) :
    (∀ i j s, Event.call i j s ∈ find_flat_events graph n v2cv m →
      (∀ x, 1 ≤ x → x ≤ n → s x ≠ 0 →
        s x ∈ representatives graph n v2cv m ∧ s x ≤ i ∧
          (x = s x ∨ x ∈ nbrs graph (s x))) ∧
      (SameStructure i j graph s).1 = (SameStructure i j graph (fun _ => 0)).1) ∧
    find_flat graph n v2cv m = find_flat_fresh graph n v2cv m := by
  refine ⟨?_, find_flat_eq_fresh graph n v2cv m wf⟩
  intro i j s hcall
  obtain ⟨hi1, hi2, h0, L1, L2, hL, hs⟩ := call_mem_find_flat_events hcall
  have hmarks := state_at_marks graph n v2cv m i hi1 (by omega)
  have hirep := (mem_representatives graph n v2cv m i).2 ⟨hi1, hi2, h0⟩
  have hsx : ∀ x, s x = (state_at graph n v2cv m i).scatter x ∨
      (s x = i ∧ (x = i ∨ x ∈ nbrs graph i)) := by
    intro x
    rw [hs]
    exact absorb_loop_scatter graph _ i L1 _ x
  have part1 : ∀ x, 1 ≤ x → x ≤ n → s x ≠ 0 →
      s x ∈ representatives graph n v2cv m ∧ s x ≤ i ∧ (x = s x ∨ x ∈ nbrs graph (s x)) := by
    intro x hx1 hx2 hx0
    rcases hsx x with h | ⟨h, hc⟩
    · rcases hmarks x hx1 hx2 with hz | ⟨ha, hb, hc⟩
      · rw [h] at hx0; exact absurd hz hx0
      · rw [h]; exact ⟨ha, by omega, hc⟩
    · rw [h]; exact ⟨hirep, le_refl _, hc⟩
  refine ⟨part1, ?_⟩
  have hiv : i ∈ vertices n := mem_vertices.2 ⟨hi1, hi2⟩
  have hjv : j ∈ vertices n := wf i hiv j (by rw [hL]; simp)
  have hcov : (SameStructure i j graph s).1 = true ↔ Covered graph i j := by
    apply SameStructure_flag
    intro x hx hsxi
    have hxv : x ∈ vertices n := by
      rcases hx with rfl | hx
      · exact hjv
      · exact wf j hjv x hx
    obtain ⟨hx1, hx2⟩ := mem_vertices.1 hxv
    rcases hsx x with h | ⟨_, hc⟩
    · rcases hmarks x hx1 hx2 with hz | ⟨_, hb, _⟩
      · rw [h] at hsxi; omega
      · rw [h] at hsxi; omega
    · exact hc
  have hzero := SameStructure_flag_zero graph i j hi1
  by_cases hc : Covered graph i j
  · rw [hcov.2 hc, hzero.2 hc]
  · have h1 : (SameStructure i j graph s).1 = false := by
      rw [← Bool.not_eq_true]; exact fun h => hc (hcov.1 h)
    have h2 : (SameStructure i j graph (fun _ => 0)).1 = false := by
      rw [← Bool.not_eq_true]; exact fun h => hc (hzero.1 h)
    rw [h1, h2]

/-- C18 (witness): `stealGraph`, where `scatter` carries the marks of vertex 1 when
`SameStructure(1, 3)` is called after `SameStructure(1, 2)`. -/
theorem dirty_scatter_harmless_witness :
    WellFormed stealGraph 5 ∧
    ((∀ i j s, Event.call i j s ∈ find_flat_events stealGraph 5 (fun _ => 0) zeroScratch →
      (∀ x, 1 ≤ x → x ≤ 5 → s x ≠ 0 →
        s x ∈ representatives stealGraph 5 (fun _ => 0) zeroScratch ∧ s x ≤ i ∧
          (x = s x ∨ x ∈ nbrs stealGraph (s x))) ∧
      (SameStructure i j stealGraph s).1 = (SameStructure i j stealGraph (fun _ => 0)).1) ∧
    find_flat stealGraph 5 (fun _ => 0) zeroScratch =
      find_flat_fresh stealGraph 5 (fun _ => 0) zeroScratch) :=
  ⟨by decide, dirty_scatter_harmless stealGraph 5 (fun _ => 0) zeroScratch (by decide)⟩

/-! ### Rearranged neighbor lists -/

theorem length_eq_head_tail (l : List Nat) :
    l.length = (if l.head? = none then 0 else 1) + l.tail.length := by
  cases l with
  | nil => rfl
  | cons a l => simp; omega

theorem PermutedLists.same_nedges {g1 g2 : Graph} {n : Nat} (h : PermutedLists g1 g2 n) {i : Nat}
    (hi : i ∈ vertices n) : (g2 i).nedges = (g1 i).nedges := by
  obtain ⟨hh, hp⟩ := h i hi
  unfold vtx_data.nedges
  rw [length_eq_head_tail (g2 i).edges, length_eq_head_tail (g1 i).edges, hh]
  have := hp.length_eq
  unfold nbrs at this
  rw [this]

theorem PermutedLists.mem_iff {g1 g2 : Graph} {n : Nat} (h : PermutedLists g1 g2 n) {i : Nat}
    (hi : i ∈ vertices n) (x : Nat) : x ∈ nbrs g2 i ↔ x ∈ nbrs g1 i :=
  (h i hi).2.mem_iff

theorem PermutedLists.edges_ne_nil {g1 g2 : Graph} {n : Nat} (h : PermutedLists g1 g2 n)
    {i : Nat} (hi : i ∈ vertices n) : (g2 i).edges ≠ [] ↔ (g1 i).edges ≠ [] := by
  have := (h i hi).1
  constructor
  · intro h2 h1
    rw [h1] at this
    cases hE : (g2 i).edges with
    | nil => exact h2 hE
    | cons a l => rw [hE] at this; simp at this
  · intro h1 h2
    rw [h2] at this
    cases hE : (g1 i).edges with
    | nil => exact h1 hE
    | cons a l => rw [hE] at this; simp at this

theorem PermutedLists.wellFormed {g1 g2 : Graph} {n : Nat} (h : PermutedLists g1 g2 n)
    (wf : WellFormed g1 n) : WellFormed g2 n :=
  fun i hi e he => wf i hi e ((h.mem_iff hi e).1 he)

theorem PermutedLists.hash_vertex_eq {g1 g2 : Graph} {n : Nat} (h : PermutedLists g1 g2 n)
    {i : Nat} (hi : i ∈ vertices n) : hash_vertex g2 i = hash_vertex g1 i := by
  have hp := (h i hi).2
  by_cases h1 : nbrs g1 i = []
  · have h2 : nbrs g2 i = [] := by rw [h1] at hp; exact hp.eq_nil
    rw [hash_vertex_of_nil g1 i h1, hash_vertex_of_nil g2 i h2]
  · have h2 : nbrs g2 i ≠ [] := by
      intro h2; rw [h2] at hp; exact h1 hp.symm.eq_nil
    rw [hash_vertex_of_ne_nil g1 i h1, hash_vertex_of_ne_nil g2 i h2]
    have := (List.Perm.map (fun e : Nat => (e : Int)) hp).sum_eq
    unfold nbr_sum
    rw [this]

theorem PermutedLists.covered_iff {g1 g2 : Graph} {n : Nat} (h : PermutedLists g1 g2 n)
    {i k : Nat} (hi : i ∈ vertices n) (hk : k ∈ vertices n) :
    Covered g2 i k ↔ Covered g1 i k := by
  unfold Covered
  rw [h.edges_ne_nil hk]
  simp only [h.mem_iff hi, h.mem_iff hk]

theorem PermutedLists.absorbs_iff {g1 g2 : Graph} {n : Nat} (h : PermutedLists g1 g2 n)
    (hash1 hash2 : Nat → Int) (hh : ∀ x ∈ vertices n, hash2 x = hash1 x)
    {i k : Nat} (hi : i ∈ vertices n) (hk : k ∈ vertices n) :
    Absorbs g2 hash2 i k ↔ Absorbs g1 hash1 i k := by
  unfold Absorbs
  rw [hh i hi, hh k hk, h.same_nedges hi, h.same_nedges hk, h.covered_iff hi hk]

theorem find_flat_permuted (g1 g2 : Graph) (n : Nat) (v2cv : Nat → Nat) (m : Scratch)
    (wf : WellFormed g1 n) (h : PermutedLists g1 g2 n) :
    find_flat g2 n v2cv m = find_flat g1 n v2cv m := by
  have wf2 := h.wellFormed wf
  have hh : ∀ x ∈ vertices n, hash_loop g2 n m.hash x = hash_loop g1 n m.hash x := by
    intro x hx
    obtain ⟨h1, h2⟩ := mem_vertices.1 hx
    rw [hash_loop_apply g2 n m.hash x h1 h2, hash_loop_apply g1 n m.hash x h1 h2,
      h.hash_vertex_eq hx]
  have key := foldl_range_inv
    (fun (p : FlatState × FlatState) i =>
      (group_step g1 (hash_loop g1 n m.hash) p.1 i,
        group_step g2 (hash_loop g2 n m.hash) p.2 i))
    (fun i p => (∀ x ∈ vertices n, p.1.scatter x < i) ∧ (∀ x ∈ vertices n, p.2.scatter x < i) ∧
      p.1.v2cv = p.2.v2cv ∧ p.1.cnvtxs = p.2.cnvtxs) n 1
    (zero_loop n v2cv m.scatter, zero_loop n v2cv m.scatter)
    ⟨fun x hx => by
      obtain ⟨h1, h2⟩ := mem_vertices.1 hx
      rw [((zero_loop_spec n v2cv m.scatter).2 x h1 h2).2]; omega,
     fun x hx => by
      obtain ⟨h1, h2⟩ := mem_vertices.1 hx
      rw [((zero_loop_spec n v2cv m.scatter).2 x h1 h2).2]; omega, rfl, rfl⟩
    (fun i p hi1 hi2 hp => by
      show (∀ x ∈ vertices n,
          (group_step g1 (hash_loop g1 n m.hash) p.1 i).scatter x < i + 1) ∧
        (∀ x ∈ vertices n,
          (group_step g2 (hash_loop g2 n m.hash) p.2 i).scatter x < i + 1) ∧
        (group_step g1 (hash_loop g1 n m.hash) p.1 i).v2cv =
          (group_step g2 (hash_loop g2 n m.hash) p.2 i).v2cv ∧
        (group_step g1 (hash_loop g1 n m.hash) p.1 i).cnvtxs =
          (group_step g2 (hash_loop g2 n m.hash) p.2 i).cnvtxs
      obtain ⟨hm1, hm2, hv, hc⟩ := hp
      have hi : i ∈ vertices n := mem_vertices.2 ⟨hi1, by omega⟩
      by_cases h0 : p.1.v2cv i = 0
      · have h0' : p.2.v2cv i = 0 := by rw [← hv]; exact h0
        obtain ⟨c1, s1, v1⟩ := group_step_closed g1 (hash_loop g1 n m.hash) n i p.1 wf hi h0 hm1
        obtain ⟨c2, s2, v2⟩ := group_step_closed g2 (hash_loop g2 n m.hash) n i p.2 wf2 hi h0'
          hm2
        refine ⟨fun x hx => by have := (s1 x hx).1; omega,
          fun x hx => by have := (s2 x hx).1; omega, ?_, by rw [c1, c2, hc]⟩
        funext k
        rw [v1, v2, hv, hc]
        have hiff : (k = i ∨ (k ∈ nbrs g1 i ∧ Absorbs g1 (hash_loop g1 n m.hash) i k ∧
              p.2.v2cv k = 0)) ↔
            (k = i ∨ (k ∈ nbrs g2 i ∧ Absorbs g2 (hash_loop g2 n m.hash) i k ∧
              p.2.v2cv k = 0)) := by
          constructor
          · rintro (hk | ⟨ha, hb, hc⟩)
            · exact Or.inl hk
            · exact Or.inr ⟨(h.mem_iff hi k).2 ha,
                (h.absorbs_iff _ _ hh hi (wf i hi k ha)).2 hb, hc⟩
          · rintro (hk | ⟨ha, hb, hc⟩)
            · exact Or.inl hk
            · have ha' := (h.mem_iff hi k).1 ha
              exact Or.inr ⟨ha', (h.absorbs_iff _ _ hh hi (wf i hi k ha')).1 hb, hc⟩
        by_cases hcnd : k = i ∨ (k ∈ nbrs g1 i ∧ Absorbs g1 (hash_loop g1 n m.hash) i k ∧
            p.2.v2cv k = 0)
        · rw [if_pos hcnd, if_pos (hiff.1 hcnd)]
        · rw [if_neg hcnd, if_neg (fun x => hcnd (hiff.2 x))]
      · have h0' : p.2.v2cv i ≠ 0 := by rw [← hv]; exact h0
        rw [group_step_of_ne_zero g1 _ p.1 i h0, group_step_of_ne_zero g2 _ p.2 i h0']
        exact ⟨fun x hx => by have := hm1 x hx; omega,
          fun x hx => by have := hm2 x hx; omega, hv, hc⟩)
  rw [foldl_pair] at key
  obtain ⟨_, _, hv, hc⟩ := key
  simp only at hv hc
  unfold find_flat
  simp only
  rw [hv, hc]

/-! ## C19 -/

/-- C19: for a graph with entries in `1..n` (duplicates allowed) and a graph obtained from
it by rearranging, for each vertex, the entries `edges[1..nedges-1]`, `find_flat` returns
the same `cnvtxs` and the same `v2cv`, and `flatten` returns the same flag. -/
theorem neighbor_order_irrelevant {Coords : Type}
    (mk : MakefCall Coords → World Coords → World Coords) (w : World Coords) (graph2 : Graph)
    (nvtxs : Nat) (nedges using_ewgts igeom : Int) (coords : Coords) (v2cv : Nat → Nat)
    (m : Scratch) (wf : WellFormed w.graph nvtxs) (hperm : PermutedLists w.graph graph2 nvtxs) :
    find_flat graph2 nvtxs v2cv m = find_flat w.graph nvtxs v2cv m ∧
    (flatten mk { w with graph := graph2 } nvtxs nedges using_ewgts igeom coords v2cv m).ret =
      (flatten mk w nvtxs nedges using_ewgts igeom coords v2cv m).ret := by
  have h := find_flat_permuted w.graph graph2 nvtxs v2cv m wf hperm
  refine ⟨h, ?_⟩
  rw [flatten_ret, flatten_ret]
  simp only
  rw [h]

/-- C19 (witness): `cliqueGraph` and the same graph with every neighbor list reversed. -/
theorem neighbor_order_irrelevant_witness :
    WellFormed (worldOf cliqueGraph).graph 6 ∧
    PermutedLists (worldOf cliqueGraph).graph cliqueGraphRev 6 ∧
    (find_flat cliqueGraphRev 6 (fun _ => 0) zeroScratch =
      find_flat (worldOf cliqueGraph).graph 6 (fun _ => 0) zeroScratch ∧
    (flatten (fun _ w => w) { worldOf cliqueGraph with graph := cliqueGraphRev } 6 13 0 0 ()
        (fun _ => 0) zeroScratch).ret =
      (flatten (fun _ w => w) (worldOf cliqueGraph) 6 13 0 0 () (fun _ => 0) zeroScratch).ret) :=
  ⟨by decide, by decide,
    neighbor_order_irrelevant (fun _ w => w) (worldOf cliqueGraph) cliqueGraphRev 6 13 0 0 ()
      (fun _ => 0) zeroScratch (by decide) (by decide)⟩

/-! ### Index safety -/

theorem nbrs_index (graph : Graph) (k : Nat) :
    (nbrs graph k).length + 1 ≤ (graph k).nedges ∨ nbrs graph k = [] := by
  unfold nbrs vtx_data.nedges
  cases (graph k).edges with
  | nil => right; rfl
  | cons a l => left; simp

theorem mark_events_inBounds (graph : Graph) (n node1 : Nat) (h1 : node1 ∈ vertices n) :
    ∀ (L : List Nat) (i : Nat), (∀ e ∈ L, e ∈ vertices n) →
      (L.length + i ≤ (graph node1).nedges ∨ L = []) →
      ∀ ev ∈ mark_events node1 L i, InBounds graph n ev := by
  have hv := mem_vertices.1 h1
  intro L
  induction L with
  | nil =>
    intro i _ _ ev hev
    simp only [mark_events, List.mem_singleton] at hev
    subst hev
    exact hv
  | cons e es ih =>
    intro i hL hidx ev hev
    have hlen : (e :: es).length + i ≤ (graph node1).nedges := by
      rcases hidx with h | h
      · exact h
      · simp at h
    simp only [List.length_cons] at hlen
    have he := mem_vertices.1 (hL e (List.mem_cons_self _ _))
    rw [mark_events] at hev
    rcases List.mem_append.1 hev with h | h
    · simp only [List.mem_cons, List.mem_singleton, List.not_mem_nil, or_false] at h
      rcases h with rfl | rfl | rfl | rfl
      · exact hv
      · exact hv
      · exact ⟨hv.1, hv.2, by omega⟩
      · exact he
    · exact ih (i + 1) (fun x hx => hL x (List.mem_cons_of_mem _ hx)) (Or.inl (by omega)) ev h

theorem scan_events_inBounds (graph : Graph) (n node1 node2 : Nat) (s : Nat → Nat)
    (h2 : node2 ∈ vertices n) :
    ∀ (L : List Nat) (i : Nat), (∀ e ∈ L, e ∈ vertices n) →
      (L.length + i ≤ (graph node2).nedges ∨ L = []) →
      ∀ ev ∈ scan_events node1 node2 s L i, InBounds graph n ev := by
  have hv := mem_vertices.1 h2
  intro L
  induction L with
  | nil =>
    intro i _ _ ev hev
    simp only [scan_events, List.mem_singleton] at hev
    subst hev
    exact hv
  | cons e es ih =>
    intro i hL hidx ev hev
    have hlen : (e :: es).length + i ≤ (graph node2).nedges := by
      rcases hidx with h | h
      · exact h
      · simp at h
    simp only [List.length_cons] at hlen
    have he := mem_vertices.1 (hL e (List.mem_cons_self _ _))
    rw [scan_events] at hev
    rcases List.mem_append.1 hev with h | h
    · simp only [List.mem_cons, List.mem_singleton, List.not_mem_nil, or_false] at h
      rcases h with rfl | rfl | rfl | rfl
      · exact hv
      · exact hv
      · exact ⟨hv.1, hv.2, by omega⟩
      · exact he
    · split_ifs at h
      · simp at h
      · exact ih (i + 1) (fun x hx => hL x (List.mem_cons_of_mem _ hx)) (Or.inl (by omega))
          ev h

theorem SameStructure_events_inBounds (graph : Graph) (n A B : Nat) (s : Nat → Nat)
    (wf : WellFormed graph n) (hA : A ∈ vertices n) (hB : B ∈ vertices n) :
    ∀ ev ∈ SameStructure_events A B graph s, InBounds graph n ev := by
  intro ev hev
  unfold SameStructure_events at hev
  simp only [List.mem_append] at hev
  rcases hev with (((h | h) | h) | h) | h
  · simp only [List.mem_singleton] at h
    subst h
    exact mem_vertices.1 hA
  · exact mark_events_inBounds graph n A hA _ 1 (wf A hA) (nbrs_index graph A) ev h
  · exact scan_events_inBounds graph n A B _ hB _ 1 (wf B hB) (nbrs_index graph B) ev h
  · simp only [List.mem_singleton] at h
    subst h
    exact mem_vertices.1 hB
  · split_ifs at h
    · simp only [List.mem_singleton] at h
      subst h
      exact mem_vertices.1 hB
    · simp at h

theorem absorb_step_events_inBounds (graph : Graph) (hash : Nat → Int) (n i : Nat)
    (st : FlatState) (j nb : Nat) (wf : WellFormed graph n) (hi : i ∈ vertices n)
    (hnb : nb ∈ vertices n) (hj : j < (graph i).nedges) :
    ∀ ev ∈ absorb_step_events graph hash i st j nb, InBounds graph n ev := by
  have hiv := mem_vertices.1 hi
  have hnv := mem_vertices.1 hnb
  have hss := SameStructure_events_inBounds graph n i nb st.scatter wf hi hnb
  unfold absorb_step_events
  split_ifs <;>
    simp only [List.forall_mem_append, List.forall_mem_cons, List.forall_mem_singleton,
      List.not_mem_nil, false_implies, implies_true, InBounds, and_true] <;>
    and_intros <;> first | exact hss | omega | trivial

theorem absorb_loop_events_inBounds (graph : Graph) (hash : Nat → Int) (n i : Nat)
    (wf : WellFormed graph n) (hi : i ∈ vertices n) :
    ∀ (L : List Nat) (j : Nat) (st : FlatState), (∀ e ∈ L, e ∈ vertices n) →
      (L.length + j ≤ (graph i).nedges ∨ L = []) →
      ∀ ev ∈ absorb_loop_events graph hash i L j st, InBounds graph n ev := by
  have hiv := mem_vertices.1 hi
  intro L
  induction L with
  | nil =>
    intro j st _ _ ev hev
    simp only [absorb_loop_events, List.mem_singleton] at hev
    subst hev
    exact hiv
  | cons nb L ih =>
    intro j st hL hidx ev hev
    have hlen : (nb :: L).length + j ≤ (graph i).nedges := by
      rcases hidx with h | h
      · exact h
      · simp at h
    simp only [List.length_cons] at hlen
    rw [absorb_loop_events] at hev
    rcases List.mem_append.1 hev with h | h
    · exact absorb_step_events_inBounds graph hash n i st j nb wf hi
        (hL nb (List.mem_cons_self _ _)) (by omega) ev h
    · exact ih (j + 1) _ (fun x hx => hL x (List.mem_cons_of_mem _ hx)) (Or.inl (by omega))
        ev h

theorem group_step_events_inBounds (graph : Graph) (hash : Nat → Int) (n i : Nat)
    (st : FlatState) (wf : WellFormed graph n) (hi : i ∈ vertices n) :
    ∀ ev ∈ group_step_events graph hash st i, InBounds graph n ev := by
  have hiv := mem_vertices.1 hi
  intro ev hev
  unfold group_step_events at hev
  rcases List.mem_append.1 hev with h | h
  · simp only [List.mem_cons, List.mem_singleton, List.not_mem_nil, or_false] at h
    rcases h with rfl | rfl
    · trivial
    · exact hiv
  · split_ifs at h
    · rcases List.mem_append.1 h with h | h
      · simp only [List.mem_singleton] at h
        subst h
        exact hiv
      · exact absorb_loop_events_inBounds graph hash n i wf hi _ 1 _ (wf i hi)
          (nbrs_index graph i) ev h
    · simp at h

theorem hash_sum_events_inBounds (graph : Graph) (n i : Nat) (hi : i ∈ vertices n) :
    ∀ (L : List Nat) (j : Nat), (L.length + j ≤ (graph i).nedges ∨ L = []) →
      ∀ ev ∈ hash_sum_events i L j, InBounds graph n ev := by
  have hiv := mem_vertices.1 hi
  intro L
  induction L with
  | nil =>
    intro j _ ev hev
    simp only [hash_sum_events, List.mem_singleton] at hev
    subst hev
    exact hiv
  | cons e es ih =>
    intro j hidx ev hev
    have hlen : (e :: es).length + j ≤ (graph i).nedges := by
      rcases hidx with h | h
      · exact h
      · simp at h
    simp only [List.length_cons] at hlen
    rw [hash_sum_events] at hev
    rcases List.mem_append.1 hev with h | h
    · simp only [List.mem_cons, List.mem_singleton, List.not_mem_nil, or_false] at h
      rcases h with rfl | rfl | rfl
      · exact hiv
      · exact hiv
      · exact ⟨hiv.1, hiv.2, by omega⟩
    · exact ih (j + 1) (Or.inl (by omega)) ev h

theorem find_flat_events_inBounds (graph : Graph) (n : Nat) (v2cv : Nat → Nat) (m : Scratch)
    (wf : WellFormed graph n) :
    ∀ ev ∈ find_flat_events graph n v2cv m, InBounds graph n ev := by
  intro ev hev
  unfold find_flat_events at hev
  rw [List.mem_append, List.mem_append] at hev
  rcases hev with (h | h) | h
  · unfold hash_events at h
    obtain ⟨L1, i, L2, hL, he⟩ := (mem_trace_loop _ _ _ _ _).1 h
    obtain ⟨hi1, hi2, _, _⟩ := range_split hL
    have hi : i ∈ vertices n := mem_vertices.2 ⟨hi1, hi2⟩
    simp only [List.mem_append, List.mem_singleton] at he
    rcases he with (rfl | he) | rfl
    · trivial
    · exact hash_sum_events_inBounds graph n i hi _ 1 (nbrs_index graph i) ev he
    · exact ⟨hi1, hi2⟩
  · unfold zero_events at h
    obtain ⟨L1, i, L2, hL, he⟩ := (mem_trace_loop _ _ _ _ _).1 h
    obtain ⟨hi1, hi2, _, _⟩ := range_split hL
    simp only [List.mem_cons, List.mem_singleton, List.not_mem_nil, or_false] at he
    rcases he with rfl | rfl | rfl
    · trivial
    · exact ⟨hi1, hi2⟩
    · exact ⟨hi1, hi2⟩
  · unfold group_events at h
    obtain ⟨L1, i, L2, hL, he⟩ := (mem_trace_loop _ _ _ _ _).1 h
    obtain ⟨hi1, hi2, _, _⟩ := range_split hL
    exact group_step_events_inBounds graph _ n i _ wf (mem_vertices.2 ⟨hi1, hi2⟩) ev he

/-! ### Iterations of the outer loops -/

theorem loop_visits_append (a b : List Event) :
    loop_visits (a ++ b) = loop_visits a ++ loop_visits b := by
  unfold loop_visits
  rw [List.filterMap_append]

theorem loop_visits_mark_events (node1 : Nat) (L : List Nat) (i : Nat) :
    loop_visits (mark_events node1 L i) = [] := by
  induction L generalizing i with
  | nil => rfl
  | cons e es ih =>
    rw [mark_events, loop_visits_append, ih]
    rfl

theorem loop_visits_scan_events (node1 node2 : Nat) (s : Nat → Nat) (L : List Nat) (i : Nat) :
    loop_visits (scan_events node1 node2 s L i) = [] := by
  induction L generalizing i with
  | nil => rfl
  | cons e es ih =>
    rw [scan_events, loop_visits_append]
    split_ifs
    · rfl
    · rw [ih]; rfl

theorem loop_visits_SameStructure_events (node1 node2 : Nat) (graph : Graph) (s : Nat → Nat) :
    loop_visits (SameStructure_events node1 node2 graph s) = [] := by
  unfold SameStructure_events
  simp only [loop_visits_append, loop_visits_mark_events, loop_visits_scan_events]
  split_ifs <;> rfl

theorem loop_visits_absorb_step_events (graph : Graph) (hash : Nat → Int) (i : Nat)
    (st : FlatState) (j nb : Nat) :
    loop_visits (absorb_step_events graph hash i st j nb) = [] := by
  unfold absorb_step_events
  split_ifs <;>
    simp only [loop_visits_append, loop_visits_SameStructure_events] <;> rfl

theorem loop_visits_absorb_loop_events (graph : Graph) (hash : Nat → Int) (i : Nat)
    (L : List Nat) : ∀ (j : Nat) (st : FlatState),
      loop_visits (absorb_loop_events graph hash i L j st) = [] := by
  induction L with
  | nil => intro j st; rfl
  | cons nb L ih =>
    intro j st
    rw [absorb_loop_events, loop_visits_append, loop_visits_absorb_step_events, ih]
    rfl

theorem loop_visits_group_step_events (graph : Graph) (hash : Nat → Int) (st : FlatState)
    (i : Nat) : loop_visits (group_step_events graph hash st i) = [(3, i)] := by
  unfold group_step_events
  split_ifs <;>
    simp only [loop_visits_append, loop_visits_absorb_loop_events] <;> rfl

theorem loop_visits_hash_sum_events (i : Nat) (L : List Nat) (j : Nat) :
    loop_visits (hash_sum_events i L j) = [] := by
  induction L generalizing j with
  | nil => rfl
  | cons e es ih =>
    rw [hash_sum_events, loop_visits_append, ih]
    rfl

theorem loop_visits_trace_loop {σ : Type} (f : σ → Nat → σ) (g : σ → Nat → List Event)
    (c : Nat) (h : ∀ s i, loop_visits (g s i) = [(c, i)]) :
    ∀ (L : List Nat) (s : σ), loop_visits (trace_loop f g L s) = L.map (fun i => (c, i)) := by
  intro L
  induction L with
  | nil => intro s; rfl
  | cons i L ih =>
    intro s
    rw [trace_loop, loop_visits_append, h, ih]
    rfl

theorem loop_visits_find_flat_events (graph : Graph) (n : Nat) (v2cv : Nat → Nat)
    (m : Scratch) :
    loop_visits (find_flat_events graph n v2cv m) =
      (List.range' 1 n).map (fun i => (1, i)) ++ (List.range' 1 n).map (fun i => (2, i)) ++
        (List.range' 1 n).map (fun i => (3, i)) := by
  have h1 : loop_visits (hash_events graph n) = (List.range' 1 n).map (fun i => (1, i)) := by
    unfold hash_events
    apply loop_visits_trace_loop
    intro _ i
    simp only [loop_visits_append, loop_visits_hash_sum_events]
    rfl
  have h2 : loop_visits (zero_events n) = (List.range' 1 n).map (fun i => (2, i)) := by
    unfold zero_events
    apply loop_visits_trace_loop
    intro _ i
    rfl
  have h3 : loop_visits (group_events graph n v2cv m) =
      (List.range' 1 n).map (fun i => (3, i)) := by
    unfold group_events
    apply loop_visits_trace_loop
    intro s i
    exact loop_visits_group_step_events graph _ s i
  unfold find_flat_events
  rw [loop_visits_append, loop_visits_append, h1, h2, h3]

/-! ## C20 -/

/-- C20: if every entry `edges[1..nedges-1]` of every vertex `1..n` lies in `1..n`, then
every subscript that `find_flat`, and `SameStructure` called by it or on two vertices of
`1..n`, applies to `hash`, `scatter`, `v2cv` and `graph` lies in `1..n` (index 0 is never
used), every subscript of `edges` of a vertex is below its `nedges`, and each of the three
outer loops of `find_flat` runs through the vertices `1, ..., n` once, in order. -/
theorem index_safety (graph : Graph) (n : Nat) (v2cv : Nat → Nat) (m : Scratch)
    (wf : WellFormed graph n) :
    (∀ ev ∈ find_flat_events graph n v2cv m, InBounds graph n ev) ∧
    (∀ A B s, 1 ≤ A → A ≤ n → 1 ≤ B → B ≤ n →
      ∀ ev ∈ SameStructure_events A B graph s, InBounds graph n ev) ∧
    loop_visits (find_flat_events graph n v2cv m) =
      (List.range' 1 n).map (fun i => (1, i)) ++ (List.range' 1 n).map (fun i => (2, i)) ++
        (List.range' 1 n).map (fun i => (3, i)) :=
  ⟨find_flat_events_inBounds graph n v2cv m wf,
    fun A B s hA1 hA2 hB1 hB2 => SameStructure_events_inBounds graph n A B s wf
      (mem_vertices.2 ⟨hA1, hA2⟩) (mem_vertices.2 ⟨hB1, hB2⟩),
    loop_visits_find_flat_events graph n v2cv m⟩

/-- C20 (witness): the multigraph `stealGraph`. -/
theorem index_safety_witness :
    WellFormed stealGraph 5 ∧
    ((∀ ev ∈ find_flat_events stealGraph 5 (fun _ => 0) zeroScratch, InBounds stealGraph 5 ev) ∧
    (∀ A B s, 1 ≤ A → A ≤ 5 → 1 ≤ B → B ≤ 5 →
      ∀ ev ∈ SameStructure_events A B stealGraph s, InBounds stealGraph 5 ev) ∧
    loop_visits (find_flat_events stealGraph 5 (fun _ => 0) zeroScratch) =
      (List.range' 1 5).map (fun i => (1, i)) ++ (List.range' 1 5).map (fun i => (2, i)) ++
        (List.range' 1 5).map (fun i => (3, i))) :=
  ⟨by decide, index_safety stealGraph 5 (fun _ => 0) zeroScratch (by decide)⟩

/-! ### Exactness without the self-entry restriction -/

theorem wrap32_eq_imp (a b : Int) (h : wrap32 a = wrap32 b) : (a - b) % 4294967296 = 0 := by
  unfold wrap32 at h; omega

/-- On a well-formed graph with an `int` number of vertices, a vertex `B` with a
duplicate-free list that passes all tests against a vertex `A` has the closed neighborhood
of `A`. -/
theorem covered_closed_eq {graph : Graph} {n A B : Nat} (hn : n < 2 ^ 31)
    (hA : A ∈ vertices n) (hB : B ∈ vertices n) (hAe : ∀ e ∈ nbrs graph A, e ∈ vertices n)
    (hne : A ≠ B) (hnd : (nbrs graph B).Nodup)
    (hdeg : (graph A).nedges = (graph B).nedges) (hc : Covered graph A B)
    (hh : hash_vertex graph A = hash_vertex graph B) :
    insert B (nbrs graph B).toFinset = insert A (nbrs graph A).toFinset := by
  obtain ⟨hBne, hsubl, hmem⟩ := hc
  have hBA : B ∈ nbrs graph A := by
    rcases hmem with h | h
    · exact absurd h.symm hne
    · exact h
  have hAnn : nbrs graph A ≠ [] := List.ne_nil_of_mem hBA
  have hlen : (nbrs graph A).length = (nbrs graph B).length := by
    have h1 := nedges_eq_succ graph A hAnn
    have h2 : (graph B).nedges = (nbrs graph B).length + 1 := by
      unfold vtx_data.nedges
      have : (nbrs graph B).length = (graph B).edges.length - 1 := by simp [nbrs]
      have := List.length_pos.2 hBne
      omega
    omega
  have hBnn : nbrs graph B ≠ [] := by
    intro h
    rw [h] at hlen
    exact hAnn (List.eq_nil_of_length_eq_zero hlen)
  have hsub : (nbrs graph B).toFinset ⊆ insert A (nbrs graph A).toFinset := by
    intro e he
    rw [List.mem_toFinset] at he
    rw [Finset.mem_insert, List.mem_toFinset]
    exact hsubl e he
  have hBC : B ∈ insert A (nbrs graph A).toFinset := by
    rw [Finset.mem_insert, List.mem_toFinset]; exact Or.inr hBA
  have hcardSB : (nbrs graph B).toFinset.card = (nbrs graph B).length :=
    List.toFinset_card_of_nodup hnd
  have hcardT : (nbrs graph A).toFinset.card ≤ (nbrs graph A).length :=
    List.toFinset_card_le _
  have hcardC : (insert A (nbrs graph A).toFinset).card ≤ (nbrs graph A).toFinset.card + 1 :=
    Finset.card_insert_le _ _
  apply Finset.eq_of_subset_of_card_le (Finset.insert_subset hBC hsub)
  by_cases hBB : B ∈ (nbrs graph B).toFinset
  · rw [Finset.insert_eq_of_mem hBB, hcardSB]
    by_contra hgt
    -- the closed neighborhood of `A` has exactly one vertex more than the list of `B`
    have hC : (insert A (nbrs graph A).toFinset).card = (nbrs graph B).length + 1 := by omega
    have hAT : A ∉ (nbrs graph A).toFinset := by
      intro h
      rw [Finset.insert_eq_of_mem h] at hC
      omega
    have hT : (nbrs graph A).toFinset.card = (nbrs graph A).length := by
      rw [Finset.card_insert_of_not_mem hAT] at hC
      omega
    have hndA : (nbrs graph A).Nodup := by
      have := Multiset.toFinset_card_eq_card_iff_nodup.1
        (show (Multiset.toFinset (↑(nbrs graph A) : Multiset Nat)).card =
          Multiset.card (↑(nbrs graph A) : Multiset Nat) from hT)
      exact Multiset.coe_nodup.1 this
    have hsd : (insert A (nbrs graph A).toFinset \ (nbrs graph B).toFinset).card = 1 := by
      rw [Finset.card_sdiff hsub, hC, hcardSB]
      omega
    obtain ⟨x, hx⟩ := Finset.card_eq_one.1 hsd
    have hxm : x ∈ insert A (nbrs graph A).toFinset \ (nbrs graph B).toFinset := by
      rw [hx]; exact Finset.mem_singleton_self x
    rw [Finset.mem_sdiff, Finset.mem_insert, List.mem_toFinset] at hxm
    have hxv : x ∈ vertices n := by
      rcases hxm.1 with h | h
      · rw [h]; exact hA
      · exact hAe x h
    have hxB : x ≠ B := fun h => hxm.2 (h ▸ hBB)
    have hsum := Finset.sum_sdiff (f := fun e : Nat => e) hsub
    rw [hx, Finset.sum_singleton, Finset.sum_insert hAT] at hsum
    have hsA : ((nbrs graph A).toFinset.sum fun e : Nat => e) = (nbrs graph A).sum := by
      rw [List.sum_toFinset _ hndA]; simp
    have hsB : ((nbrs graph B).toFinset.sum fun e : Nat => e) = (nbrs graph B).sum := by
      rw [List.sum_toFinset _ hnd]; simp
    rw [hsA, hsB] at hsum
    rw [hash_vertex_of_ne_nil graph A hAnn, hash_vertex_of_ne_nil graph B hBnn,
      nbr_sum_eq_cast, nbr_sum_eq_cast] at hh
    have hmod := wrap32_eq_imp _ _ hh
    have hx1 := mem_vertices.1 hxv
    have hB1 := mem_vertices.1 hB
    have hn' : n < 2147483648 := by
      have : (2 : Nat) ^ 31 = 2147483648 := by norm_num
      omega
    apply hxB
    omega
  · rw [Finset.card_insert_of_not_mem hBB, hcardSB]
    omega

theorem pair_of_closed_eq {graph : Graph} {i j : Nat} (hij : i ≠ j)
    (h : insert i (nbrs graph i).toFinset = insert j (nbrs graph j).toFinset) :
    j ∈ nbrs graph i ∧ i ∈ nbrs graph j ∧
      (nbrs graph i).toFinset \ {i, j} = (nbrs graph j).toFinset \ {i, j} := by
  have hmem : ∀ x, (x = i ∨ x ∈ nbrs graph i) ↔ (x = j ∨ x ∈ nbrs graph j) := by
    intro x
    have := Finset.ext_iff.1 h x
    simpa only [Finset.mem_insert, List.mem_toFinset] using this
  refine ⟨?_, ?_, ?_⟩
  · rcases (hmem j).2 (Or.inl rfl) with h1 | h1
    · exact absurd h1.symm hij
    · exact h1
  · rcases (hmem i).1 (Or.inl rfl) with h1 | h1
    · exact absurd h1 hij
    · exact h1
  · ext x
    simp only [Finset.mem_sdiff, List.mem_toFinset, Finset.mem_insert, Finset.mem_singleton]
    have := hmem x
    constructor
    · rintro ⟨ha, hb⟩
      push_neg at hb
      exact ⟨by tauto, by tauto⟩
    · rintro ⟨ha, hb⟩
      push_neg at hb
      exact ⟨by tauto, by tauto⟩

theorem group_step_abs (graph : Graph) (hash : Nat → Int) (n i : Nat) (st : FlatState)
    (wf : WellFormed graph n) (h1 : 1 ≤ i) (h2 : i ≤ n) (inv : BasicInv n i st)
    (marks : ∀ x ∈ vertices n, st.scatter x < i) (rel : AbsRel graph hash n st) :
    (∀ x ∈ vertices n, (group_step graph hash st i).scatter x < i + 1) ∧
      AbsRel graph hash n (group_step graph hash st i) := by
  have hiv : i ∈ vertices n := mem_vertices.2 ⟨h1, h2⟩
  by_cases h0 : st.v2cv i = 0
  · obtain ⟨_, hs, hv⟩ := group_step_closed graph hash n i st wf hiv h0 marks
    refine ⟨fun x hx => by have := (hs x hx).1; omega, ?_⟩
    have key : ∀ k, (st.v2cv k ≠ 0 ∧ (group_step graph hash st i).v2cv k = st.v2cv k) ∨
        (st.v2cv k = 0 ∧ (group_step graph hash st i).v2cv k = 0) ∨
        (st.v2cv k = 0 ∧ (group_step graph hash st i).v2cv k = st.cnvtxs + 1 ∧
          (k = i ∨ (k ∈ nbrs graph i ∧ Absorbs graph hash i k))) := by
      intro k
      rw [hv k]
      by_cases hc : k = i ∨ (k ∈ nbrs graph i ∧ Absorbs graph hash i k ∧ st.v2cv k = 0)
      · rw [if_pos hc]
        right; right
        rcases hc with hk | ⟨ha, hb, hz⟩
        · exact ⟨hk ▸ h0, rfl, Or.inl hk⟩
        · exact ⟨hz, rfl, Or.inr ⟨ha, hb⟩⟩
      · rw [if_neg hc]
        by_cases hz : st.v2cv k = 0
        · exact Or.inr (Or.inl ⟨hz, hz⟩)
        · exact Or.inl ⟨hz, rfl⟩
    intro j hj1 hj2 hj0
    rcases key j with ⟨hjn, hjs⟩ | ⟨_, hjz⟩ | ⟨hjz, hjc, hjg⟩
    · obtain ⟨r, hr1, hr2, hr3, hr4, hr5⟩ := rel j hj1 hj2 hjn
      have hrn : st.v2cv r ≠ 0 := by rw [hr3]; exact hjn
      have hrs : (group_step graph hash st i).v2cv r = st.v2cv r := by
        rcases key r with ⟨_, h⟩ | ⟨h, _⟩ | ⟨h, _⟩
        · exact h
        · exact absurd h hrn
        · exact absurd h hrn
      refine ⟨r, hr1, hr2, by rw [hrs, hjs, hr3], ?_, hr5⟩
      intro k hk1 hk2
      rw [hjs]
      rcases key k with ⟨_, h⟩ | ⟨_, h⟩ | ⟨_, h, _⟩
      · rw [h]; exact hr4 k hk1 hk2
      · rw [h]; exact fun x => hjn x.symm
      · rw [h]; have := inv.bound j hj1 hj2; omega
    · exact absurd hjz hj0
    · have hii : (group_step graph hash st i).v2cv i = st.cnvtxs + 1 := by
        rw [hv i, if_pos (Or.inl rfl)]
      refine ⟨i, h1, ?_, by rw [hii, hjc], ?_, ?_⟩
      · rcases hjg with h | ⟨_, h⟩
        · omega
        · have := h.1; omega
      · intro k hk1 hk2
        rw [hjc]
        rcases key k with ⟨_, h⟩ | ⟨h, _⟩ | ⟨h, _⟩
        · rw [h]; have := inv.bound k hk1 (by omega); omega
        · exact absurd h (inv.assigned k hk1 hk2)
        · exact absurd h (inv.assigned k hk1 hk2)
      · rcases hjg with h | h
        · exact Or.inl h.symm
        · exact Or.inr h
  · rw [group_step_of_ne_zero graph hash st i h0]
    exact ⟨fun x hx => by have := marks x hx; omega, rel⟩

theorem final_abs (graph : Graph) (n : Nat) (v2cv : Nat → Nat) (m : Scratch)
    (wf : WellFormed graph n) :
    AbsRel graph (hash_loop graph n m.hash) n (final_state graph n v2cv m) := by
  unfold final_state
  have := foldl_range_inv (group_step graph (hash_loop graph n m.hash))
    (fun i st => BasicInv n i st ∧ (∀ x ∈ vertices n, st.scatter x < i) ∧
      AbsRel graph (hash_loop graph n m.hash) n st) n 1
    (zero_loop n v2cv m.scatter)
    ⟨zero_loop_basic n v2cv m.scatter,
      fun x hx => by
        obtain ⟨h1, h2⟩ := mem_vertices.1 hx
        rw [((zero_loop_spec n v2cv m.scatter).2 x h1 h2).2]; omega,
      fun j hj1 hj2 hj0 => absurd ((zero_loop_spec n v2cv m.scatter).2 j hj1 hj2).1 hj0⟩
    (fun i s hi1 hi2 hp => ⟨group_step_basic graph _ n i s hi1 (by omega) hp.1,
      group_step_abs graph _ n i s wf hi1 (by omega) hp.1 hp.2.1 hp.2.2⟩)
  exact this.2.2

/-- A member of a supernode other than its first vertex, with a duplicate-free list, has
the closed neighborhood and the `nedges` of the first vertex. -/
theorem member_closed_eq (graph : Graph) (n : Nat) (v2cv : Nat → Nat) (m : Scratch)
    (wf : WellFormed graph n) (hn : n < 2 ^ 31) (r x : Nat) (hr : 1 ≤ r) (hx : x ≤ n)
    (hnd : x ∈ representatives graph n v2cv m ∨ (nbrs graph x).Nodup)
    (hrx : (final_state graph n v2cv m).v2cv r = (final_state graph n v2cv m).v2cv x)
    (hab : Absorbs graph (hash_loop graph n m.hash) r x) :
    insert x (nbrs graph x).toFinset = insert r (nbrs graph r).toFinset ∧
      (graph r).nedges = (graph x).nedges := by
  obtain ⟨hgt, hh, hdeg, hc⟩ := hab
  have hrv : r ∈ vertices n := mem_vertices.2 ⟨hr, by omega⟩
  have hxv : x ∈ vertices n := mem_vertices.2 ⟨by omega, hx⟩
  have hnd' : (nbrs graph x).Nodup := by
    rcases hnd with h | h
    · exact absurd hrx (((representative_iff_first graph n v2cv m x).1 h).2.2 r hr hgt)
    · exact h
  rw [hash_loop_apply graph n m.hash x (by omega) hx,
    hash_loop_apply graph n m.hash r hr (by omega)] at hh
  exact ⟨covered_closed_eq hn hrv hxv (wf r hrv) (by omega) hnd' hdeg hc hh.symm, hdeg⟩

/-! ## C1 -/

/-- C1 (counterexample): on the well-formed multigraph `dupGraph` (entries in `1..5`,
duplicates present) `find_flat` puts vertices 1 and 2 into one supernode: their hash values
and edge counts agree and `SameStructure` accepts, yet vertex 3 is an entry of 1 and not
of 2, so their neighbor sets apart from 1 and 2 differ. -/
theorem merge_exact_fails_with_duplicates :
    WellFormed dupGraph 5 ∧
    (find_flat dupGraph 5 (fun _ => 0) zeroScratch).2 1 =
      (find_flat dupGraph 5 (fun _ => 0) zeroScratch).2 2 ∧
    hash_vertex dupGraph 1 = hash_vertex dupGraph 2 ∧
    (dupGraph 1).nedges = (dupGraph 2).nedges ∧
    (nbrs dupGraph 1).toFinset \ {1, 2} ≠ (nbrs dupGraph 2).toFinset \ {1, 2} := by
  decide

/-- C1 (amended): on a graph with an `int` number `n` of vertices whose entries
`edges[1..nedges-1]` lie in `1..n` (any order, self entries allowed), any two distinct
vertices that `find_flat` maps to the same coarse vertex, each of which is the first vertex
of that supernode or has no repeated entry in `edges[1..nedges-1]`, have equal `nedges`,
list each other, and have the same neighbor set once both are removed. -/
theorem merge_exact_of_nodup (graph : Graph) (n : Nat) (v2cv : Nat → Nat) (m : Scratch)
    (wf : WellFormed graph n) (hn : n < 2 ^ 31) (i j : Nat)
    (hi : 1 ≤ i ∧ i ≤ n) (hj : 1 ≤ j ∧ j ≤ n) (hij : i ≠ j)
    (hdi : i ∈ representatives graph n v2cv m ∨ (nbrs graph i).Nodup)
    (hdj : j ∈ representatives graph n v2cv m ∨ (nbrs graph j).Nodup)
    (hsame : (find_flat graph n v2cv m).2 i = (find_flat graph n v2cv m).2 j) :
    (graph i).nedges = (graph j).nedges ∧ j ∈ nbrs graph i ∧ i ∈ nbrs graph j ∧
      (nbrs graph i).toFinset \ {i, j} = (nbrs graph j).toFinset \ {i, j} := by
  have inv := final_basic graph n v2cv m
  have rel := final_abs graph n v2cv m wf
  rw [find_flat_eq] at hsame
  have hsame' : (final_state graph n v2cv m).v2cv i = (final_state graph n v2cv m).v2cv j :=
    hsame
  obtain ⟨r, hr1, hr2, hr3, hr4, hr5⟩ := rel i hi.1 hi.2 (inv.assigned i hi.1 (by omega))
  obtain ⟨s, hs1, hs2, hs3, hs4, hs5⟩ := rel j hj.1 hj.2 (inv.assigned j hj.1 (by omega))
  have hrs : r = s := by
    rcases Nat.lt_trichotomy r s with h | h | h
    · exact absurd (hr3.trans hsame') (hs4 r hr1 h)
    · exact h
    · exact absurd (hs3.trans hsame'.symm) (hr4 s hs1 h)
  subst hrs
  have key : insert i (nbrs graph i).toFinset = insert j (nbrs graph j).toFinset ∧
      (graph i).nedges = (graph j).nedges := by
    rcases hr5 with rfl | ⟨_, hai⟩
    · rcases hs5 with h | ⟨_, haj⟩
      · exact absurd h hij
      · have := member_closed_eq graph n v2cv m wf hn r j hr1 hj.2 hdj hs3 haj
        exact ⟨this.1.symm, this.2⟩
    · have h1 := member_closed_eq graph n v2cv m wf hn r i hr1 hi.2 hdi hr3 hai
      rcases hs5 with rfl | ⟨_, haj⟩
      · exact ⟨h1.1, h1.2.symm⟩
      · have h2 := member_closed_eq graph n v2cv m wf hn r j hr1 hj.2 hdj hs3 haj
        exact ⟨h1.1.trans h2.1.symm, h1.2.symm.trans h2.2⟩
  exact ⟨key.2, pair_of_closed_eq hij key.1⟩

/-- C1 (witness): in `loopGraph` vertex 1, whose list names vertex 2 twice, absorbs
vertex 2, whose list is duplicate-free and contains 2 itself. -/
theorem merge_exact_of_nodup_witness :
    WellFormed loopGraph 3 ∧
    (1 ∈ representatives loopGraph 3 (fun _ => 0) zeroScratch ∧
      ¬ (nbrs loopGraph 1).Nodup) ∧
    ((nbrs loopGraph 2).Nodup ∧ 2 ∈ nbrs loopGraph 2) ∧
    (find_flat loopGraph 3 (fun _ => 0) zeroScratch).2 1 =
      (find_flat loopGraph 3 (fun _ => 0) zeroScratch).2 2 ∧
    ((loopGraph 1).nedges = (loopGraph 2).nedges ∧ 2 ∈ nbrs loopGraph 1 ∧
      1 ∈ nbrs loopGraph 2 ∧
      (nbrs loopGraph 1).toFinset \ {1, 2} = (nbrs loopGraph 2).toFinset \ {1, 2}) :=
  ⟨by decide, by decide, by decide, by decide,
    merge_exact_of_nodup loopGraph 3 (fun _ => 0) zeroScratch (by decide) (by decide) 1 2
      (by decide) (by decide) (by decide) (Or.inl (by decide)) (Or.inr (by decide))
      (by decide)⟩

end Chaco
